import Mathlib

/-!
A shallow embedding of the core of the FlyClient superlight-client
prototype (repository `mmr2`): the difficulty-weighted Merkle Mountain
Range of `mmr/persistent_mmr.rs`, the multi-leaf inclusion proof
generator and verifier of `mmr/proof.rs`, the sampler helpers of
`lib.rs`, and the wire codec of `request_response.rs`.

Modelling conventions:
* machine integers (`u64`, `u128`) are modelled as `Nat`; the
  specification declares difficulty overflow a fatal error
  (`OverflowError`), so difficulty arithmetic is exact;
* `sha3-256` is modelled as an arbitrary combining function passed as an
  explicit argument (`hc` for combining two 48-byte nodes, `sha3` for
  hashing byte strings); theorems quantify over it;
* `f64` values entering the proof-verification weight check are modelled
  as exact rationals (`ℚ`), matching the specification's reading of the
  check (`middle = ceil(aggr_weight * root_difficulty)`);
* fallible code returns `Except`; a Rust `panic!` / `unwrap` failure is
  modelled by a dedicated `abort` constructor of the error type.
-/

namespace FlyMMR

/-- `u64::is_power_of_two` (used throughout `persistent_mmr.rs`):
true iff the value is `2^k` for some `k`; false for `0`. -/
def isPow2 (n : Nat) : Bool := n != 0 && n == 2 ^ Nat.log 2 n

/-- `u64::next_power_of_two` (used throughout `persistent_mmr.rs`):
the smallest power of two that is `≥ n`, with `nextPow2 0 = 1`. -/
def nextPow2 (n : Nat) : Nat := 2 ^ Nat.clog 2 n

theorem isPow2_iff {n : Nat} : isPow2 n = true ↔ ∃ k, n = 2 ^ k := by
  constructor
  · intro h
    simp only [isPow2, Bool.and_eq_true, bne_iff_ne, beq_iff_eq, ne_eq] at h
    exact ⟨Nat.log 2 n, h.2⟩
  · rintro ⟨k, rfl⟩
    have h1 : (2 : Nat) ^ k ≠ 0 := by positivity
    unfold isPow2
    rw [Nat.log_pow (by norm_num)]
    simp [h1]

theorem isPow2_two_pow (k : Nat) : isPow2 (2 ^ k) = true :=
  isPow2_iff.mpr ⟨k, rfl⟩

theorem isPow2_one : isPow2 1 = true := isPow2_two_pow 0

theorem isPow2_two : isPow2 2 = true := isPow2_two_pow 1

theorem not_isPow2_zero : isPow2 0 = false := rfl

theorem isPow2_pos {n : Nat} (h : isPow2 n = true) : 0 < n := by
  obtain ⟨k, rfl⟩ := isPow2_iff.mp h
  positivity

theorem le_nextPow2 (n : Nat) : n ≤ nextPow2 n := by
  rcases Nat.eq_zero_or_pos n with h | h
  · simp [h]
  · exact Nat.le_pow_clog (by norm_num) n

theorem nextPow2_isPow2 (n : Nat) : isPow2 (nextPow2 n) = true :=
  isPow2_two_pow _

theorem nextPow2_of_isPow2 {n : Nat} (h : isPow2 n = true) : nextPow2 n = n := by
  obtain ⟨k, rfl⟩ := isPow2_iff.mp h
  simp [nextPow2, Nat.clog_pow 2 k (by norm_num)]

theorem lt_nextPow2_of_not_isPow2 {n : Nat} (hn : n ≠ 0)
    (h : isPow2 n = false) : n < nextPow2 n := by
  have hle := le_nextPow2 n
  rcases Nat.lt_or_ge n (nextPow2 n) with h1 | h1
  · exact h1
  · exfalso
    have h2 : n = nextPow2 n := le_antisymm hle h1
    have h3 := nextPow2_isPow2 n
    rw [← h2] at h3
    simp [h] at h3

theorem two_pow_div_two {k : Nat} : (2 : Nat) ^ (k + 1) / 2 = 2 ^ k := by
  rw [pow_succ, Nat.mul_div_cancel _ (by norm_num)]

/-- Structure of `nextPow2 n / 2` for a non-power-of-two `n ≥ 2`:
it is the largest power of two strictly below `n`, and `n` is at most
twice it. -/
theorem nextPow2_div_two_spec {n : Nat} (hn : 2 ≤ n) (h : isPow2 n = false) :
    ∃ j, nextPow2 n / 2 = 2 ^ j ∧ nextPow2 n = 2 ^ (j + 1) ∧
      2 ^ j < n ∧ n ≤ 2 ^ (j + 1) := by
  have hc : 0 < Nat.clog 2 n := Nat.clog_pos (by norm_num) hn
  rcases Nat.exists_eq_add_of_lt hc with ⟨j, hj⟩
  simp only [Nat.zero_add] at hj
  have hnext : nextPow2 n = 2 ^ (j + 1) := by rw [nextPow2, hj]
  refine ⟨j, ?_, hnext, ?_, ?_⟩
  · rw [hnext, two_pow_div_two]
  · have h2 := Nat.pow_pred_clog_lt_self (b := 2) (by norm_num) hn
    rw [hj] at h2
    simpa using h2
  · have h3 := le_nextPow2 n
    rw [hnext] at h3
    exact h3

/-- `get_left_leaf_number` / `get_left_subtree_number`
(`persistent_mmr.rs`, `mod.rs`): number of leaves of the left subtree of
a (sub)tree with `n` leaves. -/
def getLeftLeafNumber (n : Nat) : Nat :=
  if isPow2 n then n / 2 else nextPow2 n / 2

/-- Structure of the left-subtree size: for `c ≥ 2` it is a power of two
`2^j` with `2^j < c ≤ 2^(j+1)`. -/
theorem getLeftLeafNumber_spec {c : Nat} (h : 2 ≤ c) :
    ∃ j, getLeftLeafNumber c = 2 ^ j ∧ 2 ^ j < c ∧ c ≤ 2 ^ (j + 1) := by
  unfold getLeftLeafNumber
  split
  · next hp =>
    obtain ⟨k, hk⟩ := isPow2_iff.mp hp
    have hk0 : k ≠ 0 := by
      intro h0
      rw [h0] at hk
      norm_num at hk
      omega
    obtain ⟨j, hj⟩ : ∃ j, k = j + 1 := ⟨k - 1, by omega⟩
    subst hj
    subst hk
    exact ⟨j, two_pow_div_two, Nat.pow_lt_pow_succ (by norm_num), Nat.le_refl _⟩
  · next hp =>
    obtain ⟨j, h1, _, h3, h4⟩ := nextPow2_div_two_spec h (by simpa using hp)
    exact ⟨j, h1, h3, h4⟩

theorem getLeftLeafNumber_pos {n : Nat} (h : 2 ≤ n) :
    1 ≤ getLeftLeafNumber n := by
  obtain ⟨j, hj, _, _⟩ := getLeftLeafNumber_spec h
  rw [hj]
  exact Nat.one_le_two_pow

theorem getLeftLeafNumber_lt {n : Nat} (h : 2 ≤ n) :
    getLeftLeafNumber n < n := by
  obtain ⟨j, hj, h2, _⟩ := getLeftLeafNumber_spec h
  omega

theorem sub_getLeftLeafNumber_le {n : Nat} (h : 2 ≤ n) :
    n - getLeftLeafNumber n ≤ getLeftLeafNumber n := by
  obtain ⟨j, hj, h2, h3⟩ := getLeftLeafNumber_spec h
  have : (2 : Nat) ^ (j + 1) = 2 ^ j + 2 ^ j := by ring
  omega

theorem isPow2_getLeftLeafNumber {n : Nat} (h : 2 ≤ n) :
    isPow2 (getLeftLeafNumber n) = true := by
  obtain ⟨j, hj, _, _⟩ := getLeftLeafNumber_spec h
  rw [hj]
  exact isPow2_two_pow j

theorem getLeftLeafNumber_two_pow {k : Nat} :
    getLeftLeafNumber (2 ^ (k + 1)) = 2 ^ k := by
  unfold getLeftLeafNumber
  rw [if_pos (isPow2_two_pow (k + 1))]
  exact two_pow_div_two

/-- Alignment modulus of a subtree with `c` leaves: `2^⌈log2 c⌉`.
Left-subtree offsets in the MMR are always multiples of this quantity. -/
def alignOf (n : Nat) : Nat := if isPow2 n then n else nextPow2 n

theorem alignOf_eq_two_mul_left {c : Nat} (h : 2 ≤ c) :
    alignOf c = 2 * getLeftLeafNumber c := by
  unfold alignOf getLeftLeafNumber
  split
  · next hp =>
    obtain ⟨k, hk⟩ := isPow2_iff.mp hp
    have hk0 : k ≠ 0 := by
      intro h0
      rw [h0] at hk
      norm_num at hk
      omega
    obtain ⟨j, hj⟩ : ∃ j, k = j + 1 := ⟨k - 1, by omega⟩
    subst hj
    subst hk
    rw [two_pow_div_two, pow_succ]
    ring
  · next hp =>
    obtain ⟨j, h1, h2, _, _⟩ := nextPow2_div_two_spec h (by simpa using hp)
    rw [h1, h2, pow_succ]
    ring

theorem isPow2_alignOf {n : Nat} (hn : n ≠ 0) : isPow2 (alignOf n) = true := by
  unfold alignOf
  split
  · assumption
  · exact nextPow2_isPow2 n

theorem le_alignOf (n : Nat) : n ≤ alignOf n := by
  unfold alignOf
  split
  · exact Nat.le_refl n
  · exact le_nextPow2 n

theorem alignOf_two_pow {k : Nat} : alignOf (2 ^ k) = 2 ^ k := by
  unfold alignOf
  rw [if_pos (isPow2_two_pow k)]

/-- The greedy chunk taken by one iteration of the `get_node_number`
loop (`persistent_mmr.rs`): the whole of `a` if it is a power of two,
else the largest power of two below `a`. -/
def gnnChunk (a : Nat) : Nat := if isPow2 a then a else nextPow2 a / 2

theorem gnnChunk_pos {a : Nat} (h : a ≠ 0) : 1 ≤ gnnChunk a := by
  unfold gnnChunk
  split
  · omega
  · next hp =>
    have h2 : 2 ≤ a := by
      rcases Nat.lt_or_ge a 2 with h1 | h1
      · interval_cases a
        · omega
        · simp [isPow2_one] at hp
      · exact h1
    obtain ⟨j, h1, _, _, _⟩ := nextPow2_div_two_spec h2 (by simpa using hp)
    rw [h1]
    exact Nat.one_le_two_pow

theorem gnnChunk_le {a : Nat} (h : a ≠ 0) : gnnChunk a ≤ a := by
  unfold gnnChunk
  split
  · exact Nat.le_refl a
  · next hp =>
    have h2 : 2 ≤ a := by
      rcases Nat.lt_or_ge a 2 with h1 | h1
      · interval_cases a
        · omega
        · simp [isPow2_one] at hp
      · exact h1
    obtain ⟨j, h1, _, h3, _⟩ := nextPow2_div_two_spec h2 (by simpa using hp)
    omega

/-- `get_node_number` (`persistent_mmr.rs`): number of 48-byte node
slots occupied by the complete subtrees covering the first `a` leaves
(greedy binary decomposition: each chunk of `2^k` leaves contributes
`2^(k+1) - 1` nodes). -/
def getNodeNumber (a : Nat) : Nat :=
  if h : a = 0 then 0
  else gnnChunk a + gnnChunk a - 1 + getNodeNumber (a - gnnChunk a)
termination_by a
decreasing_by
  have h1 := gnnChunk_pos h
  omega

theorem getNodeNumber_zero : getNodeNumber 0 = 0 := by
  unfold getNodeNumber
  simp

theorem getNodeNumber_two_pow {k : Nat} :
    getNodeNumber (2 ^ k) = 2 ^ (k + 1) - 1 := by
  unfold getNodeNumber
  have h1 : (2 : Nat) ^ k ≠ 0 := by positivity
  rw [dif_neg h1]
  unfold gnnChunk
  rw [if_pos (isPow2_two_pow k), Nat.sub_self, getNodeNumber_zero]
  have : (2 : Nat) ^ (k + 1) = 2 ^ k + 2 ^ k := by ring
  omega

theorem pow2_le_of_lt_pow {x m : Nat} (hx : isPow2 x = true)
    (h : x < 2 ^ (m + 1)) : x ≤ 2 ^ m := by
  obtain ⟨k, rfl⟩ := isPow2_iff.mp hx
  have hk : k < m + 1 := by
    by_contra hc
    push_neg at hc
    have h2 : (2 : Nat) ^ (m + 1) ≤ 2 ^ k := Nat.pow_le_pow_right (by norm_num) hc
    omega
  exact Nat.pow_le_pow_right (by norm_num) (by omega)

theorem pow2_dvd {d x : Nat} (hd : isPow2 d = true) (hx : isPow2 x = true)
    (h : d ≤ x) : d ∣ x := by
  obtain ⟨k, rfl⟩ := isPow2_iff.mp hd
  obtain ⟨m, rfl⟩ := isPow2_iff.mp hx
  have hk : k ≤ m := by
    by_contra hc
    push_neg at hc
    have h2 : (2 : Nat) ^ m < 2 ^ k := Nat.pow_lt_pow_right (by norm_num) hc
    omega
  exact pow_dvd_pow 2 hk

theorem isPow2_two_mul {L : Nat} (h : isPow2 L = true) :
    isPow2 (2 * L) = true := by
  obtain ⟨k, rfl⟩ := isPow2_iff.mp h
  have : 2 * 2 ^ k = 2 ^ (k + 1) := by ring
  rw [this]
  exact isPow2_two_pow _

theorem dvd_add_le {d a b : Nat} (hda : d ∣ a) (hdb : d ∣ b) (h : a < b) :
    a + d ≤ b := by
  have h1 : d ∣ b - a := Nat.dvd_sub' hdb hda
  have h2 : d ≤ b - a := Nat.le_of_dvd (by omega) h1
  omega

theorem nextPow2_eq_of_between {m x : Nat} (h1 : 2 ^ m < x)
    (h2 : x ≤ 2 ^ (m + 1)) : nextPow2 x = 2 ^ (m + 1) := by
  unfold nextPow2
  congr 1
  have ha : Nat.clog 2 x ≤ m + 1 := (Nat.le_pow_iff_clog_le (by norm_num)).mp h2
  have hb : m < Nat.clog 2 x := (Nat.pow_lt_iff_lt_clog (by norm_num)).mp h1
  omega

theorem not_isPow2_of_strict_between {m x : Nat} (h1 : 2 ^ m < x)
    (h2 : x < 2 ^ (m + 1)) : isPow2 x = false := by
  rcases Bool.eq_false_or_eq_true (isPow2 x) with h | h
  · exfalso
    obtain ⟨k, rfl⟩ := isPow2_iff.mp h
    have hk1 : m < k := (Nat.pow_lt_pow_iff_right (by norm_num)).mp h1
    have hk2 : k < m + 1 := (Nat.pow_lt_pow_iff_right (by norm_num)).mp h2
    omega
  · exact h

/-- Additivity of `get_node_number` across an aligned power-of-two chunk:
appending a complete subtree of `L` leaves at an offset `a` that is a
multiple of `2L` occupies exactly `2L - 1` further node slots. -/
theorem getNodeNumber_add_pow {L a : Nat} (hL : isPow2 L = true)
    (hdvd : (2 * L) ∣ a) :
    getNodeNumber (a + L) = getNodeNumber a + (2 * L - 1) := by
  induction a using Nat.strong_induction_on with
  | _ a ih =>
  rcases Nat.eq_zero_or_pos a with rfl | ha
  · obtain ⟨k, rfl⟩ := isPow2_iff.mp hL
    rw [Nat.zero_add, getNodeNumber_zero, getNodeNumber_two_pow]
    have : (2 : Nat) ^ (k + 1) = 2 * 2 ^ k := by ring
    omega
  · have hLpos : 0 < L := isPow2_pos hL
    have ha2L : 2 * L ≤ a := Nat.le_of_dvd ha hdvd
    rcases Or.symm (Bool.eq_false_or_eq_true (isPow2 a)) with hpow | hpow
    · -- `a` is not a power of two: peel off the greedy chunk `A = 2^j`.
      have ha2 : 2 ≤ a := by omega
      obtain ⟨j, hA, hAn, hAlt, hAle⟩ := nextPow2_div_two_spec ha2 hpow
      have haLt : a < 2 ^ (j + 1) := by
        rcases Nat.lt_or_ge a (2 ^ (j + 1)) with h | h
        · exact h
        · have : a = 2 ^ (j + 1) := by omega
          rw [this] at hpow
          rw [isPow2_two_pow] at hpow
          exact absurd hpow (by simp)
      have h2L2j : 2 * L ≤ 2 ^ j := by
        apply pow2_le_of_lt_pow (isPow2_two_mul hL)
        omega
      have h2Ldvd2j : (2 * L) ∣ 2 ^ j :=
        pow2_dvd (isPow2_two_mul hL) (isPow2_two_pow j) h2L2j
      have h2Ldvd2j1 : (2 * L) ∣ 2 ^ (j + 1) := by
        have : (2 : Nat) ^ (j + 1) = 2 * 2 ^ j := by ring
        rw [this]
        exact Dvd.dvd.mul_left h2Ldvd2j 2
      have haL2j1 : a + 2 * L ≤ 2 ^ (j + 1) := dvd_add_le hdvd h2Ldvd2j1 haLt
      -- the greedy chunk of `a + L` is also `2^j`
      have hchunkAL : gnnChunk (a + L) = 2 ^ j := by
        have hb1 : 2 ^ j < a + L := by omega
        have hb2 : a + L < 2 ^ (j + 1) := by omega
        unfold gnnChunk
        rw [not_isPow2_of_strict_between hb1 hb2, if_neg (by simp),
          nextPow2_eq_of_between hb1 (by omega), two_pow_div_two]
      have hchunkA : gnnChunk a = 2 ^ j := by
        unfold gnnChunk
        rw [hpow, if_neg (by simp), hA]
      have hAlea : 2 ^ j ≤ a := by omega
      have hdvd2 : (2 * L) ∣ (a - 2 ^ j) := Nat.dvd_sub' hdvd h2Ldvd2j
      have hrec := ih (a - 2 ^ j) (by
        have : 1 ≤ 2 ^ j := Nat.one_le_two_pow
        omega) hdvd2
      have e1 : getNodeNumber (a + L) =
          2 ^ j + 2 ^ j - 1 + getNodeNumber (a + L - 2 ^ j) := by
        rw [getNodeNumber, dif_neg (by omega), hchunkAL]
      have e2 : getNodeNumber a =
          2 ^ j + 2 ^ j - 1 + getNodeNumber (a - 2 ^ j) := by
        rw [getNodeNumber, dif_neg (by omega), hchunkA]
      have e3 : a + L - 2 ^ j = a - 2 ^ j + L := by omega
      rw [e1, e2, e3, hrec]
      omega
    · -- `a` is a power of two: the chunk of `a + L` is the whole of `a`.
      obtain ⟨m, ham⟩ := isPow2_iff.mp hpow
      have hLlt : L < a := by omega
      have h1 : a < a + L := by omega
      have h2 : a + L ≤ 2 ^ (m + 1) := by
        have : (2 : Nat) ^ (m + 1) = 2 * 2 ^ m := by ring
        omega
      have h2' : a + L < 2 ^ (m + 1) := by
        have : (2 : Nat) ^ (m + 1) = 2 * 2 ^ m := by ring
        omega
      have hchunkAL : gnnChunk (a + L) = a := by
        unfold gnnChunk
        rw [not_isPow2_of_strict_between (x := a + L) (m := m) (by omega) h2',
          if_neg (by simp),
          nextPow2_eq_of_between (m := m) (by omega) h2, two_pow_div_two, ham]
      have e1 : getNodeNumber (a + L) = a + a - 1 + getNodeNumber L := by
        rw [getNodeNumber, dif_neg (by omega), hchunkAL]
        congr 2
        omega
      have e2 : getNodeNumber a = a + a - 1 := by
        rw [ham, getNodeNumber_two_pow]
        have : (2 : Nat) ^ (m + 1) = 2 ^ m + 2 ^ m := by ring
        omega
      obtain ⟨k, hk⟩ := isPow2_iff.mp hL
      have e3 : getNodeNumber L = 2 * L - 1 := by
        rw [hk, getNodeNumber_two_pow]
        have : (2 : Nat) ^ (k + 1) = 2 * 2 ^ k := by ring
        omega
      rw [e1, e2, e3]

/-! ### Extra epoch anchors (claim C7)

`create_new_proof` and `verify_required_blocks` (`lib.rs`) both run the
same loop: starting from `((n - 1) / 30000) * 30000`, push the current
index and step back by `30000`, while the index is `> 30000` and fewer
than 10 indices were added. -/

/-- The extra-anchor loop body; the second argument is the remaining
budget `10 - added`. -/
def extraBlocksLoop (current : Nat) : Nat → List Nat
  | 0 => []
  | budget + 1 =>
    if 30000 < current then current :: extraBlocksLoop (current - 30000) budget
    else []

/-- The extra "checkpoint" block indices added by `create_new_proof` and
recomputed by `verify_required_blocks` (`lib.rs`) for leaf count `n`. -/
def extraBlocks (n : Nat) : List Nat :=
  extraBlocksLoop ((n - 1) / 30000 * 30000) 10

theorem extraBlocksLoop_spec (budget q : Nat) :
    extraBlocksLoop (30000 * q) budget =
      (List.range (min budget (q - 1))).map (fun k => 30000 * (q - k)) := by
  induction budget generalizing q with
  | zero => simp [extraBlocksLoop]
  | succ b ih =>
    unfold extraBlocksLoop
    split
    · next hgt =>
      have hq : 2 ≤ q := by
        by_contra hc
        push_neg at hc
        interval_cases q <;> omega
      have e1 : 30000 * q - 30000 = 30000 * (q - 1) := by
        rw [Nat.mul_sub]
      rw [e1, ih (q - 1)]
      have e2 : min (b + 1) (q - 1) = min b (q - 1 - 1) + 1 := by omega
      rw [e2, List.range_succ_eq_map, List.map_cons, List.map_map]
      simp only [Nat.sub_zero]
      rw [List.cons.injEq]
      refine ⟨rfl, ?_⟩
      apply List.map_congr_left
      intro k hk
      simp only [Function.comp_apply, Nat.succ_eq_add_one]
      have e3 : q - 1 - k = q - (k + 1) := by omega
      rw [e3]
    · next hle =>
      have hq : q ≤ 1 := by
        by_contra hc
        push_neg at hc
        have : 30000 * 2 ≤ 30000 * q := Nat.mul_le_mul_left _ hc
        omega
      have : min (b + 1) (q - 1) = 0 := by omega
      rw [this]
      simp

/-- C7: the extra epoch-anchor indices produced when building a proof
(and recomputed by the verifier) are exactly
`floor((n-1)/30000)*30000 - k*30000` for `0 ≤ k < min 10 ((n-1)/30000 - 1)`,
and every element is strictly greater than 30000. -/
theorem extra_anchor_policy (n : Nat) (hn : 1 ≤ n) :
    extraBlocks n =
      (List.range (min 10 ((n - 1) / 30000 - 1))).map
        (fun k => (n - 1) / 30000 * 30000 - k * 30000) ∧
    ∀ x ∈ extraBlocks n, 30000 < x := by
  have hmain : extraBlocks n =
      (List.range (min 10 ((n - 1) / 30000 - 1))).map
        (fun k => (n - 1) / 30000 * 30000 - k * 30000) := by
    unfold extraBlocks
    rw [Nat.mul_comm ((n - 1) / 30000) 30000, extraBlocksLoop_spec]
    apply List.map_congr_left
    intro k hk
    rw [List.mem_range] at hk
    rw [Nat.mul_sub, Nat.mul_comm 30000 ((n - 1) / 30000), Nat.mul_comm 30000 k]
  refine ⟨hmain, ?_⟩
  intro x hx
  rw [hmain] at hx
  obtain ⟨k, hk, rfl⟩ := List.mem_map.mp hx
  rw [List.mem_range] at hk
  set q := (n - 1) / 30000 with hq
  have hkq : k ≤ q - 2 := by omega
  have h2q : 2 ≤ q := by omega
  have : k * 30000 + 2 * 30000 ≤ q * 30000 := by
    have : (k + 2) * 30000 ≤ q * 30000 := Nat.mul_le_mul_right _ (by omega)
    omega
  omega

/-- Witness for `extra_anchor_policy` at `n = 90001`
(`q = 3`, anchors `{90000, 60000}`). -/
theorem extra_anchor_policy_witness :
    (1 ≤ 90001) ∧
      (extraBlocks 90001 =
        (List.range (min 10 ((90001 - 1) / 30000 - 1))).map
          (fun k => (90001 - 1) / 30000 * 30000 - k * 30000) ∧
      ∀ x ∈ extraBlocks 90001, 30000 < x) :=
  ⟨by norm_num, extra_anchor_policy 90001 (by norm_num)⟩

/-! ### Byte-level helpers (wire codec)

Byte strings are modelled as `List Nat` with entries below 256.
`toBeBytes w v` is Rust's `to_be_bytes` of a `w`-byte unsigned integer;
`fromBeBytes` is `from_be_bytes`. -/

/-- Big-endian encoding of `v` on `w` bytes (`uN::to_be_bytes`);
truncates to `v % 256^w`, which is the identity within type bounds. -/
def toBeBytes : Nat → Nat → List Nat
  | 0, _ => []
  | w + 1, v => toBeBytes w (v / 256) ++ [v % 256]

/-- Big-endian decoding of a byte string (`uN::from_be_bytes`). -/
def fromBeBytes (l : List Nat) : Nat :=
  l.foldl (fun acc b => acc * 256 + b) 0

theorem toBeBytes_length (w v : Nat) : (toBeBytes w v).length = w := by
  induction w generalizing v with
  | zero => rfl
  | succ w ih => simp [toBeBytes, ih]

theorem fromBeBytes_aux (w v a : Nat) :
    (toBeBytes w v).foldl (fun acc b => acc * 256 + b) a =
      a * 256 ^ w + v % 256 ^ w := by
  induction w generalizing v a with
  | zero => simp [toBeBytes, Nat.mod_one]
  | succ w ih =>
    rw [toBeBytes, List.foldl_append, ih]
    simp only [List.foldl_cons, List.foldl_nil]
    have h1 : v % 256 ^ (w + 1) = v % 256 + 256 * (v / 256 % 256 ^ w) := by
      conv_lhs => rw [pow_succ, Nat.mul_comm]
      exact Nat.mod_mul
    have h2 : (256 : Nat) ^ (w + 1) = 256 ^ w * 256 := pow_succ 256 w
    nlinarith [Nat.zero_le (v % 256 ^ w)]

theorem fromBeBytes_toBeBytes {w v : Nat} (h : v < 256 ^ w) :
    fromBeBytes (toBeBytes w v) = v := by
  unfold fromBeBytes
  rw [fromBeBytes_aux]
  simp [Nat.mod_eq_of_lt h]

/-! ### Request wire codec (`request_response.rs`, claim C9) -/

/-- `BitRead::read_u8` on a `DeserializeArray`: bounds-checked single
byte read returning the value and the advanced position. -/
def readU8 (a : List Nat) (pos : Nat) : Except String (Nat × Nat) :=
  if pos + 1 > a.length then .error "Request is too short"
  else .ok (fromBeBytes ((a.drop pos).take 1), pos + 1)

/-- `BitRead::read_u64`: bounds-checked big-endian 8-byte read. -/
def readU64 (a : List Nat) (pos : Nat) : Except String (Nat × Nat) :=
  if pos + 8 > a.length then .error "Request is too short"
  else .ok (fromBeBytes ((a.drop pos).take 8), pos + 8)

/-- `BitRead::read_u128`: bounds-checked big-endian 16-byte read. -/
def readU128 (a : List Nat) (pos : Nat) : Except String (Nat × Nat) :=
  if pos + 16 > a.length then .error "Request is too short"
  else .ok (fromBeBytes ((a.drop pos).take 16), pos + 16)

/-- `Request` (`request_response.rs`). -/
inductive Request
  | BlockHeader (nb : Nat)
  | LatestBlockNumber
  | NonInteractiveProof (lambda c l : Nat)
  | ContinueNonInteractiveProof (lambda c l lastBlock : Nat)
deriving DecidableEq

/-- `Request::serialize`: 1-byte tag followed by big-endian `u64`
fields. -/
def Request.serialize : Request → List Nat
  | .BlockHeader nb => 0 :: toBeBytes 8 nb
  | .LatestBlockNumber => [1]
  | .NonInteractiveProof lam c l =>
      2 :: (toBeBytes 8 lam ++ toBeBytes 8 c ++ toBeBytes 8 l)
  | .ContinueNonInteractiveProof lam c l lastBlock =>
      3 :: (toBeBytes 8 lam ++ toBeBytes 8 c ++ toBeBytes 8 l ++
        toBeBytes 8 lastBlock)

/-- `Request::deserialize`: reads the tag, then the tag's `u64` fields,
each read bounds-checked; unknown tags are rejected.  The source returns
as soon as the fields are read: bytes after the last field are ignored. -/
def Request.deserialize (req : List Nat) : Except String Request := do
  let (reqType, p0) ← readU8 req 0
  match reqType with
  | 0 => do
    let (nb, _) ← readU64 req p0
    return Request.BlockHeader nb
  | 1 => return Request.LatestBlockNumber
  | 2 => do
    let (lam, p1) ← readU64 req p0
    let (c, p2) ← readU64 req p1
    let (l, _) ← readU64 req p2
    return Request.NonInteractiveProof lam c l
  | 3 => do
    let (lam, p1) ← readU64 req p0
    let (c, p2) ← readU64 req p1
    let (l, p3) ← readU64 req p2
    let (lastBlock, _) ← readU64 req p3
    return Request.ContinueNonInteractiveProof lam c l lastBlock
  | _ => .error "Invalid request"

theorem readU8_here (pre post : List Nat) (t : Nat) (ht : t < 256) :
    readU8 (pre ++ t :: post) pre.length = .ok (t, pre.length + 1) := by
  unfold readU8
  have hcond : ¬ (pre.length + 1 > (pre ++ t :: post).length) := by
    rw [List.length_append, List.length_cons]
    omega
  rw [if_neg hcond]
  rw [List.drop_append_of_le_length (Nat.le_refl _), List.drop_length,
    List.nil_append]
  simp [fromBeBytes, Nat.mod_eq_of_lt ht]

theorem readU64_here (pre post : List Nat) (v : Nat) (hv : v < 2 ^ 64) :
    readU64 (pre ++ (toBeBytes 8 v ++ post)) pre.length =
      .ok (v, pre.length + 8) := by
  unfold readU64
  have hlen : (toBeBytes 8 v).length = 8 := toBeBytes_length 8 v
  have hcond : ¬ (pre.length + 8 > (pre ++ (toBeBytes 8 v ++ post)).length) := by
    rw [List.length_append, List.length_append, hlen]
    omega
  rw [if_neg hcond]
  rw [List.drop_append_of_le_length (Nat.le_refl _), List.drop_length,
    List.nil_append, List.take_append_of_le_length (by omega),
    List.take_of_length_le (by omega)]
  rw [fromBeBytes_toBeBytes (by norm_num at hv ⊢; omega)]

/-- All four request fields fit in a `u64`. -/
def Request.bounded : Request → Prop
  | .BlockHeader nb => nb < 2 ^ 64
  | .LatestBlockNumber => True
  | .NonInteractiveProof lam c l => lam < 2 ^ 64 ∧ c < 2 ^ 64 ∧ l < 2 ^ 64
  | .ContinueNonInteractiveProof lam c l lastBlock =>
      lam < 2 ^ 64 ∧ c < 2 ^ 64 ∧ l < 2 ^ 64 ∧ lastBlock < 2 ^ 64

/-- C9 counterexample: a validly encoded request followed by a trailing
garbage byte is accepted (and the trailing byte silently ignored), not
rejected. -/
theorem request_trailing_byte_accepted :
    Request.deserialize (Request.serialize Request.LatestBlockNumber ++ [0]) =
      .ok Request.LatestBlockNumber := by
  rfl

/-- C9 (amended): every multi-byte read during request decoding is
bounds-checked against the input length (too-short inputs are rejected),
but trailing bytes after a validly encoded request are ignored:
decoding returns the same request rather than an error. -/
theorem request_decode_bounds_and_trailing (r : Request) (extra : List Nat)
    (hb : Request.bounded r) :
    Request.deserialize (Request.serialize r ++ extra) = .ok r ∧
    (∀ (a : List Nat) (pos : Nat), a.length < pos + 8 →
      readU64 a pos = .error "Request is too short") := by
  constructor
  · cases r with
    | BlockHeader nb =>
      have h0 := readU8_here [] (toBeBytes 8 nb ++ extra) 0 (by norm_num)
      have h1 := readU64_here [0] extra nb (by exact hb)
      simp only [List.nil_append, List.singleton_append, List.cons_append,
        List.append_assoc, List.length_nil, List.length_cons,
        List.length_append, toBeBytes_length] at h0 h1
      norm_num at h0 h1
      simp [Request.serialize, Request.deserialize, List.append_assoc,
        List.cons_append, h0, h1, Bind.bind, Except.bind, Pure.pure, Except.pure]
    | LatestBlockNumber =>
      rfl
    | NonInteractiveProof lam c l =>
      obtain ⟨hb1, hb2, hb3⟩ := hb
      have h0 := readU8_here []
        (toBeBytes 8 lam ++ (toBeBytes 8 c ++ (toBeBytes 8 l ++ extra))) 2
        (by norm_num)
      have h1 := readU64_here [2] (toBeBytes 8 c ++ (toBeBytes 8 l ++ extra))
        lam hb1
      have h2 := readU64_here ([2] ++ toBeBytes 8 lam)
        (toBeBytes 8 l ++ extra) c hb2
      have h3 := readU64_here ([2] ++ toBeBytes 8 lam ++ toBeBytes 8 c)
        extra l hb3
      simp only [List.nil_append, List.singleton_append, List.cons_append,
        List.append_assoc, List.length_nil, List.length_cons,
        List.length_append, toBeBytes_length] at h0 h1 h2 h3
      norm_num at h0 h1 h2 h3
      simp [Request.serialize, Request.deserialize, List.append_assoc,
        List.cons_append, h0, h1, h2, h3, Bind.bind, Except.bind, Pure.pure, Except.pure]
    | ContinueNonInteractiveProof lam c l lastBlock =>
      obtain ⟨hb1, hb2, hb3, hb4⟩ := hb
      have h0 := readU8_here []
        (toBeBytes 8 lam ++ (toBeBytes 8 c ++ (toBeBytes 8 l ++
          (toBeBytes 8 lastBlock ++ extra)))) 3 (by norm_num)
      have h1 := readU64_here [3]
        (toBeBytes 8 c ++ (toBeBytes 8 l ++ (toBeBytes 8 lastBlock ++ extra)))
        lam hb1
      have h2 := readU64_here ([3] ++ toBeBytes 8 lam)
        (toBeBytes 8 l ++ (toBeBytes 8 lastBlock ++ extra)) c hb2
      have h3 := readU64_here ([3] ++ toBeBytes 8 lam ++ toBeBytes 8 c)
        (toBeBytes 8 lastBlock ++ extra) l hb3
      have h4 := readU64_here
        ([3] ++ toBeBytes 8 lam ++ toBeBytes 8 c ++ toBeBytes 8 l)
        extra lastBlock hb4
      simp only [List.nil_append, List.singleton_append, List.cons_append,
        List.append_assoc, List.length_nil, List.length_cons,
        List.length_append, toBeBytes_length] at h0 h1 h2 h3 h4
      norm_num at h0 h1 h2 h3 h4
      simp [Request.serialize, Request.deserialize, List.append_assoc,
        List.cons_append, h0, h1, h2, h3, h4, Bind.bind, Except.bind, Pure.pure, Except.pure]
  · intro a pos hlen
    unfold readU64
    rw [if_pos (by omega)]

/-- Witness for `request_decode_bounds_and_trailing` at a concrete
request with a trailing byte. -/
theorem request_decode_bounds_and_trailing_witness :
    Request.bounded (Request.BlockHeader 7) ∧
    (Request.deserialize
        (Request.serialize (Request.BlockHeader 7) ++ [255]) =
          .ok (Request.BlockHeader 7) ∧
      (∀ (a : List Nat) (pos : Nat), a.length < pos + 8 →
        readU64 a pos = .error "Request is too short")) :=
  ⟨by norm_num [Request.bounded],
    request_decode_bounds_and_trailing (Request.BlockHeader 7) [255]
      (by norm_num [Request.bounded])⟩

/-! ### Proof data type and its wire codec (`mmr/proof.rs`, claim C8)

`ProofElem` carries `(hash, difficulty)` pairs; hashes are opaque
32-byte values modelled as `Nat` below `2^256`. -/

/-- `ProofElem` (`mmr/proof.rs`): `Node(pair, dir)` with
`dir = false` for left and `true` for right, `Root(pair, leaf_number)`,
`Child(pair)`. -/
inductive ProofElem
  | Node (hd : Nat × Nat) (dir : Bool)
  | Root (hd : Nat × Nat) (leafNumber : Nat)
  | Child (hd : Nat × Nat)
deriving DecidableEq

/-- `Proof` (`mmr/proof.rs`). -/
structure Proof where
  rootHash : Nat
  rootDifficulty : Nat
  leafNumber : Nat
  elem : List ProofElem
deriving DecidableEq

/-- One element of `Proof::serialize`: tag byte `0` for `Child`,
`1` for `Root`, `2` for right `Node`, `3` for left `Node`, followed by
hash (32), difficulty (16) and, for `Root`, leaf count (8). -/
def serializeElem : ProofElem → List Nat
  | .Child (h, d) => 0 :: (toBeBytes 32 h ++ toBeBytes 16 d)
  | .Root (h, d) ln => 1 :: (toBeBytes 32 h ++ toBeBytes 16 d ++ toBeBytes 8 ln)
  | .Node (h, d) true => 2 :: (toBeBytes 32 h ++ toBeBytes 16 d)
  | .Node (h, d) false => 3 :: (toBeBytes 32 h ++ toBeBytes 16 d)

/-- The element loop of `Proof::serialize`. -/
def serializeElems : List ProofElem → List Nat
  | [] => []
  | e :: es => serializeElem e ++ serializeElems es

/-- `Proof::serialize`: header `root_hash(32) ‖ root_difficulty(16) ‖
leaf_number(8)` followed by the encoded elements. -/
def Proof.serialize (p : Proof) : List Nat :=
  toBeBytes 32 p.rootHash ++ toBeBytes 16 p.rootDifficulty ++
    toBeBytes 8 p.leafNumber ++ serializeElems p.elem

/-- The element-parsing loop of `Proof::deserialize`: reads a tag byte,
bounds-checks the field length against the remaining input, decodes the
fields, and continues until the input is exhausted. -/
def parseElems : List Nat → Except String (List ProofElem)
  | [] => .ok []
  | t :: rest =>
    match t with
    | 0 =>
      if rest.length < 48 then .error "Proof is invalid"
      else
        match parseElems (rest.drop 48) with
        | .error e => .error e
        | .ok es =>
          .ok (.Child (fromBeBytes (rest.take 32),
            fromBeBytes ((rest.drop 32).take 16)) :: es)
    | 1 =>
      if rest.length < 56 then .error "Proof is invalid"
      else
        match parseElems (rest.drop 56) with
        | .error e => .error e
        | .ok es =>
          .ok (.Root (fromBeBytes (rest.take 32),
            fromBeBytes ((rest.drop 32).take 16))
            (fromBeBytes ((rest.drop 48).take 8)) :: es)
    | 2 =>
      if rest.length < 48 then .error "Proof is invalid"
      else
        match parseElems (rest.drop 48) with
        | .error e => .error e
        | .ok es =>
          .ok (.Node (fromBeBytes (rest.take 32),
            fromBeBytes ((rest.drop 32).take 16)) true :: es)
    | 3 =>
      if rest.length < 48 then .error "Proof is invalid"
      else
        match parseElems (rest.drop 48) with
        | .error e => .error e
        | .ok es =>
          .ok (.Node (fromBeBytes (rest.take 32),
            fromBeBytes ((rest.drop 32).take 16)) false :: es)
    | _ => .error "Proof is invalid"
termination_by l => l.length
decreasing_by
  all_goals simp [List.length_drop]
  all_goals omega

/-- `Proof::deserialize`: rejects inputs shorter than 64 bytes, then
reads the 56-byte header and parses the remaining elements. -/
def Proof.deserialize (proof : List Nat) : Except String Proof :=
  if proof.length < 64 then .error "Proof is invalid"
  else
    match parseElems (proof.drop 56) with
    | .error e => .error e
    | .ok elems =>
      .ok ⟨fromBeBytes (proof.take 32), fromBeBytes ((proof.drop 32).take 16),
        fromBeBytes ((proof.drop 48).take 8), elems⟩

/-- Field bounds imposed by the Rust types (`H256`, `u128`, `u64`). -/
def elemBounded : ProofElem → Prop
  | .Child (h, d) => h < 2 ^ 256 ∧ d < 2 ^ 128
  | .Root (h, d) ln => h < 2 ^ 256 ∧ d < 2 ^ 128 ∧ ln < 2 ^ 64
  | .Node (h, d) _ => h < 2 ^ 256 ∧ d < 2 ^ 128

theorem serializeElems_append (es fs : List ProofElem) :
    serializeElems (es ++ fs) = serializeElems es ++ serializeElems fs := by
  induction es with
  | nil => rfl
  | cons e es ih => simp [serializeElems, ih]

theorem parseElems_cons_48 (t h d : Nat) (ht : t = 0 ∨ t = 2 ∨ t = 3)
    (hh : h < 2 ^ 256) (hd : d < 2 ^ 128) (rest : List Nat) :
    parseElems (t :: ((toBeBytes 32 h ++ toBeBytes 16 d) ++ rest)) =
      match parseElems rest with
      | .error e => .error e
      | .ok es =>
        .ok ((if t = 0 then ProofElem.Child (h, d)
          else ProofElem.Node (h, d) (t = 2)) :: es) := by
  have e32 : (toBeBytes 32 h).length = 32 := toBeBytes_length _ _
  have e16 : (toBeBytes 16 d).length = 16 := toBeBytes_length _ _
  have hlen : ¬ ((toBeBytes 32 h ++ toBeBytes 16 d) ++ rest).length < 48 := by
    simp [e32, e16]
    omega
  have hdrop48 : ((toBeBytes 32 h ++ toBeBytes 16 d) ++ rest).drop 48 = rest :=
    List.drop_left' (by simp [e32, e16])
  have htake32 : ((toBeBytes 32 h ++ toBeBytes 16 d) ++ rest).take 32 =
      toBeBytes 32 h := by
    rw [List.append_assoc]
    exact List.take_left' e32
  have hdrop32 : ((toBeBytes 32 h ++ toBeBytes 16 d) ++ rest).drop 32 =
      toBeBytes 16 d ++ rest := by
    rw [List.append_assoc]
    exact List.drop_left' e32
  have htake16 : (((toBeBytes 32 h ++ toBeBytes 16 d) ++ rest).drop 32).take 16 =
      toBeBytes 16 d := by
    rw [hdrop32]
    exact List.take_left' e16
  have hfh : fromBeBytes (toBeBytes 32 h) = h :=
    fromBeBytes_toBeBytes (by norm_num at hh ⊢; omega)
  have hfd : fromBeBytes (toBeBytes 16 d) = d :=
    fromBeBytes_toBeBytes (by norm_num at hd ⊢; omega)
  rcases ht with rfl | rfl | rfl
  · rw [parseElems]
    rw [if_neg hlen, hdrop48, htake32, htake16, hfh, hfd]
    simp
  · rw [parseElems]
    rw [if_neg hlen, hdrop48, htake32, htake16, hfh, hfd]
    simp
  · rw [parseElems]
    rw [if_neg hlen, hdrop48, htake32, htake16, hfh, hfd]
    simp

theorem parseElems_cons_root (h d ln : Nat)
    (hh : h < 2 ^ 256) (hd : d < 2 ^ 128) (hl : ln < 2 ^ 64)
    (rest : List Nat) :
    parseElems (1 ::
        ((toBeBytes 32 h ++ toBeBytes 16 d ++ toBeBytes 8 ln) ++ rest)) =
      match parseElems rest with
      | .error e => .error e
      | .ok es => .ok (ProofElem.Root (h, d) ln :: es) := by
  have e32 : (toBeBytes 32 h).length = 32 := toBeBytes_length _ _
  have e16 : (toBeBytes 16 d).length = 16 := toBeBytes_length _ _
  have e8 : (toBeBytes 8 ln).length = 8 := toBeBytes_length _ _
  have hlen : ¬ ((toBeBytes 32 h ++ toBeBytes 16 d ++ toBeBytes 8 ln) ++
      rest).length < 56 := by
    simp [e32, e16, e8]
    omega
  have hdrop56 : ((toBeBytes 32 h ++ toBeBytes 16 d ++ toBeBytes 8 ln) ++
      rest).drop 56 = rest :=
    List.drop_left' (by simp [e32, e16, e8])
  have htake32 : ((toBeBytes 32 h ++ toBeBytes 16 d ++ toBeBytes 8 ln) ++
      rest).take 32 = toBeBytes 32 h := by
    simp only [List.append_assoc]
    exact List.take_left' e32
  have hdrop32 : ((toBeBytes 32 h ++ toBeBytes 16 d ++ toBeBytes 8 ln) ++
      rest).drop 32 = toBeBytes 16 d ++ (toBeBytes 8 ln ++ rest) := by
    simp only [List.append_assoc]
    exact List.drop_left' e32
  have htake16 : (((toBeBytes 32 h ++ toBeBytes 16 d ++ toBeBytes 8 ln) ++
      rest).drop 32).take 16 = toBeBytes 16 d := by
    rw [hdrop32]
    exact List.take_left' e16
  have hdrop48 : ((toBeBytes 32 h ++ toBeBytes 16 d ++ toBeBytes 8 ln) ++
      rest).drop 48 = toBeBytes 8 ln ++ rest := by
    simp only [List.append_assoc]
    rw [← List.append_assoc (toBeBytes 32 h)]
    exact List.drop_left' (by simp [e32, e16])
  have htake8 : (((toBeBytes 32 h ++ toBeBytes 16 d ++ toBeBytes 8 ln) ++
      rest).drop 48).take 8 = toBeBytes 8 ln := by
    rw [hdrop48]
    exact List.take_left' e8
  have hfh : fromBeBytes (toBeBytes 32 h) = h :=
    fromBeBytes_toBeBytes (by norm_num at hh ⊢; omega)
  have hfd : fromBeBytes (toBeBytes 16 d) = d :=
    fromBeBytes_toBeBytes (by norm_num at hd ⊢; omega)
  have hfl : fromBeBytes (toBeBytes 8 ln) = ln :=
    fromBeBytes_toBeBytes (by norm_num at hl ⊢; omega)
  rw [parseElems]
  rw [if_neg hlen, hdrop56, htake32, htake16, htake8, hfh, hfd, hfl]

theorem parseElems_roundtrip (es : List ProofElem)
    (hb : ∀ e ∈ es, elemBounded e) :
    parseElems (serializeElems es) = .ok es := by
  induction es with
  | nil => simp [serializeElems, parseElems]
  | cons e es ih =>
    have hbe : elemBounded e := hb e (by simp)
    have ihz := ih (fun x hx => hb x (by simp [hx]))
    cases e with
    | Child hd =>
      obtain ⟨h, d⟩ := hd
      obtain ⟨hbh, hbd⟩ := hbe
      have key : serializeElems (ProofElem.Child (h, d) :: es) =
          0 :: ((toBeBytes 32 h ++ toBeBytes 16 d) ++ serializeElems es) := by
        simp [serializeElems, serializeElem]
      rw [key, parseElems_cons_48 0 h d (by norm_num) hbh hbd, ihz]
      simp
    | Node hd dir =>
      obtain ⟨h, d⟩ := hd
      obtain ⟨hbh, hbd⟩ := hbe
      cases dir with
      | true =>
        have key : serializeElems (ProofElem.Node (h, d) true :: es) =
            2 :: ((toBeBytes 32 h ++ toBeBytes 16 d) ++ serializeElems es) := by
          simp [serializeElems, serializeElem]
        rw [key, parseElems_cons_48 2 h d (by norm_num) hbh hbd, ihz]
        simp
      | false =>
        have key : serializeElems (ProofElem.Node (h, d) false :: es) =
            3 :: ((toBeBytes 32 h ++ toBeBytes 16 d) ++ serializeElems es) := by
          simp [serializeElems, serializeElem]
        rw [key, parseElems_cons_48 3 h d (by norm_num) hbh hbd, ihz]
        simp
    | Root hd ln =>
      obtain ⟨h, d⟩ := hd
      obtain ⟨hbh, hbd, hbl⟩ := hbe
      have key : serializeElems (ProofElem.Root (h, d) ln :: es) =
          1 :: ((toBeBytes 32 h ++ toBeBytes 16 d ++ toBeBytes 8 ln) ++
            serializeElems es) := by
        simp [serializeElems, serializeElem]
      rw [key, parseElems_cons_root h d ln hbh hbd hbl, ihz]

theorem serializeElem_length_ge (e : ProofElem) :
    49 ≤ (serializeElem e).length := by
  cases e with
  | Child hd =>
    obtain ⟨h, d⟩ := hd
    simp [serializeElem, toBeBytes_length]
  | Node hd dir =>
    obtain ⟨h, d⟩ := hd
    cases dir <;> simp [serializeElem, toBeBytes_length]
  | Root hd ln =>
    obtain ⟨h, d⟩ := hd
    simp [serializeElem, toBeBytes_length]

/-- C8 counterexample: a `Proof` whose element sequence is empty
serializes to 56 bytes, which `Proof::deserialize` rejects via its
64-byte minimum-length check; the round trip fails. -/
theorem proof_codec_empty_elem_fails :
    Proof.deserialize (Proof.serialize ⟨0, 0, 0, []⟩) =
      .error "Proof is invalid" := by
  rfl

/-- C8 (amended): for every `Proof` whose element sequence is non-empty
(and whose fields fit their Rust types), `deserialize ∘ serialize` is
the identity, and the element tags are `0` for `Child`, `1` for `Root`,
`2` for right `Node`, `3` for left `Node`. -/
theorem proof_codec_roundtrip (p : Proof)
    (hne : p.elem ≠ [])
    (hh : p.rootHash < 2 ^ 256) (hd : p.rootDifficulty < 2 ^ 128)
    (hl : p.leafNumber < 2 ^ 64)
    (hb : ∀ e ∈ p.elem, elemBounded e) :
    Proof.deserialize (Proof.serialize p) = .ok p ∧
    (∀ x, (serializeElem (ProofElem.Child x)).head? = some 0) ∧
    (∀ x ln, (serializeElem (ProofElem.Root x ln)).head? = some 1) ∧
    (∀ x, (serializeElem (ProofElem.Node x true)).head? = some 2) ∧
    (∀ x, (serializeElem (ProofElem.Node x false)).head? = some 3) := by
  refine ⟨?_, fun x => by obtain ⟨a, b⟩ := x; rfl,
    fun x ln => by obtain ⟨a, b⟩ := x; rfl,
    fun x => by obtain ⟨a, b⟩ := x; rfl,
    fun x => by obtain ⟨a, b⟩ := x; rfl⟩
  obtain ⟨rh, rd, ln, es⟩ := p
  simp only at hh hd hl hb
  simp only [ne_eq] at hne
  have e32 : (toBeBytes 32 rh).length = 32 := toBeBytes_length _ _
  have e16 : (toBeBytes 16 rd).length = 16 := toBeBytes_length _ _
  have e8 : (toBeBytes 8 ln).length = 8 := toBeBytes_length _ _
  have hlines : 49 ≤ (serializeElems es).length := by
    rcases es with _ | ⟨e, es⟩
    · simp at hne
    · have h1 := serializeElem_length_ge e
      simp only [serializeElems, List.length_append]
      omega
  unfold Proof.serialize Proof.deserialize
  simp only
  have hlen : ¬ (toBeBytes 32 rh ++ toBeBytes 16 rd ++ toBeBytes 8 ln ++
      serializeElems es).length < 64 := by
    simp [e32, e16, e8]
    omega
  rw [if_neg hlen]
  have hdrop56 : (toBeBytes 32 rh ++ toBeBytes 16 rd ++ toBeBytes 8 ln ++
      serializeElems es).drop 56 = serializeElems es := by
    exact List.drop_left' (by simp [e32, e16, e8])
  have htake32 : (toBeBytes 32 rh ++ toBeBytes 16 rd ++ toBeBytes 8 ln ++
      serializeElems es).take 32 = toBeBytes 32 rh := by
    simp only [List.append_assoc]
    exact List.take_left' e32
  have hdrop32 : (toBeBytes 32 rh ++ toBeBytes 16 rd ++ toBeBytes 8 ln ++
      serializeElems es).drop 32 =
      toBeBytes 16 rd ++ (toBeBytes 8 ln ++ serializeElems es) := by
    simp only [List.append_assoc]
    exact List.drop_left' e32
  have htake16 : ((toBeBytes 32 rh ++ toBeBytes 16 rd ++ toBeBytes 8 ln ++
      serializeElems es).drop 32).take 16 = toBeBytes 16 rd := by
    rw [hdrop32]
    exact List.take_left' e16
  have hdrop48 : (toBeBytes 32 rh ++ toBeBytes 16 rd ++ toBeBytes 8 ln ++
      serializeElems es).drop 48 = toBeBytes 8 ln ++ serializeElems es := by
    simp only [List.append_assoc]
    rw [← List.append_assoc (toBeBytes 32 rh)]
    exact List.drop_left' (by simp [e32, e16])
  have htake8 : ((toBeBytes 32 rh ++ toBeBytes 16 rd ++ toBeBytes 8 ln ++
      serializeElems es).drop 48).take 8 = toBeBytes 8 ln := by
    rw [hdrop48]
    exact List.take_left' e8
  rw [hdrop56, parseElems_roundtrip es hb, htake32, htake16, htake8]
  rw [fromBeBytes_toBeBytes (by norm_num at hh ⊢; omega),
    fromBeBytes_toBeBytes (by norm_num at hd ⊢; omega),
    fromBeBytes_toBeBytes (by norm_num at hl ⊢; omega)]

/-- Witness for `proof_codec_roundtrip` at a concrete one-element
proof. -/
theorem proof_codec_roundtrip_witness :
    ((⟨5, 7, 1, [ProofElem.Child (9, 4)]⟩ : Proof).elem ≠ [] ∧
      (5 : Nat) < 2 ^ 256 ∧ (7 : Nat) < 2 ^ 128 ∧ (1 : Nat) < 2 ^ 64 ∧
      (∀ e ∈ (⟨5, 7, 1, [ProofElem.Child (9, 4)]⟩ : Proof).elem,
        elemBounded e)) ∧
    Proof.deserialize (Proof.serialize ⟨5, 7, 1, [ProofElem.Child (9, 4)]⟩) =
      .ok ⟨5, 7, 1, [ProofElem.Child (9, 4)]⟩ := by
  have hb : ∀ e ∈ (⟨5, 7, 1, [ProofElem.Child (9, 4)]⟩ : Proof).elem,
      elemBounded e := by
    intro e he
    simp only [List.mem_singleton] at he
    subst he
    constructor <;> norm_num
  refine ⟨⟨by simp, by norm_num, by norm_num, by norm_num, hb⟩, ?_⟩
  exact (proof_codec_roundtrip ⟨5, 7, 1, [ProofElem.Child (9, 4)]⟩
    (by simp) (by norm_num) (by norm_num) (by norm_num) hb).1

/-! ### Randomness extraction `h256_to_f64` (`lib.rs`, claim C6)

`h256_to_f64` takes the first 8 bytes of a 32-byte hash, forces the
IEEE-754 sign/exponent bits (`byte0 := 0x3F`, `byte1 := byte1 | 0xF0`,
so the exponent field becomes `0x3FF` and the value lies in `[1, 2)`),
reinterprets the bits as an `f64` and subtracts `1.0`.  The bit pattern
is modelled exactly; the IEEE-754 value of the (always normal) result is
given as an exact rational, and the final subtraction `x - 1.0` with
`x ∈ [1, 2)` is exact by Sterbenz's lemma, so it is modelled by exact
rational subtraction. -/

/-- IEEE-754 binary64 value of a bit pattern, for normal numbers
(the only case reached by `h256_to_f64`, whose exponent field is forced
to `0x3FF`): `(-1)^sign * (1 + mantissa/2^52) * 2^(exponent - 1023)`. -/
def f64Val (bits : Nat) : ℚ :=
  (if bits / 2 ^ 63 = 0 then 1 else -1) *
    (1 + (bits % 2 ^ 52 : Nat) / (2 ^ 52 : ℚ)) *
    (2 : ℚ) ^ ((bits / 2 ^ 52 % 2 ^ 11 : Nat) - (1023 : ℤ))

/-- `h256_to_f64` (`lib.rs`): build the 8-byte big-endian bit pattern
`[0x3F, bytes[1] | 0xF0, bytes[2], …, bytes[7]]`, interpret it as an
`f64` (`bytes_to_f64` = `f64::from_bits ∘ u64::from_be_bytes`) and
subtract 1. -/
def h256_to_f64 (bytes : List Nat) : ℚ :=
  f64Val (fromBeBytes [63, bytes.getD 1 0 ||| 240, bytes.getD 2 0,
    bytes.getD 3 0, bytes.getD 4 0, bytes.getD 5 0, bytes.getD 6 0,
    bytes.getD 7 0]) - 1

/-- The 52 bits of mantissa that `h256_to_f64` extracts from a hash:
the low nibble of byte 1 followed by bytes 2 to 7. -/
def mantissa52 (bytes : List Nat) : Nat :=
  bytes.getD 1 0 % 16 * 2 ^ 48 + bytes.getD 2 0 * 2 ^ 40 +
    bytes.getD 3 0 * 2 ^ 32 + bytes.getD 4 0 * 2 ^ 24 +
    bytes.getD 5 0 * 2 ^ 16 + bytes.getD 6 0 * 2 ^ 8 + bytes.getD 7 0

set_option maxRecDepth 10000 in
theorem lor_240_eq {b : Nat} (hb : b < 256) : b ||| 240 = 240 + b % 16 := by
  revert hb
  revert b
  decide

theorem getD_lt_of_all_lt {l : List Nat} (hb : ∀ b ∈ l, b < 256) (i : Nat) :
    l.getD i 0 < 256 := by
  rcases Nat.lt_or_ge i l.length with h | h
  · rw [List.getD_eq_getElem l 0 h]
    exact hb _ (List.getElem_mem h)
  · rw [List.getD_eq_default l 0 h]
    norm_num

/-- The forced bit pattern decomposes as `1023 · 2^52 + mantissa`. -/
theorem h256_bits_eq (bytes : List Nat) (hb : ∀ b ∈ bytes, b < 256) :
    fromBeBytes [63, bytes.getD 1 0 ||| 240, bytes.getD 2 0,
        bytes.getD 3 0, bytes.getD 4 0, bytes.getD 5 0, bytes.getD 6 0,
        bytes.getD 7 0] =
      1023 * 2 ^ 52 + mantissa52 bytes := by
  have h1 := getD_lt_of_all_lt hb 1
  rw [lor_240_eq h1]
  unfold fromBeBytes mantissa52
  simp only [List.foldl_cons, List.foldl_nil]
  ring_nf

theorem mantissa52_lt (bytes : List Nat) (hb : ∀ b ∈ bytes, b < 256) :
    mantissa52 bytes < 2 ^ 52 := by
  have h1 := getD_lt_of_all_lt hb 1
  have h2 := getD_lt_of_all_lt hb 2
  have h3 := getD_lt_of_all_lt hb 3
  have h4 := getD_lt_of_all_lt hb 4
  have h5 := getD_lt_of_all_lt hb 5
  have h6 := getD_lt_of_all_lt hb 6
  have h7 := getD_lt_of_all_lt hb 7
  have h1m : bytes.getD 1 0 % 16 < 16 := Nat.mod_lt _ (by norm_num)
  unfold mantissa52
  omega

/-- `h256_to_f64` equals `mantissa / 2^52` exactly. -/
theorem h256_to_f64_eq (bytes : List Nat) (hb : ∀ b ∈ bytes, b < 256) :
    h256_to_f64 bytes = (mantissa52 bytes : ℚ) / 2 ^ 52 := by
  have hm := mantissa52_lt bytes hb
  unfold h256_to_f64
  rw [h256_bits_eq bytes hb]
  unfold f64Val
  have hb1 : 1023 * 2 ^ 52 + mantissa52 bytes < 2 ^ 63 := by
    norm_num at hm ⊢
    omega
  have hsign : (1023 * 2 ^ 52 + mantissa52 bytes) / 2 ^ 63 = 0 :=
    Nat.div_eq_of_lt hb1
  have hdiv : (1023 * 2 ^ 52 + mantissa52 bytes) / 2 ^ 52 = 1023 := by
    rw [Nat.mul_comm 1023 (2 ^ 52), Nat.mul_add_div (by positivity),
      Nat.div_eq_of_lt hm]
  have hexpo : (1023 * 2 ^ 52 + mantissa52 bytes) / 2 ^ 52 % 2 ^ 11 = 1023 := by
    rw [hdiv]
    norm_num
  have hmant : (1023 * 2 ^ 52 + mantissa52 bytes) % 2 ^ 52 = mantissa52 bytes := by
    rw [Nat.mul_comm 1023 (2 ^ 52), Nat.mul_add_mod]
    exact Nat.mod_eq_of_lt hm
  rw [hsign, hexpo, hmant]
  have hz : ((1023 : Nat) : ℤ) - 1023 = 0 := by norm_num
  rw [hz, zpow_zero]
  norm_num

/-- C6: `h256_to_f64` maps a 32-byte hash to `m / 2^52` where `m` is
the 52-bit mantissa extracted from the first 8 bytes of the hash (after
forcing the IEEE-754 sign/exponent bits so that the pre-subtraction
value lies in `[1, 2)`); the output lies in `[0, 1)` and ranges over all
`2^52` equally spaced values `m / 2^52` as the hash varies. -/
theorem h256_extract_uniform (bytes : List Nat) (hlen : bytes.length = 32)
    (hb : ∀ b ∈ bytes, b < 256) :
    h256_to_f64 bytes = (mantissa52 bytes : ℚ) / 2 ^ 52 ∧
    (1 : ℚ) ≤ f64Val (fromBeBytes [63, bytes.getD 1 0 ||| 240,
      bytes.getD 2 0, bytes.getD 3 0, bytes.getD 4 0, bytes.getD 5 0,
      bytes.getD 6 0, bytes.getD 7 0]) ∧
    f64Val (fromBeBytes [63, bytes.getD 1 0 ||| 240, bytes.getD 2 0,
      bytes.getD 3 0, bytes.getD 4 0, bytes.getD 5 0, bytes.getD 6 0,
      bytes.getD 7 0]) < 2 ∧
    0 ≤ h256_to_f64 bytes ∧ h256_to_f64 bytes < 1 ∧
    (∀ m : Nat, m < 2 ^ 52 → ∃ bs : List Nat, bs.length = 32 ∧
      (∀ b ∈ bs, b < 256) ∧ h256_to_f64 bs = (m : ℚ) / 2 ^ 52) := by
  have heq := h256_to_f64_eq bytes hb
  have hm := mantissa52_lt bytes hb
  have hfrac0 : (0 : ℚ) ≤ (mantissa52 bytes : ℚ) / 2 ^ 52 := by positivity
  have hfrac1 : (mantissa52 bytes : ℚ) / 2 ^ 52 < 1 := by
    rw [div_lt_one (by positivity)]
    exact_mod_cast hm
  have hval : f64Val (fromBeBytes [63, bytes.getD 1 0 ||| 240,
      bytes.getD 2 0, bytes.getD 3 0, bytes.getD 4 0, bytes.getD 5 0,
      bytes.getD 6 0, bytes.getD 7 0]) =
      h256_to_f64 bytes + 1 := by
    unfold h256_to_f64
    ring
  refine ⟨heq, ?_, ?_, ?_, ?_, ?_⟩
  · rw [hval, heq]
    linarith
  · rw [hval, heq]
    linarith
  · rw [heq]
    exact hfrac0
  · rw [heq]
    exact hfrac1
  · intro m hmm
    refine ⟨0 :: (m / 2 ^ 48) :: (m / 2 ^ 40 % 256) :: (m / 2 ^ 32 % 256) ::
      (m / 2 ^ 24 % 256) :: (m / 2 ^ 16 % 256) :: (m / 2 ^ 8 % 256) ::
      (m % 256) :: List.replicate 24 0, ?_, ?_, ?_⟩
    · simp
    · intro b hbmem
      simp only [List.mem_cons] at hbmem
      rcases hbmem with rfl | rfl | rfl | rfl | rfl | rfl | rfl | rfl | hmem
      · norm_num
      · have : m / 2 ^ 48 < 2 ^ 4 := by
          rw [Nat.div_lt_iff_lt_mul (by positivity)]
          norm_num at hmm ⊢
          omega
        omega
      · exact Nat.mod_lt _ (by norm_num)
      · exact Nat.mod_lt _ (by norm_num)
      · exact Nat.mod_lt _ (by norm_num)
      · exact Nat.mod_lt _ (by norm_num)
      · exact Nat.mod_lt _ (by norm_num)
      · exact Nat.mod_lt _ (by norm_num)
      · rw [List.eq_of_mem_replicate hmem]
        norm_num
    · have hbs : ∀ b ∈ (0 :: (m / 2 ^ 48) :: (m / 2 ^ 40 % 256) ::
          (m / 2 ^ 32 % 256) :: (m / 2 ^ 24 % 256) :: (m / 2 ^ 16 % 256) ::
          (m / 2 ^ 8 % 256) :: (m % 256) :: List.replicate 24 0), b < 256 := by
        intro b hbmem
        simp only [List.mem_cons] at hbmem
        rcases hbmem with rfl | rfl | rfl | rfl | rfl | rfl | rfl | rfl | hmem
        · norm_num
        · have : m / 2 ^ 48 < 2 ^ 4 := by
            rw [Nat.div_lt_iff_lt_mul (by positivity)]
            norm_num at hmm ⊢
            omega
          omega
        · exact Nat.mod_lt _ (by norm_num)
        · exact Nat.mod_lt _ (by norm_num)
        · exact Nat.mod_lt _ (by norm_num)
        · exact Nat.mod_lt _ (by norm_num)
        · exact Nat.mod_lt _ (by norm_num)
        · exact Nat.mod_lt _ (by norm_num)
        · rw [List.eq_of_mem_replicate hmem]
          norm_num
      rw [h256_to_f64_eq _ hbs]
      have hms : mantissa52 (0 :: (m / 2 ^ 48) :: (m / 2 ^ 40 % 256) ::
          (m / 2 ^ 32 % 256) :: (m / 2 ^ 24 % 256) :: (m / 2 ^ 16 % 256) ::
          (m / 2 ^ 8 % 256) :: (m % 256) :: List.replicate 24 0) =
          m / 2 ^ 48 % 16 * 2 ^ 48 + m / 2 ^ 40 % 256 * 2 ^ 40 +
          m / 2 ^ 32 % 256 * 2 ^ 32 + m / 2 ^ 24 % 256 * 2 ^ 24 +
          m / 2 ^ 16 % 256 * 2 ^ 16 + m / 2 ^ 8 % 256 * 2 ^ 8 + m % 256 := by
        rfl
      have hdig : m / 2 ^ 48 % 16 * 2 ^ 48 + m / 2 ^ 40 % 256 * 2 ^ 40 +
          m / 2 ^ 32 % 256 * 2 ^ 32 + m / 2 ^ 24 % 256 * 2 ^ 24 +
          m / 2 ^ 16 % 256 * 2 ^ 16 + m / 2 ^ 8 % 256 * 2 ^ 8 + m % 256 =
          m := by
        have h48 : m / 2 ^ 48 < 16 := by
          rw [Nat.div_lt_iff_lt_mul (by positivity)]
          norm_num at hmm ⊢
          omega
        have e48 : m / 2 ^ 48 % 16 = m / 2 ^ 48 := Nat.mod_eq_of_lt h48
        rw [e48]
        omega
      rw [hms, hdig]

/-- Witness for `h256_extract_uniform` at the all-zero hash. -/
theorem h256_extract_uniform_witness :
    ((List.replicate 32 0 : List Nat).length = 32 ∧
      (∀ b ∈ (List.replicate 32 0 : List Nat), b < 256)) ∧
    h256_to_f64 (List.replicate 32 0) =
      (mantissa52 (List.replicate 32 0) : ℚ) / 2 ^ 52 := by
  have hlen : (List.replicate 32 0 : List Nat).length = 32 := by simp
  have hb : ∀ b ∈ (List.replicate 32 0 : List Nat), b < 256 := by
    intro b hbm
    rw [List.eq_of_mem_replicate hbm]
    norm_num
  exact ⟨⟨hlen, hb⟩, (h256_extract_uniform (List.replicate 32 0) hlen hb).1⟩

/-! ### File seal and load (`persistent_mmr.rs`, claim C5)

`FileBasedMerkleTree::close` and `load_tree` operate on the backing
file's bytes.  Layout: `[0,32)` integrity digest, `[32,40)` leaf count
(big-endian u64), `[40,48)` reserved, `[48,…)` 48-byte nodes.  The
`sha3-256` digest is modelled by an arbitrary function producing
32-byte digests. -/

/-- A `seek(pos)` followed by `write_all(bytes)`: overwrite in place. -/
def writeAt (file : List Nat) (pos : Nat) (bytes : List Nat) : List Nat :=
  file.take pos ++ bytes ++ file.drop (pos + bytes.length)

/-- `FileBasedMerkleTree::close`: write the leaf count at bytes
`[32,40)`, hash bytes `[32,EOF)` and write the digest at `[0,32)`. -/
def closeFile (sha3 : List Nat → List Nat) (file : List Nat)
    (leafNumber : Nat) : List Nat :=
  writeAt (writeAt file 32 (toBeBytes 8 leafNumber)) 0
    (sha3 ((writeAt file 32 (toBeBytes 8 leafNumber)).drop 32))

/-- Result of `load_tree` on an existing file: the reopened file (the
store state) together with the stored leaf count, or the `panic!`
raised by the source on an integrity mismatch (modelled as `abort`; the
source does not return a structured error for this case). -/
inductive LoadResult
  | ok (file : List Nat) (leafNumber : Nat)
  | abort (msg : String)
deriving DecidableEq

/-- `FileBasedMerkleTree::load_tree` on an existing file: read the
stored digest from `[0,32)`, recompute the digest of `[32,EOF)`,
`panic!` on mismatch, else read the leaf count from `[32,40)`. -/
def loadTree (sha3 : List Nat → List Nat) (file : List Nat) : LoadResult :=
  let stored := file.take 32
  let calculated := sha3 (file.drop 32)
  if calculated = stored then
    .ok file (fromBeBytes ((file.drop 32).take 8))
  else .abort "Integrity of MMR file is violated"

theorem take_set_of_le (l : List Nat) (i n b : Nat) (h : n ≤ i) :
    (l.set i b).take n = l.take n := by
  apply List.ext_getElem
  · simp
  · intro j h1 h2
    simp only [List.length_take, List.length_set, lt_min_iff] at h1
    rw [List.getElem_take, List.getElem_take]
    rw [List.getElem_set]
    rw [if_neg (by omega)]

theorem writeAt_zero (f g : List Nat) (hg : g.length = 32) :
    writeAt f 0 g = g ++ f.drop 32 := by
  unfold writeAt
  rw [hg, List.take_zero, List.nil_append, Nat.zero_add]

theorem closeFile_shape (sha3 : List Nat → List Nat)
    (hd : ∀ l, (sha3 l).length = 32) (file : List Nat) (n : Nat)
    (hfile : 48 ≤ file.length) :
    closeFile sha3 file n =
      sha3 (toBeBytes 8 n ++ file.drop 40) ++
        (toBeBytes 8 n ++ file.drop 40) := by
  have hf1 : writeAt file 32 (toBeBytes 8 n) =
      file.take 32 ++ (toBeBytes 8 n ++ file.drop 40) := by
    unfold writeAt
    rw [toBeBytes_length, List.append_assoc]
  have ht32 : (file.take 32).length = 32 := by
    rw [List.length_take]
    omega
  have hdrop : (writeAt file 32 (toBeBytes 8 n)).drop 32 =
      toBeBytes 8 n ++ file.drop 40 := by
    rw [hf1]
    exact List.drop_left' ht32
  unfold closeFile
  rw [writeAt_zero _ _ (hd _), hdrop]

theorem loadTree_closeFile (sha3 : List Nat → List Nat)
    (hd : ∀ l, (sha3 l).length = 32) (file : List Nat) (n : Nat)
    (hfile : 48 ≤ file.length) (hn : n < 2 ^ 64) :
    loadTree sha3 (closeFile sha3 file n) =
      .ok (closeFile sha3 file n) n := by
  have hshape := closeFile_shape sha3 hd file n hfile
  unfold loadTree
  have htake : (closeFile sha3 file n).take 32 =
      sha3 (toBeBytes 8 n ++ file.drop 40) := by
    rw [hshape]
    exact List.take_left' (hd _)
  have hdrop : (closeFile sha3 file n).drop 32 =
      toBeBytes 8 n ++ file.drop 40 := by
    rw [hshape]
    exact List.drop_left' (hd _)
  rw [htake, hdrop, if_pos rfl]
  rw [List.take_left' (toBeBytes_length 8 n),
    fromBeBytes_toBeBytes (by norm_num at hn ⊢; omega)]

/-- C5 (code is wrong, claim is right about refusing, wrong about the
structured error): sealing then loading an unmodified file succeeds and
reproduces the same node region and leaf count; loading after any
single byte of the sealed region `[32, EOF)` has been changed does not
succeed - but the source `panic!`s (modelled as `abort`) instead of
returning the structured `IntegrityError` the claim and §7 of the
specification require. -/
theorem seal_tamper_behaviour (sha3 : List Nat → List Nat)
    (hd : ∀ l, (sha3 l).length = 32) (hinj : Function.Injective sha3)
    (file : List Nat) (n : Nat) (hfile : 48 ≤ file.length) (hn : n < 2 ^ 64)
    (i b : Nat) (hi32 : 32 ≤ i) (hilt : i < (closeFile sha3 file n).length)
    (hb : b ≠ (closeFile sha3 file n).getD i 0) :
    loadTree sha3 (closeFile sha3 file n) = .ok (closeFile sha3 file n) n ∧
    (closeFile sha3 file n).drop 48 = file.drop 48 ∧
    loadTree sha3 ((closeFile sha3 file n).set i b) =
      .abort "Integrity of MMR file is violated" := by
  have hshape := closeFile_shape sha3 hd file n hfile
  refine ⟨loadTree_closeFile sha3 hd file n hfile hn, ?_, ?_⟩
  · rw [hshape]
    have h48 : (48 : Nat) = (sha3 (toBeBytes 8 n ++ file.drop 40)).length + 16 := by
      rw [hd]
    nth_rewrite 1 [h48]
    rw [List.drop_append]
    have h16 : (16 : Nat) = (toBeBytes 8 n).length + 8 := by
      rw [toBeBytes_length]
    rw [h16, List.drop_append, List.drop_drop]
  · have htake : (closeFile sha3 file n).take 32 =
        sha3 (toBeBytes 8 n ++ file.drop 40) := by
      rw [hshape]
      exact List.take_left' (hd _)
    have hdropc : (closeFile sha3 file n).drop 32 =
        toBeBytes 8 n ++ file.drop 40 := by
      rw [hshape]
      exact List.drop_left' (hd _)
    have htakeSet : ((closeFile sha3 file n).set i b).take 32 =
        sha3 (toBeBytes 8 n ++ file.drop 40) := by
      rw [take_set_of_le _ _ _ _ hi32, htake]
    have hdropSet : ((closeFile sha3 file n).set i b).drop 32 =
        ((closeFile sha3 file n).drop 32).set (i - 32) b := by
      rw [List.drop_set, if_neg (by omega)]
    have hne : ((closeFile sha3 file n).drop 32).set (i - 32) b ≠
        (closeFile sha3 file n).drop 32 := by
      intro heq
      have hlt : i - 32 < ((closeFile sha3 file n).drop 32).length := by
        rw [List.length_drop]
        omega
      have h1 : (((closeFile sha3 file n).drop 32).set (i - 32) b).getD
          (i - 32) 0 = b := by
        rw [List.getD_eq_getElem _ _ (by rw [List.length_set]; exact hlt)]
        rw [List.getElem_set, if_pos rfl]
      have h2 : ((closeFile sha3 file n).drop 32).getD (i - 32) 0 =
          (closeFile sha3 file n).getD i 0 := by
        have hidx : 32 + (i - 32) = i := by omega
        rw [List.getD_eq_getElem _ _ hlt, List.getElem_drop]
        simp only [hidx]
        rw [List.getD_eq_getElem _ _ hilt]
      rw [heq, h2] at h1
      exact hb h1.symm
    unfold loadTree
    rw [htakeSet, hdropSet]
    rw [if_neg ?hcond]
    case hcond =>
      intro heq2
      have h3 := hinj heq2
      rw [← hdropc] at h3
      exact hne h3

/-- An injective 32-entry digest used to instantiate the abstract
`sha3` in witnesses: the first entry holds an injective encoding of the
whole input. -/
def specimenDigest (l : List Nat) : List Nat :=
  Encodable.encode l :: List.replicate 31 0

theorem specimenDigest_length (l : List Nat) :
    (specimenDigest l).length = 32 := by
  simp [specimenDigest]

theorem specimenDigest_injective : Function.Injective specimenDigest := by
  intro a b h
  simp only [specimenDigest, List.cons.injEq] at h
  exact Encodable.encode_injective h.1

/-- Witness for `seal_tamper_behaviour` on a concrete 48-byte file,
with the tampered byte at offset 39 (inside the sealed leaf-count
field). -/
theorem seal_tamper_behaviour_witness :
    ((∀ l : List Nat, (specimenDigest l).length = 32) ∧
      Function.Injective specimenDigest ∧
      48 ≤ (List.replicate 48 0 : List Nat).length ∧ (5 : Nat) < 2 ^ 64 ∧
      32 ≤ 39 ∧
      39 < (closeFile specimenDigest (List.replicate 48 0) 5).length ∧
      (7 : Nat) ≠ (closeFile specimenDigest (List.replicate 48 0) 5).getD 39 0) ∧
    (loadTree specimenDigest (closeFile specimenDigest (List.replicate 48 0) 5) =
        .ok (closeFile specimenDigest (List.replicate 48 0) 5) 5 ∧
      (closeFile specimenDigest (List.replicate 48 0) 5).drop 48 =
        (List.replicate 48 0 : List Nat).drop 48 ∧
      loadTree specimenDigest
          ((closeFile specimenDigest (List.replicate 48 0) 5).set 39 7) =
        .abort "Integrity of MMR file is violated") := by
  have hshape := closeFile_shape specimenDigest specimenDigest_length
    (List.replicate 48 0) 5 (by simp)
  have hlen : (closeFile specimenDigest (List.replicate 48 0) 5).length = 48 := by
    rw [hshape]
    simp [specimenDigest, toBeBytes_length]
  have hgetD : (closeFile specimenDigest (List.replicate 48 0) 5).getD 39 0 =
      5 := by
    rw [hshape, List.getD_append_right _ _ _ _
      (by rw [specimenDigest_length]; norm_num)]
    rw [specimenDigest_length]
    norm_num
    rfl
  refine ⟨⟨fun l => specimenDigest_length l, specimenDigest_injective,
    by simp, by norm_num, by norm_num, by rw [hlen]; norm_num,
    by rw [hgetD]; norm_num⟩, ?_⟩
  exact seal_tamper_behaviour specimenDigest specimenDigest_length
    specimenDigest_injective (List.replicate 48 0) 5 (by simp) (by norm_num)
    39 7 (by norm_num) (by rw [hlen]; norm_num) (by rw [hgetD]; norm_num)

/-! ### The proof verifier (`mmr/proof.rs`, `Proof::verify_proof`)

`MmrElem` is a 32-byte hash plus a `u128` difficulty; `hash_children`
hashes the concatenation of both children's fields and is abstracted
here as a combining function `hc : MmrElem → MmrElem → Nat`.  The
verifier's working deque `nodes` of
`((H256, u128), Option<u64>, Option<u64>)` entries is modelled as a list
whose HEAD is the deque's BACK, so `push_back` is `cons` and `pop_back`
takes the head.  `f64` weight arithmetic is modelled exactly over `ℚ`
as stated in the module conventions. -/

/-- `MmrElem` (`persistent_mmr.rs`): hash plus difficulty. -/
structure MmrElem where
  hash : Nat
  difficulty : Nat
deriving DecidableEq

/-- `ProofBlock` (`lib.rs`): block number with optional aggregate
weight; its `PartialEq`/`Ord` instances compare the number only. -/
structure ProofBlock where
  number : Nat
  aggrWeight : Option ℚ
deriving DecidableEq

/-- An entry of the verifier's `nodes` deque:
`((hash, difficulty), index, leaf_number)`. -/
abbrev VEntry := (Nat × Nat) × Option Nat × Option Nat

/-- `verify_proof` outcomes: `abort` is a Rust panic (a failed `unwrap`
or pop from an empty collection), `msg` an `Err(String)` (only the
constant prefix of `format!` messages is kept). -/
inductive VErr
  | abort
  | msg (s : String)
deriving DecidableEq

/-- `proof_blocks.sort()`: stable sort by block number (`Ord` on
`ProofBlock` compares `number` only). -/
def sortBlocks (l : List ProofBlock) : List ProofBlock :=
  l.mergeSort (fun a b => decide (a.number ≤ b.number))

/-- `proof_blocks.dedup()`: drop consecutive entries with an equal
block number, keeping the first (`PartialEq` compares `number` only). -/
def dedupBlocks : List ProofBlock → List ProofBlock
  | [] => []
  | [x] => [x]
  | x :: y :: rest =>
    if x.number = y.number then dedupBlocks (x :: rest)
    else x :: dedupBlocks (y :: rest)
termination_by l => l.length

/-- `get_root` (`mmr/proof.rs`): fold the copied deque from the back,
combining the two back entries until one remains.  The source is only
called on a non-empty deque (it would panic on an empty one); the `[]`
case is a never-exercised default. -/
def getRoot (hc : MmrElem → MmrElem → Nat) : List VEntry → Nat × Nat
  | [] => (0, 0)
  | [x] => x.1
  | n2 :: n1 :: rest =>
    getRoot hc (((hc ⟨n1.1.1, n1.1.2⟩ ⟨n2.1.1, n2.1.2⟩, n1.1.2 + n2.1.2),
      none, none) :: rest)
termination_by l => l.length

/-- The inner `while nodes.len() > 1` collapse loop of `verify_proof`:
pop the two back entries `n2, n1`; stop if `n2`'s index is `None` or
(`n2`'s index is even and the proof stream is non-empty), else combine
them into a parent and repeat.  When the index is `Some`, the leaf
number is `Some` as well (every push pairs them), so the `getD 0`
standing for the source's `unwrap` is never exercised. -/
def collapseNodes (hc : MmrElem → MmrElem → Nat) (proofEmpty : Bool) :
    List VEntry → List VEntry
  | n2 :: n1 :: rest =>
    match n2.2.1 with
    | none => n2 :: n1 :: rest
    | some i2 =>
      if i2 % 2 ≠ 1 ∧ proofEmpty = false then n2 :: n1 :: rest
      else
        collapseNodes hc proofEmpty
          (((hc ⟨n1.1.1, n1.1.2⟩ ⟨n2.1.1, n2.1.2⟩, n1.1.2 + n2.1.2),
            some (i2 / 2), some (n2.2.2.getD 0 / 2)) :: rest)
  | ns => ns
termination_by l => l.length

/-- The aggregate-weight window check of `verify_proof`'s `Child` arm:
reports an error unless `left < ⌈w·T⌉ ≤ left + d` fails, i.e. unless
`left ≤ ⌈w·T⌉ < left + d`, where `left` is the difficulty of the root of
the copied `nodes` deque and `d` the sampled child's difficulty.  The
check is skipped when the deque is empty or no weight was supplied. -/
def weightErr (hc : MmrElem → MmrElem → Nat) (root : Nat × Nat)
    (nodes : List VEntry) (pb : ProofBlock) (d : Nat) : Bool :=
  if nodes.isEmpty then false
  else match pb.aggrWeight with
    | none => false
    | some w =>
      decide ((((getRoot hc nodes).2 : ℚ) > ((⌈w * ((root.2 : ℚ))⌉ : ℤ) : ℚ)) ∨
        ((((getRoot hc nodes).2 + d : Nat) : ℚ) ≤ ((⌈w * ((root.2 : ℚ))⌉ : ℤ) : ℚ)))

/-- The main `while !proof.is_empty()` loop of `verify_proof`.  The
source reverses the sorted block list and pops expected blocks from the
`Vec`'s back, which consumes the ascending list front to back; the model
passes the ascending list and consumes its head.  The source's
`leaf_number - 1` is a wrapping `u64` subtraction, modelled as
`(leafNumber + 2 ^ 64 - 1) % 2 ^ 64`. -/
def processStream (hc : MmrElem → MmrElem → Nat) (root : Nat × Nat)
    (leafNumber : Nat) :
    List ProofElem → List ProofBlock → List VEntry → Except VErr (List VEntry)
  | [], _, nodes => .ok nodes
  | .Child child :: rest, blocks, nodes =>
    match blocks with
    | [] => .error .abort
    | pb :: brest =>
      if weightErr hc root nodes pb child.2 then
        .error (.msg "aggregated difficulty is not correct")
      else if pb.number % 2 = 0 ∧
          pb.number ≠ (leafNumber + 2 ^ 64 - 1) % 2 ^ 64 then
        match rest with
        | [] => .error .abort
        | rnode :: rest2 =>
          match rnode with
          | .Root _ _ => .error (.msg "Expected ???")
          | .Child c2 =>
            match brest with
            | [] => .error .abort
            | _ :: brest2 =>
              processStream hc root leafNumber rest2 brest2
                (collapseNodes hc rest2.isEmpty
                  (((hc ⟨child.1, child.2⟩ ⟨c2.1, c2.2⟩, child.2 + c2.2),
                    some (pb.number / 2), some (leafNumber / 2)) :: nodes))
          | .Node nd _ =>
            processStream hc root leafNumber rest2 brest
              (collapseNodes hc rest2.isEmpty
                (((hc ⟨child.1, child.2⟩ ⟨nd.1, nd.2⟩, child.2 + nd.2),
                  some (pb.number / 2), some (leafNumber / 2)) :: nodes))
      else
        match nodes with
        | [] => .error .abort
        | ln :: nrest =>
          processStream hc root leafNumber rest brest
            (collapseNodes hc rest.isEmpty
              (((hc ⟨ln.1.1, ln.1.2⟩ ⟨child.1, child.2⟩, child.2 + ln.1.2),
                some (pb.number / 2), some (leafNumber / 2)) :: nrest))
  | .Node nd dir :: rest, blocks, nodes =>
    if dir then
      match nodes with
      | [] => .error .abort
      | ln :: nrest =>
        match ln.2.1, ln.2.2 with
        | some li, some cl =>
          processStream hc root leafNumber rest blocks
            (collapseNodes hc rest.isEmpty
              (((hc ⟨ln.1.1, ln.1.2⟩ ⟨nd.1, nd.2⟩, ln.1.2 + nd.2),
                some (li / 2), some (cl / 2)) :: nrest))
        | _, _ => .error .abort
    else
      processStream hc root leafNumber rest blocks
        (collapseNodes hc rest.isEmpty ((nd, none, none) :: nodes))
  | .Root _ _ :: rest, blocks, nodes =>
    processStream hc root leafNumber rest blocks
      (collapseNodes hc rest.isEmpty nodes)
termination_by stream _ _ => stream.length
decreasing_by all_goals simp_all <;> omega

/-- `VecDeque::pop_back` on a front-to-back list: the last element and
the remaining list. -/
def popBack {α : Type} : List α → Option (α × List α)
  | [] => none
  | [x] => some (x, [])
  | x :: y :: rest =>
    match popBack (y :: rest) with
    | some (z, zs) => some (z, x :: zs)
    | none => none

/-- `Proof::verify_proof`: sort and dedup the expected blocks, pop the
trailing `Root` element, take the single-element shortcut when exactly
one element remains, otherwise run the stream loop and compare the
surviving entry with the root. -/
def verifyProof (hc : MmrElem → MmrElem → Nat) (p : Proof)
    (proofBlocks : List ProofBlock) : Except VErr Unit :=
  let pbs := dedupBlocks (sortBlocks proofBlocks)
  match popBack p.elem with
  | none => .error (.msg "Empty proof")
  | some (.Root root leafNumber, proof) =>
    if proof.length = 1 then
      match popBack proof with
      | some (.Child ch, _) =>
        if ch.1 = root.1 then .ok ()
        else .error (.msg "Single element in proof is not correct")
      | _ => .error (.msg "Single element in proof is not correct")
    else
      match processStream hc root leafNumber proof pbs [] with
      | .error e => .error e
      | .ok nodes =>
        match nodes with
        | [] => .error (.msg "Expected ??")
        | (v, _, _) :: _ =>
          if v.1 ≠ root.1 then
            .error (.msg "Calculated root node hash is not correct")
          else if v.2 ≠ root.2 then
            .error (.msg "Calculated root difficulty is not correct")
          else .ok ()
  | some _ => .error (.msg "Got proof element, which is not the expected root")

/-- C10: on the single-element shortcut path — a proof whose element
list is one element followed by the trailing `Root` — `verify_proof`
returns `Ok` iff that element is a `Child` whose hash equals the root
hash carried by the `Root` element; the child's difficulty, the root
difficulty and the supplied block list (including `aggr_weight`
witnesses) have no effect on the verdict. -/
theorem single_element_shortcut (hc : MmrElem → MmrElem → Nat)
    (rh rd lnp : Nat) (root : Nat × Nat) (ln : Nat) (e : ProofElem)
    (pbs pbs' : List ProofBlock) :
    (verifyProof hc ⟨rh, rd, lnp, [e, .Root root ln]⟩ pbs = .ok () ↔
      ∃ d, e = .Child (root.1, d)) ∧
    verifyProof hc ⟨rh, rd, lnp, [e, .Root root ln]⟩ pbs =
      verifyProof hc ⟨rh, rd, lnp, [e, .Root root ln]⟩ pbs' := by
  have hshape : ∀ bl : List ProofBlock,
      verifyProof hc ⟨rh, rd, lnp, [e, .Root root ln]⟩ bl =
        match e with
        | .Child ch =>
          if ch.1 = root.1 then .ok ()
          else .error (.msg "Single element in proof is not correct")
        | _ => .error (.msg "Single element in proof is not correct") := by
    intro bl
    simp only [verifyProof, popBack]
    cases e with
    | Child hd => cases hd with
      | mk h d => by_cases hh : h = root.1 <;> simp [hh]
    | Node hd dir => rfl
    | Root hd l => rfl
  refine ⟨?_, by rw [hshape pbs, hshape pbs']⟩
  rw [hshape pbs]
  cases e with
  | Child hd =>
    cases hd with
    | mk h d =>
      by_cases hh : h = root.1
      · simp [hh]
      · simp only [hh, if_false]
        constructor
        · intro hcontr; cases hcontr
        · rintro ⟨d', hd'⟩
          cases hd'
          exact absurd rfl hh
  | Node hd dir =>
    constructor
    · intro hcontr; cases hcontr
    · rintro ⟨d', hd'⟩; cases hd'
  | Root hd l =>
    constructor
    · intro hcontr; cases hcontr
    · rintro ⟨d', hd'⟩; cases hd'

/-! ### The canonical MMR shape and its store layout

`append_leaf` (`persistent_mmr.rs`) maintains the datastore as the
post-order flattening of a canonical tree over the appended leaves: a
(sub)tree over `n ≥ 2` leaves has a left subtree over the first
`getLeftLeafNumber n` leaves and a right subtree over the rest, and each
subtree's nodes occupy a contiguous block of 48-byte slots, children
first, root last.  The store is modelled slot-wise: one `MmrElem` per
48-byte slot. -/

/-- The shape of a canonical MMR subtree; leaves carry the appended
`(hash, difficulty)` elements. -/
inductive MTree
  | leaf (e : MmrElem)
  | node (l r : MTree)

/-- `hash_children` plus the difficulty sum performed at every
combination site of `persistent_mmr.rs` and `proof.rs`. -/
def combineElem (hc : MmrElem → MmrElem → Nat) (a b : MmrElem) : MmrElem :=
  ⟨hc a b, a.difficulty + b.difficulty⟩

/-- The `(hash, difficulty)` element stored at a subtree's root. -/
def MTree.elemOf (hc : MmrElem → MmrElem → Nat) : MTree → MmrElem
  | .leaf e => e
  | .node l r => combineElem hc (l.elemOf hc) (r.elemOf hc)

/-- The number of leaves of a subtree. -/
def MTree.leafCount : MTree → Nat
  | .leaf _ => 1
  | .node l r => l.leafCount + r.leafCount

/-- The canonical MMR over a non-empty leaf sequence: split at
`getLeftLeafNumber`.  (`buildTree []` is a never-used default.) -/
def buildTree : List MmrElem → MTree
  | [] => .leaf ⟨0, 0⟩
  | [x] => .leaf x
  | a :: b :: rest =>
    .node (buildTree ((a :: b :: rest).take (getLeftLeafNumber (rest.length + 2))))
      (buildTree ((a :: b :: rest).drop (getLeftLeafNumber (rest.length + 2))))
termination_by l => l.length
decreasing_by
  · have h1 := getLeftLeafNumber_lt (n := rest.length + 2) (by omega)
    simp [List.length_take]
    omega
  · have h1 := getLeftLeafNumber_pos (n := rest.length + 2) (by omega)
    simp [List.length_drop]
    omega

/-- The post-order store block of a subtree: left block, right block,
root slot. -/
def flatten (hc : MmrElem → MmrElem → Nat) : MTree → List MmrElem
  | .leaf e => [e]
  | .node l r => flatten hc l ++ flatten hc r ++ [MTree.elemOf hc (.node l r)]

theorem buildTree_eq_node (l : List MmrElem) (h : 2 ≤ l.length) :
    buildTree l = .node (buildTree (l.take (getLeftLeafNumber l.length)))
      (buildTree (l.drop (getLeftLeafNumber l.length))) := by
  match l, h with
  | a :: b :: rest, _ =>
    rw [buildTree]
    simp [List.length_cons]

theorem flatten_ne_nil (hc : MmrElem → MmrElem → Nat) (t : MTree) :
    flatten hc t ≠ [] := by
  cases t <;> simp [flatten]

theorem leafCount_pos (t : MTree) : 1 ≤ t.leafCount := by
  induction t with
  | leaf _ => simp [MTree.leafCount]
  | node a b iha ihb => simp [MTree.leafCount]; omega

theorem flatten_length (hc : MmrElem → MmrElem → Nat) (t : MTree) :
    (flatten hc t).length = 2 * t.leafCount - 1 := by
  induction t with
  | leaf e => simp [flatten, MTree.leafCount]
  | node l r ihl ihr =>
    have hl := leafCount_pos l
    have hr := leafCount_pos r
    simp [flatten, MTree.leafCount, ihl, ihr]
    omega

theorem buildTree_leafCount (l : List MmrElem) (h : 1 ≤ l.length) :
    (buildTree l).leafCount = l.length := by
  have H : ∀ n (l : List MmrElem), l.length = n → 1 ≤ l.length →
      (buildTree l).leafCount = l.length := by
    intro n
    induction n using Nat.strong_induction_on with
    | _ n ih =>
      intro l hlen h1
      match l with
      | [x] => simp [buildTree, MTree.leafCount]
      | a :: b :: rest =>
        rw [buildTree_eq_node _ (by simp)]
        simp only [List.length_cons]
        have hL1 := getLeftLeafNumber_pos (n := rest.length + 1 + 1) (by omega)
        have hL2 := getLeftLeafNumber_lt (n := rest.length + 1 + 1) (by omega)
        simp only [MTree.leafCount]
        rw [ih _ (by subst hlen; simp [List.length_take, List.length_cons]; omega) _ rfl
            (by simp [List.length_take, List.length_cons]; omega),
          ih _ (by subst hlen; simp [List.length_drop, List.length_cons]; omega) _ rfl
            (by simp [List.length_drop, List.length_cons]; omega)]
        simp [List.length_take, List.length_drop, List.length_cons]
        omega
  exact H l.length l rfl h

/-- The root difficulty of the canonical tree is the exact sum of the
leaf difficulties. -/
theorem buildTree_difficulty (hc : MmrElem → MmrElem → Nat)
    (l : List MmrElem) (h : 1 ≤ l.length) :
    ((buildTree l).elemOf hc).difficulty = (l.map MmrElem.difficulty).sum := by
  have H : ∀ n (l : List MmrElem), l.length = n → 1 ≤ l.length →
      ((buildTree l).elemOf hc).difficulty = (l.map MmrElem.difficulty).sum := by
    intro n
    induction n using Nat.strong_induction_on with
    | _ n ih =>
      intro l hlen h1
      match l with
      | [x] => simp [buildTree, MTree.elemOf]
      | a :: b :: rest =>
        rw [buildTree_eq_node _ (by simp)]
        simp only [List.length_cons]
        have hL1 := getLeftLeafNumber_pos (n := rest.length + 1 + 1) (by omega)
        have hL2 := getLeftLeafNumber_lt (n := rest.length + 1 + 1) (by omega)
        simp only [MTree.elemOf, combineElem]
        rw [ih _ (by subst hlen; simp [List.length_take, List.length_cons]; omega) _ rfl
            (by simp [List.length_take, List.length_cons]; omega),
          ih _ (by subst hlen; simp [List.length_drop, List.length_cons]; omega) _ rfl
            (by simp [List.length_drop, List.length_cons]; omega)]
        rw [← List.sum_append, ← List.map_append, List.take_append_drop]
  exact H l.length l rfl h

/-- The root element sits in the last slot of a subtree's block. -/
theorem flatten_getLast? (hc : MmrElem → MmrElem → Nat) (t : MTree) :
    (flatten hc t).getLast? = some (t.elemOf hc) := by
  cases t with
  | leaf e => simp [flatten, MTree.elemOf]
  | node l r => exact List.getLast?_concat _

theorem flatten_getD_last (hc : MmrElem → MmrElem → Nat) (t : MTree) :
    (flatten hc t).getD ((flatten hc t).length - 1) ⟨0, 0⟩ =
      t.elemOf hc := by
  rw [List.getD_eq_getElem?_getD, ← List.getLast?_eq_getElem?,
    flatten_getLast?]
  rfl

/-! ### `MerkleTree::append_leaf` and the store invariant -/

/-- `Datastore::get_elem`: read the node in slot `i`.  Out-of-range
reads panic in the source; they are never exercised on the states
reached below, so the default is immaterial. -/
def storeGetElem (s : List MmrElem) (i : Nat) : MmrElem := s.getD i ⟨0, 0⟩

/-- `Datastore::get_root_elem`: the node in the last slot. -/
def storeGetRoot (s : List MmrElem) : MmrElem := s.getD (s.length - 1) ⟨0, 0⟩

/-- `MerkleTree` (`persistent_mmr.rs`): leaf count plus slot store
(both backends expose the same slot-wise view). -/
structure MTState where
  leafNumber : Nat
  store : List MmrElem
deriving DecidableEq

/-- `MerkleTree::new`: one leaf, one slot. -/
def newTree (h d : Nat) : MTState := ⟨1, [⟨h, d⟩]⟩

/-- The right-spine strip loop of `append_leaf`: while the current
subtree size is not a power of two, drop the last slot (the subtree's
root), push the left subtree's root element onto `nodes_to_hash`, and
continue in the right subtree.  Returns the stripped store and the
pushed stack (head = last pushed).  `curr = 0` is never reached from
`leaf_number ≥ 1`; that arm only serves termination. -/
def appendStrip (store : List MmrElem) (curr aggr : Nat) :
    List MmrElem × List MmrElem :=
  if curr = 0 then (store, [])
  else if isPow2 curr then (store, [])
  else
    let L := nextPow2 curr / 2
    let res := appendStrip store.dropLast (curr - L) (aggr + L)
    (res.1, res.2 ++ [storeGetElem store.dropLast (getNodeNumber (aggr + L) - 1)])
termination_by curr
decreasing_by
  have h2 : 2 ≤ curr := by
    rcases Nat.lt_or_ge curr 2 with h1 | h1
    · interval_cases curr <;> simp_all [isPow2_one]
    · exact h1
  obtain ⟨j, hL, _, hlt, _⟩ := nextPow2_div_two_spec h2 (by simp_all)
  have hj := Nat.one_le_two_pow (n := j)
  omega

/-- The `while nodes_to_hash.len() > 1` loop of `append_leaf`: pop the
two top entries (right then left), write their combination to the store
and push it back. -/
def combineAll (hc : MmrElem → MmrElem → Nat) (store : List MmrElem) :
    List MmrElem → List MmrElem
  | right :: left :: rest =>
    combineAll hc (store ++ [combineElem hc left right])
      (combineElem hc left right :: rest)
  | _ => store
termination_by stack => stack.length

/-- `MerkleTree::append_leaf`. -/
def appendLeaf (hc : MmrElem → MmrElem → Nat) (st : MTState)
    (h d : Nat) : MTState :=
  let res := appendStrip st.store st.leafNumber 0
  ⟨st.leafNumber + 1,
    combineAll hc (res.1 ++ [⟨h, d⟩])
      ((⟨h, d⟩ : MmrElem) :: storeGetRoot res.1 :: res.2)⟩

/-- The store remaining after the strip loop: the flattened blocks of
the perfect left subtrees along the right spine, with the spine's
internal roots removed, ending in the last (perfect) spine segment kept
whole. -/
def spineStores (hc : MmrElem → MmrElem → Nat) (l : List MmrElem) :
    List MmrElem :=
  if isPow2 l.length then flatten hc (buildTree l)
  else if l.length = 0 then []
  else
    flatten hc (buildTree (l.take (getLeftLeafNumber l.length))) ++
      spineStores hc (l.drop (getLeftLeafNumber l.length))
termination_by l.length
decreasing_by
  have h1 := getLeftLeafNumber_pos (n := l.length) (by
    rcases Nat.lt_or_ge l.length 2 with h | h
    · interval_cases hi : l.length <;> simp_all [isPow2_one]
    · exact h)
  simp [List.length_drop]
  omega

/-- The `nodes_to_hash` stack built by the strip loop (head = last
pushed): the root elements of the perfect left spine subtrees, outermost
at the bottom. -/
def spineStack (hc : MmrElem → MmrElem → Nat) (l : List MmrElem) :
    List MmrElem :=
  if isPow2 l.length then []
  else if l.length = 0 then []
  else
    spineStack hc (l.drop (getLeftLeafNumber l.length)) ++
      [(buildTree (l.take (getLeftLeafNumber l.length))).elemOf hc]
termination_by l.length
decreasing_by
  have h1 := getLeftLeafNumber_pos (n := l.length) (by
    rcases Nat.lt_or_ge l.length 2 with h | h
    · interval_cases hi : l.length <;> simp_all [isPow2_one]
    · exact h)
  simp [List.length_drop]
  omega

/-- The final perfect segment of the right spine. -/
def lastSeg (l : List MmrElem) : List MmrElem :=
  if isPow2 l.length then l
  else if l.length = 0 then []
  else lastSeg (l.drop (getLeftLeafNumber l.length))
termination_by l.length
decreasing_by
  have h1 := getLeftLeafNumber_pos (n := l.length) (by
    rcases Nat.lt_or_ge l.length 2 with h | h
    · interval_cases hi : l.length <;> simp_all [isPow2_one]
    · exact h)
  simp [List.length_drop]
  omega

theorem nextPow2_mono {m n : Nat} (h : m ≤ n) : nextPow2 m ≤ nextPow2 n :=
  Nat.pow_le_pow_right (by norm_num) (Nat.clog_mono_right 2 h)

/-- Appending one leaf to a non-power-of-two tree keeps the split
point. -/
theorem getLeftLeafNumber_succ_eq {n : Nat} (h2 : 2 ≤ n)
    (h : isPow2 n = false) :
    getLeftLeafNumber (n + 1) = getLeftLeafNumber n := by
  obtain ⟨j, hL, hn2, hlt, hle⟩ := nextPow2_div_two_spec h2 h
  have hRHS : getLeftLeafNumber n = 2 ^ j := by
    rw [getLeftLeafNumber, if_neg (by simp [h]), hL]
  have hne : n ≠ 2 ^ (j + 1) := by
    intro he
    rw [he, isPow2_two_pow] at h
    cases h
  rcases Nat.lt_or_ge (n + 1) (2 ^ (j + 1)) with hx | hx
  · have hnp : isPow2 (n + 1) = false :=
      not_isPow2_of_strict_between (by omega) hx
    rw [getLeftLeafNumber, if_neg (by simp [hnp]),
      nextPow2_eq_of_between (m := j) (by omega) (by omega),
      two_pow_div_two (k := j), hRHS]
  · have he : n + 1 = 2 ^ (j + 1) := by omega
    rw [he, getLeftLeafNumber_two_pow, hRHS]

theorem buildTree_snoc_pow2 (l : List MmrElem) (x : MmrElem)
    (h : isPow2 l.length = true) :
    buildTree (l ++ [x]) = .node (buildTree l) (.leaf x) := by
  obtain ⟨k, hk⟩ := isPow2_iff.mp h
  rcases Nat.eq_zero_or_pos k with rfl | hkpos
  · have h1 : l.length = 1 := by simpa using hk
    match l, h1 with
    | [a], _ =>
      rw [buildTree_eq_node _ (by simp)]
      norm_num [getLeftLeafNumber, isPow2_two, buildTree]
  · obtain ⟨j, hj⟩ : ∃ j, k = j + 1 := ⟨k - 1, by omega⟩
    subst hj
    have hlt : 2 ^ (j + 1) < l.length + 1 := by omega
    have hlt2 : l.length + 1 < 2 ^ (j + 1 + 1) := by
      have he : (2 : Nat) ^ (j + 1 + 1) = 2 ^ (j + 1) + 2 ^ (j + 1) := by ring
      have h1 : (2 : Nat) ≤ 2 ^ (j + 1) := by
        have hj := Nat.one_le_two_pow (n := j)
        have he2 : (2 : Nat) ^ (j + 1) = 2 * 2 ^ j := by ring
        omega
      omega
    have hL : getLeftLeafNumber (l.length + 1) = l.length := by
      rw [getLeftLeafNumber,
        if_neg (by simp [not_isPow2_of_strict_between hlt hlt2]),
        nextPow2_eq_of_between (m := j + 1) (by omega) (by omega),
        two_pow_div_two (k := j + 1), hk]
    rw [buildTree_eq_node _ (by simp; omega)]
    rw [List.length_append, List.length_singleton, hL,
      List.take_left' rfl, List.drop_left' rfl]
    simp [buildTree]

theorem buildTree_snoc_not_pow2 (l : List MmrElem) (x : MmrElem)
    (h2 : 2 ≤ l.length) (h : isPow2 l.length = false) :
    buildTree (l ++ [x]) =
      .node (buildTree (l.take (getLeftLeafNumber l.length)))
        (buildTree (l.drop (getLeftLeafNumber l.length) ++ [x])) := by
  have hL := getLeftLeafNumber_succ_eq h2 h
  have hLle : getLeftLeafNumber l.length ≤ l.length :=
    le_of_lt (getLeftLeafNumber_lt h2)
  rw [buildTree_eq_node _ (by simp; omega)]
  rw [List.length_append, List.length_singleton, hL,
    List.take_append_of_le_length hLle, List.drop_append_of_le_length hLle]

theorem combineAll_pair (hc : MmrElem → MmrElem → Nat) (s : List MmrElem)
    (right left : MmrElem) (rest : List MmrElem) :
    combineAll hc s (right :: left :: rest) =
      combineAll hc (s ++ [combineElem hc left right])
        (combineElem hc left right :: rest) := by
  rw [combineAll]

theorem combineAll_single (hc : MmrElem → MmrElem → Nat) (s : List MmrElem)
    (e : MmrElem) : combineAll hc s [e] = s := by
  rw [combineAll]
  intro right left rest h
  simp at h

theorem spineStores_pow2 (hc : MmrElem → MmrElem → Nat) {l : List MmrElem}
    (h : isPow2 l.length = true) :
    spineStores hc l = flatten hc (buildTree l) := by
  rw [spineStores, if_pos h]

theorem spineStores_not_pow2 (hc : MmrElem → MmrElem → Nat)
    {l : List MmrElem} (h1 : l.length ≠ 0) (h : isPow2 l.length = false) :
    spineStores hc l =
      flatten hc (buildTree (l.take (getLeftLeafNumber l.length))) ++
        spineStores hc (l.drop (getLeftLeafNumber l.length)) := by
  rw [spineStores, if_neg (by simp [h]), if_neg h1]

theorem spineStack_pow2 (hc : MmrElem → MmrElem → Nat) {l : List MmrElem}
    (h : isPow2 l.length = true) : spineStack hc l = [] := by
  rw [spineStack, if_pos h]

theorem spineStack_not_pow2 (hc : MmrElem → MmrElem → Nat)
    {l : List MmrElem} (h1 : l.length ≠ 0) (h : isPow2 l.length = false) :
    spineStack hc l =
      spineStack hc (l.drop (getLeftLeafNumber l.length)) ++
        [(buildTree (l.take (getLeftLeafNumber l.length))).elemOf hc] := by
  rw [spineStack, if_neg (by simp [h]), if_neg h1]

theorem lastSeg_pow2 {l : List MmrElem} (h : isPow2 l.length = true) :
    lastSeg l = l := by
  rw [lastSeg, if_pos h]

theorem lastSeg_not_pow2 {l : List MmrElem} (h1 : l.length ≠ 0)
    (h : isPow2 l.length = false) :
    lastSeg l = lastSeg (l.drop (getLeftLeafNumber l.length)) := by
  rw [lastSeg, if_neg (by simp [h]), if_neg h1]

theorem appendStrip_pow2 (store : List MmrElem) {curr : Nat} (aggr : Nat)
    (h : isPow2 curr = true) : appendStrip store curr aggr = (store, []) := by
  rw [appendStrip, if_neg (by have := isPow2_pos h; omega), if_pos h]

theorem appendStrip_step (store : List MmrElem) {curr : Nat} (aggr : Nat)
    (h0 : curr ≠ 0) (h : isPow2 curr = false) :
    appendStrip store curr aggr =
      ((appendStrip store.dropLast (curr - nextPow2 curr / 2)
          (aggr + nextPow2 curr / 2)).1,
        (appendStrip store.dropLast (curr - nextPow2 curr / 2)
          (aggr + nextPow2 curr / 2)).2 ++
          [storeGetElem store.dropLast
            (getNodeNumber (aggr + nextPow2 curr / 2) - 1)]) := by
  rw [appendStrip, if_neg h0, if_neg (by simp [h])]

theorem storeGetRoot_eq (s : List MmrElem) :
    storeGetRoot s = s.getLast?.getD ⟨0, 0⟩ := by
  rw [storeGetRoot, List.getD_eq_getElem?_getD, ← List.getLast?_eq_getElem?]

theorem spineStores_ne_nil (hc : MmrElem → MmrElem → Nat)
    (l : List MmrElem) (h : 1 ≤ l.length) : spineStores hc l ≠ [] := by
  rcases Bool.eq_false_or_eq_true (isPow2 l.length) with hp | hp
  · rw [spineStores_pow2 hc hp]
    exact flatten_ne_nil hc _
  · rw [spineStores_not_pow2 hc (by omega) hp]
    simp [flatten_ne_nil]

theorem spineStores_getLast? (hc : MmrElem → MmrElem → Nat) :
    ∀ n (l : List MmrElem), l.length = n → 1 ≤ l.length →
      (spineStores hc l).getLast? =
        some ((buildTree (lastSeg l)).elemOf hc) := by
  intro n
  induction n using Nat.strong_induction_on with
  | _ n ih =>
    intro l hlen h1
    rcases Bool.eq_false_or_eq_true (isPow2 l.length) with hp | hp
    · rw [spineStores_pow2 hc hp, lastSeg_pow2 hp, flatten_getLast?]
    · have h2 : 2 ≤ l.length := by
        by_contra hx
        push_neg at hx
        have h3 : l.length = 1 := by omega
        rw [h3] at hp
        simp [isPow2_one] at hp
      have hL1 := getLeftLeafNumber_pos h2
      have hL2 := getLeftLeafNumber_lt h2
      rw [spineStores_not_pow2 hc (by omega) hp, lastSeg_not_pow2 (by omega) hp,
        List.getLast?_append_of_ne_nil _
          (spineStores_ne_nil hc _ (by simp [List.length_drop]; omega))]
      exact ih (l.drop (getLeftLeafNumber l.length)).length
        (by simp [List.length_drop]; omega) _ rfl
        (by simp [List.length_drop]; omega)

/-- The strip loop on a store ending in a canonical block: it peels the
block's right spine, leaving `spineStores` and stacking `spineStack`. -/
theorem appendStrip_spec (hc : MmrElem → MmrElem → Nat) :
    ∀ n (l pre : List MmrElem) (aggr : Nat),
      l.length = n → 1 ≤ l.length →
      pre.length = getNodeNumber aggr → nextPow2 l.length ∣ aggr →
      appendStrip (pre ++ flatten hc (buildTree l)) l.length aggr =
        (pre ++ spineStores hc l, spineStack hc l) := by
  intro n
  induction n using Nat.strong_induction_on with
  | _ n ih =>
    intro l pre aggr hlen h1 hpre hdvd
    rcases Bool.eq_false_or_eq_true (isPow2 l.length) with hp | hp
    · rw [appendStrip_pow2 _ _ hp, spineStores_pow2 hc hp, spineStack_pow2 hc hp]
    · have h2 : 2 ≤ l.length := by
        by_contra hx
        push_neg at hx
        have h3 : l.length = 1 := by omega
        rw [h3] at hp
        simp [isPow2_one] at hp
      obtain ⟨j, hLj, hn2, hlt, hle⟩ := nextPow2_div_two_spec h2 hp
      have hLL : nextPow2 l.length / 2 = getLeftLeafNumber l.length := by
        rw [getLeftLeafNumber, if_neg (by simp [hp])]
      set L := getLeftLeafNumber l.length with hLdef
      have hLpow : isPow2 L = true := isPow2_getLeftLeafNumber h2
      have hL1 : 1 ≤ L := getLeftLeafNumber_pos h2
      have hL2 : L < l.length := getLeftLeafNumber_lt h2
      have hnlt : l.length < 2 * L := by
        have hne : l.length ≠ 2 ^ (j + 1) := by
          intro he
          rw [he, isPow2_two_pow] at hp
          cases hp
        have : L = 2 ^ j := by rw [← hLL, hLj]
        omega
      have h2L : 2 * L = nextPow2 l.length := by
        have : L = 2 ^ j := by rw [← hLL, hLj]
        rw [this, hn2]
        ring
      -- the canonical block splits at `L`
      have hA : (l.take L).length = L := by simp [List.length_take]; omega
      have hB : (l.drop L).length = l.length - L := by simp
      have hFA : (flatten hc (buildTree (l.take L))).length = 2 * L - 1 := by
        rw [flatten_length, buildTree_leafCount _ (by omega)]
        omega
      have hflat : pre ++ flatten hc (buildTree l) =
          ((pre ++ flatten hc (buildTree (l.take L)) ++
            flatten hc (buildTree (l.drop L))) ++
          [MTree.elemOf hc (.node (buildTree (l.take L))
            (buildTree (l.drop L)))]) := by
        rw [buildTree_eq_node l h2, flatten]
        simp [List.append_assoc]
      have hgnn : getNodeNumber (aggr + L) = getNodeNumber aggr + (2 * L - 1) :=
        getNodeNumber_add_pow hLpow (h2L ▸ hdvd)
      rw [appendStrip_step _ _ (by omega) hp, hLL]
      rw [hflat, List.dropLast_concat]
      have hstep := ih (l.drop L).length (by rw [hB]; omega) (l.drop L)
        (pre ++ flatten hc (buildTree (l.take L))) (aggr + L)
        rfl (by omega)
        (by rw [List.length_append, hFA, hgnn, hpre])
        (by
          have hr : (l.drop L).length < L := by rw [hB]; omega
          have hnr : nextPow2 (l.drop L).length ≤ L := by
            calc nextPow2 (l.drop L).length ≤ nextPow2 L :=
                  nextPow2_mono (le_of_lt hr)
            _ = L := nextPow2_of_isPow2 hLpow
          have hd1 : nextPow2 (l.drop L).length ∣ L :=
            pow2_dvd (nextPow2_isPow2 _) hLpow hnr
          have hd2 : nextPow2 (l.drop L).length ∣ aggr := by
            have hmid : nextPow2 (l.drop L).length ∣ nextPow2 l.length := by
              rw [← h2L]
              exact pow2_dvd (nextPow2_isPow2 _) (isPow2_two_mul hLpow)
                (by omega)
            exact dvd_trans hmid hdvd
          exact Nat.dvd_add hd2 hd1)
      have hassoc : pre ++ flatten hc (buildTree (l.take L)) ++
          flatten hc (buildTree (l.drop L)) =
          (pre ++ flatten hc (buildTree (l.take L))) ++
            flatten hc (buildTree (l.drop L)) := by
        simp [List.append_assoc]
      rw [hB] at hstep
      rw [hassoc, hstep]
      have hread : storeGetElem
          ((pre ++ flatten hc (buildTree (l.take L))) ++
            flatten hc (buildTree (l.drop L)))
          (getNodeNumber (aggr + L) - 1) =
          (buildTree (l.take L)).elemOf hc := by
        rw [storeGetElem, List.append_assoc, List.getD_append_right _ _ _ _
          (by rw [hpre, hgnn]; omega)]
        rw [hpre, hgnn]
        have hidx : getNodeNumber aggr + (2 * L - 1) - 1 - getNodeNumber aggr =
            2 * L - 2 := by omega
        rw [hidx, List.getD_append _ _ _ _ (by rw [hFA]; omega)]
        have hidx2 : 2 * L - 2 =
            (flatten hc (buildTree (l.take L))).length - 1 := by
          rw [hFA]
          omega
        rw [hidx2]
        exact flatten_getD_last hc _
      rw [hread, spineStores_not_pow2 hc (by omega) hp,
        spineStack_not_pow2 hc (by omega) hp]
      simp [List.append_assoc]

/-- The hashing loop on the stripped spine: with the fresh leaf and the
last spine segment's root on top of the stacked left roots, the loop
rebuilds exactly the canonical tree over `l ++ [x]`. -/
theorem combineAll_spine (hc : MmrElem → MmrElem → Nat) :
    ∀ n (l pre rest : List MmrElem) (x : MmrElem),
      l.length = n → 1 ≤ l.length →
      combineAll hc (pre ++ spineStores hc l ++ [x])
          (x :: (buildTree (lastSeg l)).elemOf hc :: (spineStack hc l ++ rest)) =
        combineAll hc (pre ++ flatten hc (buildTree (l ++ [x])))
          ((buildTree (l ++ [x])).elemOf hc :: rest) := by
  intro n
  induction n using Nat.strong_induction_on with
  | _ n ih =>
    intro l pre rest x hlen h1
    rcases Bool.eq_false_or_eq_true (isPow2 l.length) with hp | hp
    · rw [spineStores_pow2 hc hp, spineStack_pow2 hc hp, lastSeg_pow2 hp,
        List.nil_append, combineAll_pair, buildTree_snoc_pow2 l x hp]
      have helem : (MTree.node (buildTree l) (.leaf x)).elemOf hc =
          combineElem hc ((buildTree l).elemOf hc) x := rfl
      rw [helem]
      have hstore : pre ++ flatten hc (buildTree l) ++ [x] ++
          [combineElem hc ((buildTree l).elemOf hc) x] =
          pre ++ flatten hc (MTree.node (buildTree l) (.leaf x)) := by
        simp [flatten, MTree.elemOf, List.append_assoc]
      rw [hstore]
    · have h2 : 2 ≤ l.length := by
        by_contra hx
        push_neg at hx
        have h3 : l.length = 1 := by omega
        rw [h3] at hp
        simp [isPow2_one] at hp
      have hL1 := getLeftLeafNumber_pos h2
      have hL2 := getLeftLeafNumber_lt h2
      set L := getLeftLeafNumber l.length with hLdef
      rw [spineStores_not_pow2 hc (by omega) hp,
        spineStack_not_pow2 hc (by omega) hp, lastSeg_not_pow2 (by omega) hp]
      have hstack : (spineStack hc (l.drop L) ++
          [(buildTree (l.take L)).elemOf hc]) ++ rest =
          spineStack hc (l.drop L) ++
            ((buildTree (l.take L)).elemOf hc :: rest) := by
        simp
      have hstore : pre ++ (flatten hc (buildTree (l.take L)) ++
          spineStores hc (l.drop L)) ++ [x] =
          (pre ++ flatten hc (buildTree (l.take L))) ++
            spineStores hc (l.drop L) ++ [x] := by
        simp [List.append_assoc]
      rw [hstack, hstore,
        ih (l.drop L).length (by simp [List.length_drop]; omega) (l.drop L)
          (pre ++ flatten hc (buildTree (l.take L)))
          ((buildTree (l.take L)).elemOf hc :: rest) x rfl
          (by simp [List.length_drop]; omega),
        combineAll_pair, buildTree_snoc_not_pow2 l x h2 hp]
      have helem : (MTree.node (buildTree (l.take L))
          (buildTree (l.drop L ++ [x]))).elemOf hc =
          combineElem hc ((buildTree (l.take L)).elemOf hc)
            ((buildTree (l.drop L ++ [x])).elemOf hc) := rfl
      rw [helem]
      have hstore2 : (pre ++ flatten hc (buildTree (l.take L))) ++
          flatten hc (buildTree (l.drop L ++ [x])) ++
          [combineElem hc ((buildTree (l.take L)).elemOf hc)
            ((buildTree (l.drop L ++ [x])).elemOf hc)] =
          pre ++ flatten hc (MTree.node (buildTree (l.take L))
            (buildTree (l.drop L ++ [x]))) := by
        simp [flatten, MTree.elemOf, List.append_assoc]
      rw [hstore2]

/-- `append_leaf` on a canonical state produces the canonical state of
the extended leaf sequence. -/
theorem appendLeaf_flatten (hc : MmrElem → MmrElem → Nat)
    (l : List MmrElem) (h1 : 1 ≤ l.length) (hx dx : Nat) :
    appendLeaf hc ⟨l.length, flatten hc (buildTree l)⟩ hx dx =
      ⟨l.length + 1, flatten hc (buildTree (l ++ [⟨hx, dx⟩]))⟩ := by
  have hstrip := appendStrip_spec hc l.length l [] 0 rfl h1
    (by simp [getNodeNumber_zero]) (dvd_zero _)
  rw [List.nil_append, List.nil_append] at hstrip
  have hroot : storeGetRoot (spineStores hc l) =
      (buildTree (lastSeg l)).elemOf hc := by
    rw [storeGetRoot_eq, spineStores_getLast? hc l.length l rfl h1]
    rfl
  rw [appendLeaf]
  simp only [hstrip, hroot]
  have hcomb := combineAll_spine hc l.length l [] [] ⟨hx, dx⟩ rfl h1
  rw [List.nil_append, List.append_nil] at hcomb
  rw [hcomb, List.nil_append, combineAll_single]

/-- A tree built by `MerkleTree::new` on the first leaf followed by
`append_leaf` for each later leaf. -/
def mmrOfLeaves (hc : MmrElem → MmrElem → Nat) (first : MmrElem)
    (rest : List MmrElem) : MTState :=
  rest.foldl (fun st x => appendLeaf hc st x.hash x.difficulty)
    (newTree first.hash first.difficulty)

theorem mmrOfLeaves_eq (hc : MmrElem → MmrElem → Nat) (first : MmrElem)
    (rest : List MmrElem) :
    mmrOfLeaves hc first rest =
      ⟨(first :: rest).length, flatten hc (buildTree (first :: rest))⟩ := by
  induction rest using List.reverseRecOn with
  | nil => simp [mmrOfLeaves, newTree, buildTree, flatten]
  | append_singleton ys x ihy =>
    rw [mmrOfLeaves, List.foldl_concat]
    rw [mmrOfLeaves] at ihy
    rw [ihy]
    have := appendLeaf_flatten hc (first :: ys) (by simp) x.hash x.difficulty
    rw [this]
    simp

/-- C4: after every sequence of `append_leaf` calls starting from a
one-leaf tree, the store is the canonical post-order layout of the
appended leaves, the last 48-byte slot holds the current root node, and
the root's difficulty is the exact sum of all appended leaf
difficulties. -/
theorem append_root_invariant (hc : MmrElem → MmrElem → Nat)
    (first : MmrElem) (rest : List MmrElem) :
    (mmrOfLeaves hc first rest).leafNumber = rest.length + 1 ∧
    (mmrOfLeaves hc first rest).store =
      flatten hc (buildTree (first :: rest)) ∧
    (mmrOfLeaves hc first rest).store.length = 2 * (rest.length + 1) - 1 ∧
    storeGetRoot (mmrOfLeaves hc first rest).store =
      (buildTree (first :: rest)).elemOf hc ∧
    (storeGetRoot (mmrOfLeaves hc first rest).store).difficulty =
      ((first :: rest).map MmrElem.difficulty).sum := by
  rw [mmrOfLeaves_eq]
  refine ⟨by simp, rfl, ?_, ?_, ?_⟩
  · rw [flatten_length, buildTree_leafCount _ (by simp)]
    simp
  · rw [storeGetRoot_eq, flatten_getLast?]
    rfl
  · rw [storeGetRoot_eq, flatten_getLast?]
    simp only [Option.getD_some]
    exact buildTree_difficulty hc _ (by simp)

/-! ### `MerkleTree::get_left_difficulty` (the prefix-difficulty descent) -/

theorem alignOf_eq_nextPow2 (n : Nat) : alignOf n = nextPow2 n := by
  unfold alignOf
  split
  · next h => exact (nextPow2_of_isPow2 h).symm
  · rfl

theorem two_mul_getLeftLeafNumber {n : Nat} (h : 2 ≤ n) :
    2 * getLeftLeafNumber n = nextPow2 n := by
  rw [← alignOf_eq_two_mul_left h, alignOf_eq_nextPow2]

/-- The `while aggr_node_number < leaf_number` loop of
`get_left_difficulty` (`persistent_mmr.rs:626`); the inline
left-subtree-size expression of the source is exactly
`getLeftLeafNumber`.  The result is `none` when the loop never returns:
once the current subtree is a single leaf (`curr ≤ 1`) while
`aggr_node_number < k`, the left size is `0` and the right branch
repeats with no progress, so the source loops forever (re-adding the
same difficulty, which aborts on `u128` overflow in a checked build). -/
def getLeftDifficultyAux (store : List MmrElem) (k curr aggrN aggrW : Nat) :
    Option Nat :=
  if aggrN < k then
    if curr ≤ 1 then none
    else
      if aggrN + getLeftLeafNumber curr ≤ k then
        getLeftDifficultyAux store k (curr - getLeftLeafNumber curr)
          (aggrN + getLeftLeafNumber curr)
          (aggrW + (storeGetElem store
            (getNodeNumber (aggrN + getLeftLeafNumber curr) - 1)).difficulty)
      else getLeftDifficultyAux store k (getLeftLeafNumber curr) aggrN aggrW
  else some aggrW
termination_by curr
decreasing_by
  · have h1 := getLeftLeafNumber_pos (n := curr) (by omega)
    omega
  · have h1 := getLeftLeafNumber_lt (n := curr) (by omega)
    omega

/-- `MerkleTree::get_left_difficulty`: descend from the root
(`curr_tree_number = self.leaf_number`) with target `k`. -/
def getLeftDifficulty (st : MTState) (k : Nat) : Option Nat :=
  getLeftDifficultyAux st.store k st.leafNumber 0 0

/-- Iteration counter of the same loop: identical branch structure
(the branch taken never depends on the store or the accumulated
weight), counting one per iteration. -/
def gldCount (k curr aggrN : Nat) : Option Nat :=
  if aggrN < k then
    if curr ≤ 1 then none
    else
      if aggrN + getLeftLeafNumber curr ≤ k then
        (gldCount k (curr - getLeftLeafNumber curr)
          (aggrN + getLeftLeafNumber curr)).map (· + 1)
      else (gldCount k (getLeftLeafNumber curr) aggrN).map (· + 1)
  else some 0
termination_by curr
decreasing_by
  · have h1 := getLeftLeafNumber_pos (n := curr) (by omega)
    omega
  · have h1 := getLeftLeafNumber_lt (n := curr) (by omega)
    omega

/-- The loop terminates iff its iteration counter does: the branch taken
at each step does not depend on the store or the weight accumulator. -/
theorem gld_gldCount_agree (store : List MmrElem) :
    ∀ curr k aggrN aggrW,
      (getLeftDifficultyAux store k curr aggrN aggrW).isSome =
        (gldCount k curr aggrN).isSome := by
  intro curr
  induction curr using Nat.strong_induction_on with
  | _ curr ih =>
    intro k aggrN aggrW
    rw [getLeftDifficultyAux, gldCount]
    rcases Nat.lt_or_ge aggrN k with hlt | hge
    · rw [if_pos hlt, if_pos hlt]
      rcases Nat.lt_or_ge 1 curr with hc | hc
      · have hc1 : ¬(curr ≤ 1) := by omega
        rw [if_neg hc1, if_neg hc1]
        have hL1 := getLeftLeafNumber_pos (n := curr) (by omega)
        have hL2 := getLeftLeafNumber_lt (n := curr) (by omega)
        rcases Nat.lt_or_ge k (aggrN + getLeftLeafNumber curr) with hb | hb
        · have hb1 : ¬(aggrN + getLeftLeafNumber curr ≤ k) := by omega
          rw [if_neg hb1, if_neg hb1, ih (getLeftLeafNumber curr) (by omega)]
          simp
        · have hb2 : aggrN + getLeftLeafNumber curr ≤ k := by omega
          rw [if_pos hb2, if_pos hb2,
            ih (curr - getLeftLeafNumber curr) (by omega)]
          simp
      · have hc2 : curr ≤ 1 := by omega
        rw [if_pos hc2, if_pos hc2]
    · have h3 : ¬(aggrN < k) := by omega
      rw [if_neg h3, if_neg h3]
      rfl

/-- Block agreement: the store holds the canonical block of `l` at slot
base `getNodeNumber aggrN`. -/
def StoreAgrees (hc : MmrElem → MmrElem → Nat) (store l : List MmrElem)
    (aggrN : Nat) : Prop :=
  ∀ j, j < 2 * l.length - 1 →
    storeGetElem store (getNodeNumber aggrN + j) =
      (flatten hc (buildTree l)).getD j ⟨0, 0⟩

theorem flatten_node_decomp (hc : MmrElem → MmrElem → Nat)
    (l : List MmrElem) (h2 : 2 ≤ l.length) :
    flatten hc (buildTree l) =
      flatten hc (buildTree (l.take (getLeftLeafNumber l.length))) ++
      (flatten hc (buildTree (l.drop (getLeftLeafNumber l.length))) ++
        [MTree.elemOf hc (.node
          (buildTree (l.take (getLeftLeafNumber l.length)))
          (buildTree (l.drop (getLeftLeafNumber l.length))))]) := by
  rw [buildTree_eq_node l h2, flatten]
  simp [List.append_assoc]

theorem take_flatten_length (hc : MmrElem → MmrElem → Nat)
    (l : List MmrElem) (h2 : 2 ≤ l.length) :
    (flatten hc (buildTree (l.take (getLeftLeafNumber l.length)))).length =
      2 * getLeftLeafNumber l.length - 1 := by
  have hL2 := getLeftLeafNumber_lt h2
  have hL1 := getLeftLeafNumber_pos h2
  rw [flatten_length, buildTree_leafCount _ (by simp [List.length_take]; omega)]
  simp [List.length_take]
  omega

theorem drop_flatten_length (hc : MmrElem → MmrElem → Nat)
    (l : List MmrElem) (h2 : 2 ≤ l.length) :
    (flatten hc (buildTree (l.drop (getLeftLeafNumber l.length)))).length =
      2 * (l.length - getLeftLeafNumber l.length) - 1 := by
  have hL2 := getLeftLeafNumber_lt h2
  have hL1 := getLeftLeafNumber_pos h2
  rw [flatten_length, buildTree_leafCount _ (by simp [List.length_drop]; omega)]
  simp [List.length_drop]

/-- Alignment passes to the left subtree. -/
theorem align_left {n aggrN : Nat} (h2 : 2 ≤ n)
    (hdvd : nextPow2 n ∣ aggrN) :
    nextPow2 (getLeftLeafNumber n) ∣ aggrN := by
  have hLpow := isPow2_getLeftLeafNumber h2
  rw [nextPow2_of_isPow2 hLpow]
  refine dvd_trans ?_ hdvd
  rw [← two_mul_getLeftLeafNumber h2]
  exact dvd_mul_left _ _

/-- Alignment passes to the right subtree at offset `aggrN + L`. -/
theorem align_right {n aggrN : Nat} (h2 : 2 ≤ n)
    (hdvd : nextPow2 n ∣ aggrN) :
    nextPow2 (n - getLeftLeafNumber n) ∣ (aggrN + getLeftLeafNumber n) := by
  have hLpow := isPow2_getLeftLeafNumber h2
  have hr : n - getLeftLeafNumber n ≤ getLeftLeafNumber n :=
    sub_getLeftLeafNumber_le h2
  have hnr : nextPow2 (n - getLeftLeafNumber n) ≤ getLeftLeafNumber n := by
    calc nextPow2 (n - getLeftLeafNumber n) ≤ nextPow2 (getLeftLeafNumber n) :=
          nextPow2_mono hr
    _ = getLeftLeafNumber n := nextPow2_of_isPow2 hLpow
  have hd1 : nextPow2 (n - getLeftLeafNumber n) ∣ getLeftLeafNumber n :=
    pow2_dvd (nextPow2_isPow2 _) hLpow hnr
  have hd2 : nextPow2 (n - getLeftLeafNumber n) ∣ aggrN := by
    refine dvd_trans (dvd_trans hd1 ?_) hdvd
    rw [← two_mul_getLeftLeafNumber h2]
    exact dvd_mul_left _ _
  exact Nat.dvd_add hd2 hd1

/-- Slot-base additivity at the canonical split: the right subtree's
block starts `2L - 1` slots after the left one's. -/
theorem gnn_split {n aggrN : Nat} (h2 : 2 ≤ n) (hdvd : nextPow2 n ∣ aggrN) :
    getNodeNumber (aggrN + getLeftLeafNumber n) =
      getNodeNumber aggrN + (2 * getLeftLeafNumber n - 1) := by
  refine getNodeNumber_add_pow (isPow2_getLeftLeafNumber h2) ?_
  rw [two_mul_getLeftLeafNumber h2]
  exact hdvd

/-- Reading the slot just left of the split point yields the left
subtree's root element. -/
theorem store_read_left_root (hc : MmrElem → MmrElem → Nat)
    {store l : List MmrElem} {aggrN : Nat} (h2 : 2 ≤ l.length)
    (hdvd : nextPow2 l.length ∣ aggrN) (H : StoreAgrees hc store l aggrN) :
    storeGetElem store
        (getNodeNumber (aggrN + getLeftLeafNumber l.length) - 1) =
      (buildTree (l.take (getLeftLeafNumber l.length))).elemOf hc := by
  have hL1 := getLeftLeafNumber_pos h2
  have hL2 := getLeftLeafNumber_lt h2
  have hgnn := gnn_split h2 hdvd
  have hidx : getNodeNumber (aggrN + getLeftLeafNumber l.length) - 1 =
      getNodeNumber aggrN + (2 * getLeftLeafNumber l.length - 2) := by
    rw [hgnn]
    have := getNodeNumber_zero
    omega
  rw [hidx, H _ (by omega), flatten_node_decomp hc l h2,
    List.getD_append _ _ _ _ (by rw [take_flatten_length hc l h2]; omega)]
  have hidx2 : 2 * getLeftLeafNumber l.length - 2 =
      (flatten hc (buildTree (l.take (getLeftLeafNumber l.length)))).length
        - 1 := by
    rw [take_flatten_length hc l h2]
    omega
  rw [hidx2]
  exact flatten_getD_last hc _

/-- Agreement restricts to the left subtree's block. -/
theorem store_agree_left (hc : MmrElem → MmrElem → Nat)
    {store l : List MmrElem} {aggrN : Nat} (h2 : 2 ≤ l.length)
    (H : StoreAgrees hc store l aggrN) :
    StoreAgrees hc store (l.take (getLeftLeafNumber l.length)) aggrN := by
  have hL1 := getLeftLeafNumber_pos h2
  have hL2 := getLeftLeafNumber_lt h2
  intro j hj
  have hjlen : j < 2 * getLeftLeafNumber l.length - 1 := by
    rw [List.length_take] at hj
    have := Nat.min_le_left (getLeftLeafNumber l.length) l.length
    omega
  rw [H _ (by omega), flatten_node_decomp hc l h2,
    List.getD_append _ _ _ _ (by rw [take_flatten_length hc l h2]; omega)]

/-- Agreement restricts to the right subtree's block. -/
theorem store_agree_right (hc : MmrElem → MmrElem → Nat)
    {store l : List MmrElem} {aggrN : Nat} (h2 : 2 ≤ l.length)
    (hdvd : nextPow2 l.length ∣ aggrN) (H : StoreAgrees hc store l aggrN) :
    StoreAgrees hc store (l.drop (getLeftLeafNumber l.length))
      (aggrN + getLeftLeafNumber l.length) := by
  have hL1 := getLeftLeafNumber_pos h2
  have hL2 := getLeftLeafNumber_lt h2
  intro j hj
  have hjlen : j < 2 * (l.length - getLeftLeafNumber l.length) - 1 := by
    simpa [List.length_drop] using hj
  rw [gnn_split h2 hdvd]
  have hidx : getNodeNumber aggrN + (2 * getLeftLeafNumber l.length - 1) + j =
      getNodeNumber aggrN + ((2 * getLeftLeafNumber l.length - 1) + j) := by
    omega
  rw [hidx, H _ (by omega), flatten_node_decomp hc l h2,
    List.getD_append_right _ _ _ _
      (by rw [take_flatten_length hc l h2]; omega),
    take_flatten_length hc l h2]
  have hsub : 2 * getLeftLeafNumber l.length - 1 + j -
      (2 * getLeftLeafNumber l.length - 1) = j := by omega
  rw [hsub, List.getD_append _ _ _ _ (by rw [drop_flatten_length hc l h2]; omega)]

/-- Descent lemma for `get_left_difficulty`: on a canonical block with
target `k` strictly inside the subtree, the loop returns the
accumulated weight plus the prefix-difficulty of the first `k - aggrN`
leaves. -/
theorem getLeftDifficultyAux_spec (hc : MmrElem → MmrElem → Nat) :
    ∀ n (l store : List MmrElem) (k aggrN aggrW : Nat),
      l.length = n → 1 ≤ l.length → aggrN ≤ k → k < aggrN + l.length →
      nextPow2 l.length ∣ aggrN → StoreAgrees hc store l aggrN →
      getLeftDifficultyAux store k l.length aggrN aggrW =
        some (aggrW + ((l.take (k - aggrN)).map MmrElem.difficulty).sum) := by
  intro n
  induction n using Nat.strong_induction_on with
  | _ n ih =>
    intro l store k aggrN aggrW hlen h1 hle hlt hdvd H
    rcases Nat.lt_or_ge aggrN k with hlt2 | hge
    · have h2 : 2 ≤ l.length := by omega
      have hL1 := getLeftLeafNumber_pos h2
      have hL2 := getLeftLeafNumber_lt h2
      have hc1 : ¬(l.length ≤ 1) := by omega
      rw [getLeftDifficultyAux, if_pos hlt2, if_neg hc1]
      rcases Nat.lt_or_ge k (aggrN + getLeftLeafNumber l.length) with hb | hb
      · -- branch left
        have hb1 : ¬(aggrN + getLeftLeafNumber l.length ≤ k) := by omega
        rw [if_neg hb1]
        have htakelen : (l.take (getLeftLeafNumber l.length)).length =
            getLeftLeafNumber l.length := by
          simp [List.length_take]
          omega
        have := ih (l.take (getLeftLeafNumber l.length)).length
          (by rw [htakelen]; omega) (l.take (getLeftLeafNumber l.length))
          store k aggrN aggrW rfl (by rw [htakelen]; omega) hle
          (by rw [htakelen]; omega)
          (by rw [htakelen]; exact align_left h2 hdvd)
          (store_agree_left hc h2 H)
        rw [htakelen] at this
        rw [this, List.take_take, Nat.min_eq_left (by omega)]
      · -- branch right
        rw [if_pos hb]
        rw [store_read_left_root hc h2 hdvd H]
        have hdroplen : (l.drop (getLeftLeafNumber l.length)).length =
            l.length - getLeftLeafNumber l.length := by simp
        have htakelen : (l.take (getLeftLeafNumber l.length)).length =
            getLeftLeafNumber l.length := by
          simp [List.length_take]
          omega
        have hrec := ih (l.drop (getLeftLeafNumber l.length)).length
          (by rw [hdroplen]; omega) (l.drop (getLeftLeafNumber l.length))
          store k (aggrN + getLeftLeafNumber l.length)
          (aggrW + ((buildTree (l.take (getLeftLeafNumber l.length))).elemOf
            hc).difficulty)
          rfl (by rw [hdroplen]; omega) hb (by rw [hdroplen]; omega)
          (by rw [hdroplen]; exact align_right h2 hdvd)
          (store_agree_right hc h2 hdvd H)
        rw [hdroplen] at hrec
        rw [hrec, buildTree_difficulty hc _ (by rw [htakelen]; omega)]
        congr 1
        have hsplit : l.take (k - aggrN) =
            l.take (getLeftLeafNumber l.length) ++
              (l.drop (getLeftLeafNumber l.length)).take
                (k - aggrN - getLeftLeafNumber l.length) := by
          have he : k - aggrN =
              getLeftLeafNumber l.length +
                (k - aggrN - getLeftLeafNumber l.length) := by omega
          rw [he, List.take_add, Nat.add_sub_cancel_left]
        have he2 : k - (aggrN + getLeftLeafNumber l.length) =
            k - aggrN - getLeftLeafNumber l.length := by omega
        rw [hsplit, he2, List.map_append, List.sum_append]
        omega
    · rw [getLeftDifficultyAux, if_neg (by omega)]
      have he : k - aggrN = 0 := by omega
      simp [he]

/-- `get_left_difficulty` on the canonical state over leaves `l`
returns the exact prefix-difficulty sum for every target `k < n`. -/
theorem getLeftDifficulty_canonical (hc : MmrElem → MmrElem → Nat)
    (l : List MmrElem) (k : Nat) (hk : k < l.length) :
    getLeftDifficulty ⟨l.length, flatten hc (buildTree l)⟩ k =
      some (((l.take k).map MmrElem.difficulty).sum) := by
  have h := getLeftDifficultyAux_spec hc l.length l
    (flatten hc (buildTree l)) k 0 0 rfl (by omega) (by omega) (by omega)
    (dvd_zero _)
    (by
      intro j hj
      rw [getNodeNumber_zero, Nat.zero_add]
      rfl)
  simpa using h

/-- The descent makes at most `⌈log₂ n⌉ + 1` iterations whenever the
target lies strictly inside the tree. -/
theorem gldCount_le :
    ∀ n k aggrN, 1 ≤ n → aggrN ≤ k → k < aggrN + n →
      ∃ c, gldCount k n aggrN = some c ∧ c ≤ Nat.clog 2 n + 1 := by
  intro n
  induction n using Nat.strong_induction_on with
  | _ n ih =>
    intro k aggrN h1 hle hlt
    rcases Nat.lt_or_ge aggrN k with hlt2 | hge
    · have h2 : 2 ≤ n := by omega
      obtain ⟨j, hLj, hjlt, hjle⟩ := getLeftLeafNumber_spec h2
      have hL1 : 1 ≤ getLeftLeafNumber n := by rw [hLj]; exact Nat.one_le_two_pow
      have hL2 : getLeftLeafNumber n < n := by omega
      have hclog : j < Nat.clog 2 n :=
        (Nat.pow_lt_iff_lt_clog (by norm_num)).mp hjlt
      have hclogL : Nat.clog 2 (getLeftLeafNumber n) = j := by
        rw [hLj, Nat.clog_pow 2 j (by norm_num)]
      have hc1 : ¬(n ≤ 1) := by omega
      rw [gldCount, if_pos hlt2, if_neg hc1]
      rcases Nat.lt_or_ge k (aggrN + getLeftLeafNumber n) with hb | hb
      · have hb1 : ¬(aggrN + getLeftLeafNumber n ≤ k) := by omega
        rw [if_neg hb1]
        obtain ⟨c, hcEq, hcLe⟩ := ih (getLeftLeafNumber n) (by omega) k aggrN
          (by omega) hle (by omega)
        refine ⟨c + 1, by rw [hcEq]; rfl, ?_⟩
        rw [hclogL] at hcLe
        omega
      · rw [if_pos (by omega)]
        have hsub := sub_getLeftLeafNumber_le h2
        obtain ⟨c, hcEq, hcLe⟩ := ih (n - getLeftLeafNumber n) (by omega) k
          (aggrN + getLeftLeafNumber n) (by omega) (by omega) (by omega)
        refine ⟨c + 1, by rw [hcEq]; rfl, ?_⟩
        have hmono : Nat.clog 2 (n - getLeftLeafNumber n) ≤
            Nat.clog 2 (getLeftLeafNumber n) := Nat.clog_mono_right 2 hsub
        rw [hclogL] at hmono
        omega
    · rw [gldCount, if_neg (by omega)]
      exact ⟨0, rfl, by omega⟩

theorem gld_two_leaf_diverges (store : List MmrElem) :
    getLeftDifficultyAux store 2 2 0 0 = none := by
  have hL : getLeftLeafNumber 2 = 1 := by
    have h := getLeftLeafNumber_two_pow (k := 0)
    norm_num at h
    exact h
  rw [getLeftDifficultyAux, if_pos (show (0 : Nat) < 2 by norm_num),
    if_neg (show ¬((2 : Nat) ≤ 1) by norm_num), hL,
    if_pos (show (0 + 1 : Nat) ≤ 2 by norm_num),
    show (2 : Nat) - 1 = 1 by norm_num, show (0 + 1 : Nat) = 1 by norm_num,
    getLeftDifficultyAux, if_pos (show (1 : Nat) < 2 by norm_num),
    if_pos (show (1 : Nat) ≤ 1 by norm_num)]

/-- C3 counterexample: with `k = n` the descent loop of
`get_left_difficulty` never terminates.  Concretely, on the two-leaf
MMR reached by one `append_leaf` the call with target `k = n = 2`
diverges (modelled as `none`): once the subtree is a single leaf while
`aggr_node_number < k`, the left size is `0` and the right branch
repeats forever. -/
theorem get_left_difficulty_diverges_at_n :
    (mmrOfLeaves (fun _ _ => 0) ⟨1, 1⟩ [⟨2, 1⟩]).leafNumber = 2 ∧
    getLeftDifficulty (mmrOfLeaves (fun _ _ => 0) ⟨1, 1⟩ [⟨2, 1⟩]) 2 =
      none := by
  rw [mmrOfLeaves_eq]
  exact ⟨rfl, gld_two_leaf_diverges _⟩

/-- C3 (amended to targets `k < n`): on the canonical MMR state over
leaves `l`, for all `k ≤ k' < n` the descent of `get_left_difficulty`
terminates with the prefix-difficulty sum, which is monotone
non-decreasing in the target, prefix plus suffix difficulty equals the
root difficulty stored in the last slot, and the loop runs at most
`⌈log₂ n⌉ + 1` iterations. -/
theorem get_left_difficulty_props (hc : MmrElem → MmrElem → Nat)
    (l : List MmrElem) (k k' : Nat) (hk : k < l.length) (hk' : k' < l.length)
    (hkk : k ≤ k') :
    getLeftDifficulty ⟨l.length, flatten hc (buildTree l)⟩ k =
      some (((l.take k).map MmrElem.difficulty).sum) ∧
    ((l.take k).map MmrElem.difficulty).sum ≤
      ((l.take k').map MmrElem.difficulty).sum ∧
    ((l.take k).map MmrElem.difficulty).sum +
      ((l.drop k).map MmrElem.difficulty).sum =
      (storeGetRoot (flatten hc (buildTree l))).difficulty ∧
    ∃ c, gldCount k l.length 0 = some c ∧ c ≤ Nat.clog 2 l.length + 1 := by
  refine ⟨getLeftDifficulty_canonical hc l k hk, ?_, ?_, ?_⟩
  · have hsplit : l.take k' = l.take k ++ (l.drop k).take (k' - k) := by
      have he : k' = k + (k' - k) := by omega
      rw [he, List.take_add]
      have he2 : k + (k' - k) - k = k' - k := by omega
      rw [he2]
    rw [hsplit, List.map_append, List.sum_append]
    exact Nat.le_add_right _ _
  · rw [storeGetRoot_eq, flatten_getLast?, Option.getD_some,
      buildTree_difficulty hc _ (by omega), ← List.sum_append,
      ← List.map_append, List.take_append_drop]
  · exact gldCount_le l.length k 0 (by omega) (by omega) (by omega)

/-- Witness for `get_left_difficulty_props` on a three-leaf tree with
difficulties 1, 2, 4 and targets `k = 1 ≤ k' = 2`. -/
theorem get_left_difficulty_props_witness :
    ((1 : Nat) < ([⟨1, 1⟩, ⟨2, 2⟩, ⟨3, 4⟩] : List MmrElem).length ∧
      (2 : Nat) < ([⟨1, 1⟩, ⟨2, 2⟩, ⟨3, 4⟩] : List MmrElem).length ∧
      (1 : Nat) ≤ 2) ∧
    (getLeftDifficulty
        ⟨([⟨1, 1⟩, ⟨2, 2⟩, ⟨3, 4⟩] : List MmrElem).length,
          flatten (fun _ _ => 0)
            (buildTree [⟨1, 1⟩, ⟨2, 2⟩, ⟨3, 4⟩])⟩ 1 =
      some ((([⟨1, 1⟩, ⟨2, 2⟩, ⟨3, 4⟩] : List MmrElem).take 1).map
        MmrElem.difficulty).sum ∧
    ((([⟨1, 1⟩, ⟨2, 2⟩, ⟨3, 4⟩] : List MmrElem).take 1).map
        MmrElem.difficulty).sum ≤
      ((([⟨1, 1⟩, ⟨2, 2⟩, ⟨3, 4⟩] : List MmrElem).take 2).map
        MmrElem.difficulty).sum ∧
    ((([⟨1, 1⟩, ⟨2, 2⟩, ⟨3, 4⟩] : List MmrElem).take 1).map
        MmrElem.difficulty).sum +
      ((([⟨1, 1⟩, ⟨2, 2⟩, ⟨3, 4⟩] : List MmrElem).drop 1).map
        MmrElem.difficulty).sum =
      (storeGetRoot (flatten (fun _ _ => 0)
        (buildTree [⟨1, 1⟩, ⟨2, 2⟩, ⟨3, 4⟩]))).difficulty ∧
    ∃ c, gldCount 1 ([⟨1, 1⟩, ⟨2, 2⟩, ⟨3, 4⟩] : List MmrElem).length 0 =
        some c ∧
      c ≤ Nat.clog 2 ([⟨1, 1⟩, ⟨2, 2⟩, ⟨3, 4⟩] : List MmrElem).length + 1) :=
  ⟨⟨by norm_num, by norm_num, by norm_num⟩,
    get_left_difficulty_props (fun _ _ => 0) [⟨1, 1⟩, ⟨2, 2⟩, ⟨3, 4⟩] 1 2
      (by norm_num) (by norm_num) (by norm_num)⟩

/-! ### `MerkleTree::get_child_by_aggr_weight_disc` (weight-indexed lookup) -/

/-- The `while curr_tree_number > 1` loop of
`get_child_by_aggr_weight_disc` (`persistent_mmr.rs:660`): read the left
subtree's root difficulty; if the target weight reaches
`aggr_weight + left_tree_difficulty`, branch right (the source re-reads
the same slot after updating `aggr_node_number`; the value is
identical), else branch left.  Returns `aggr_node_number`. -/
def getChildByAggrWeightDiscAux (store : List MmrElem) (w : Nat)
    (curr aggrN aggrW : Nat) : Nat :=
  if 1 < curr then
    if aggrW + (storeGetElem store
        (getNodeNumber (aggrN + getLeftLeafNumber curr) - 1)).difficulty
        ≤ w then
      getChildByAggrWeightDiscAux store w (curr - getLeftLeafNumber curr)
        (aggrN + getLeftLeafNumber curr)
        (aggrW + (storeGetElem store
          (getNodeNumber (aggrN + getLeftLeafNumber curr) - 1)).difficulty)
    else
      getChildByAggrWeightDiscAux store w (getLeftLeafNumber curr) aggrN aggrW
  else aggrN
termination_by curr
decreasing_by
  · have h1 := getLeftLeafNumber_pos (n := curr) (by omega)
    omega
  · have h1 := getLeftLeafNumber_lt (n := curr) (by omega)
    omega

/-- `MerkleTree::get_child_by_aggr_weight_disc`. -/
def getChildByAggrWeightDisc (st : MTState) (w : Nat) : Nat :=
  getChildByAggrWeightDiscAux st.store w st.leafNumber 0 0

/-- Descent lemma for the weight-indexed lookup: on a canonical block,
with the target weight strictly inside the block's total difficulty, the
loop lands on the unique leaf whose prefix-difficulty interval contains
the target. -/
theorem getChildByAggrWeightDiscAux_spec (hc : MmrElem → MmrElem → Nat) :
    ∀ n (l store : List MmrElem) (w aggrN aggrW : Nat),
      l.length = n → 1 ≤ l.length →
      nextPow2 l.length ∣ aggrN → StoreAgrees hc store l aggrN →
      aggrW ≤ w → w < aggrW + (l.map MmrElem.difficulty).sum →
      ∃ i, i < l.length ∧
        getChildByAggrWeightDiscAux store w l.length aggrN aggrW =
          aggrN + i ∧
        aggrW + ((l.take i).map MmrElem.difficulty).sum ≤ w ∧
        w < aggrW + ((l.take (i + 1)).map MmrElem.difficulty).sum := by
  intro n
  induction n using Nat.strong_induction_on with
  | _ n ih =>
    intro l store w aggrN aggrW hlen h1 hdvd H hwlo hwhi
    rcases Nat.lt_or_ge 1 l.length with h2' | h2'
    · have h2 : 2 ≤ l.length := by omega
      have hL1 := getLeftLeafNumber_pos h2
      have hL2 := getLeftLeafNumber_lt h2
      have htakelen : (l.take (getLeftLeafNumber l.length)).length =
          getLeftLeafNumber l.length := by
        simp [List.length_take]
        omega
      have hdroplen : (l.drop (getLeftLeafNumber l.length)).length =
          l.length - getLeftLeafNumber l.length := by simp
      have hread := store_read_left_root hc h2 hdvd H
      have hsum : (l.map MmrElem.difficulty).sum =
          ((l.take (getLeftLeafNumber l.length)).map MmrElem.difficulty).sum +
          ((l.drop (getLeftLeafNumber l.length)).map MmrElem.difficulty).sum := by
        rw [← List.sum_append, ← List.map_append, List.take_append_drop]
      rw [getChildByAggrWeightDiscAux, if_pos h2', hread,
        buildTree_difficulty hc _ (by rw [htakelen]; omega)]
      rcases Nat.lt_or_ge w (aggrW +
          ((l.take (getLeftLeafNumber l.length)).map
            MmrElem.difficulty).sum) with hb | hb
      · -- branch left
        rw [if_neg (by omega)]
        obtain ⟨i, hi, heq, hlow, hhigh⟩ := ih
          (l.take (getLeftLeafNumber l.length)).length
          (by rw [htakelen]; omega) _ store w aggrN aggrW rfl
          (by rw [htakelen]; omega)
          (by rw [htakelen]; exact align_left h2 hdvd)
          (store_agree_left hc h2 H) hwlo hb
        rw [htakelen] at heq hi
        refine ⟨i, by omega, heq, ?_, ?_⟩
        · rwa [List.take_take, Nat.min_eq_left (by omega)] at hlow
        · rwa [List.take_take, Nat.min_eq_left (by omega)] at hhigh
      · -- branch right
        rw [if_pos hb]
        obtain ⟨i, hi, heq, hlow, hhigh⟩ := ih
          (l.drop (getLeftLeafNumber l.length)).length
          (by rw [hdroplen]; omega) _ store w
          (aggrN + getLeftLeafNumber l.length)
          (aggrW + ((l.take (getLeftLeafNumber l.length)).map
            MmrElem.difficulty).sum) rfl
          (by rw [hdroplen]; omega)
          (by rw [hdroplen]; exact align_right h2 hdvd)
          (store_agree_right hc h2 hdvd H) hb (by omega)
        rw [hdroplen] at heq hi
        refine ⟨getLeftLeafNumber l.length + i, by omega, ?_, ?_, ?_⟩
        · rw [heq]
          omega
        · have hsplit : l.take (getLeftLeafNumber l.length + i) =
              l.take (getLeftLeafNumber l.length) ++
                (l.drop (getLeftLeafNumber l.length)).take i := by
            rw [List.take_add]
          rw [hsplit, List.map_append, List.sum_append]
          omega
        · have hsplit : l.take (getLeftLeafNumber l.length + i + 1) =
              l.take (getLeftLeafNumber l.length) ++
                (l.drop (getLeftLeafNumber l.length)).take (i + 1) := by
            rw [Nat.add_assoc, List.take_add]
          rw [hsplit, List.map_append, List.sum_append]
          omega
    · -- single leaf: the loop exits at once
      have hl1 : l.length = 1 := by omega
      rw [getChildByAggrWeightDiscAux, hl1, if_neg (by norm_num)]
      refine ⟨0, by omega, by omega, by simpa using hwlo, ?_⟩
      have he : l.take (0 + 1) = l := by
        rw [Nat.zero_add, ← hl1, List.take_length]
      rw [he]
      exact hwhi

/-- C2: on the canonical MMR over leaves `l` (total difficulty `T`, the
root slot's difficulty), for every integer target `t < T` the lookup
`get_child_by_aggr_weight_disc` returns the leaf index `i` with
`prefix(i) ≤ t < prefix(i+1)`; in particular, when
`t = ⌊w·T⌋` for a weight `w ∈ [0,1)` (the truncating `as u128` cast in
`get_child_by_aggr_weight`), the returned leaf's prefix difficulty is at
most `w·T`. -/
theorem get_child_by_aggr_weight_partition (hc : MmrElem → MmrElem → Nat)
    (l : List MmrElem) (t : Nat) (h1 : 1 ≤ l.length)
    (ht : t < (l.map MmrElem.difficulty).sum) :
    (storeGetRoot (flatten hc (buildTree l))).difficulty =
      (l.map MmrElem.difficulty).sum ∧
    ∃ i, i < l.length ∧
      getChildByAggrWeightDisc ⟨l.length, flatten hc (buildTree l)⟩ t = i ∧
      ((l.take i).map MmrElem.difficulty).sum ≤ t ∧
      t < ((l.take (i + 1)).map MmrElem.difficulty).sum ∧
      (∀ w : ℚ, 0 ≤ w →
        t = (⌊w * (((l.map MmrElem.difficulty).sum : Nat) : ℚ)⌋).toNat →
        (((((l.take i).map MmrElem.difficulty).sum : Nat) : ℚ)) ≤
          w * (((l.map MmrElem.difficulty).sum : Nat) : ℚ)) := by
  have hroot : (storeGetRoot (flatten hc (buildTree l))).difficulty =
      (l.map MmrElem.difficulty).sum := by
    rw [storeGetRoot_eq, flatten_getLast?, Option.getD_some]
    exact buildTree_difficulty hc _ (by omega)
  refine ⟨hroot, ?_⟩
  obtain ⟨i, hi, heq, hlow, hhigh⟩ := getChildByAggrWeightDiscAux_spec hc
    l.length l (flatten hc (buildTree l)) t 0 0 rfl h1 (dvd_zero _)
    (by
      intro j hj
      rw [getNodeNumber_zero, Nat.zero_add]
      rfl)
    (by omega) (by omega)
  refine ⟨i, hi, by simpa using heq, by simpa using hlow,
    by simpa using hhigh, ?_⟩
  intro w hw0 htw
  have hT0 : (0 : ℚ) ≤ w * (((l.map MmrElem.difficulty).sum : Nat) : ℚ) := by
    have : (0 : ℚ) ≤ (((l.map MmrElem.difficulty).sum : Nat) : ℚ) := by
      positivity
    exact mul_nonneg hw0 this
  have hfl0 : (0 : ℤ) ≤ ⌊w * (((l.map MmrElem.difficulty).sum : Nat) : ℚ)⌋ :=
    Int.floor_nonneg.mpr hT0
  have hcast : ((t : ℤ) : ℚ) ≤
      w * (((l.map MmrElem.difficulty).sum : Nat) : ℚ) := by
    rw [htw]
    rw [Int.toNat_of_nonneg hfl0]
    exact Int.floor_le _
  have hle : (((((l.take i).map MmrElem.difficulty).sum : Nat) : ℚ)) ≤
      ((t : ℤ) : ℚ) := by
    have hlow2 : (((l.take i).map MmrElem.difficulty).sum : Nat) ≤ t := by
      simpa using hlow
    rw [Int.cast_natCast]
    exact Nat.cast_le.mpr hlow2
  exact le_trans hle hcast

/-- Witness for `get_child_by_aggr_weight_partition` on a three-leaf
tree with difficulties 1, 2, 4 and target `t = 3` (landing on leaf 2). -/
theorem get_child_by_aggr_weight_partition_witness :
    ((1 : Nat) ≤ ([⟨1, 1⟩, ⟨2, 2⟩, ⟨3, 4⟩] : List MmrElem).length ∧
      (3 : Nat) < (([⟨1, 1⟩, ⟨2, 2⟩, ⟨3, 4⟩] : List MmrElem).map
        MmrElem.difficulty).sum) ∧
    ((storeGetRoot (flatten (fun _ _ => 0)
        (buildTree [⟨1, 1⟩, ⟨2, 2⟩, ⟨3, 4⟩]))).difficulty =
      (([⟨1, 1⟩, ⟨2, 2⟩, ⟨3, 4⟩] : List MmrElem).map
        MmrElem.difficulty).sum ∧
    ∃ i, i < ([⟨1, 1⟩, ⟨2, 2⟩, ⟨3, 4⟩] : List MmrElem).length ∧
      getChildByAggrWeightDisc
        ⟨([⟨1, 1⟩, ⟨2, 2⟩, ⟨3, 4⟩] : List MmrElem).length,
          flatten (fun _ _ => 0) (buildTree [⟨1, 1⟩, ⟨2, 2⟩, ⟨3, 4⟩])⟩ 3 =
        i ∧
      ((([⟨1, 1⟩, ⟨2, 2⟩, ⟨3, 4⟩] : List MmrElem).take i).map
        MmrElem.difficulty).sum ≤ 3 ∧
      (3 : Nat) < ((([⟨1, 1⟩, ⟨2, 2⟩, ⟨3, 4⟩] : List MmrElem).take
        (i + 1)).map MmrElem.difficulty).sum ∧
      (∀ w : ℚ, 0 ≤ w →
        (3 : Nat) = (⌊w * (((([⟨1, 1⟩, ⟨2, 2⟩, ⟨3, 4⟩] :
            List MmrElem).map MmrElem.difficulty).sum : Nat) : ℚ)⌋).toNat →
        ((((([⟨1, 1⟩, ⟨2, 2⟩, ⟨3, 4⟩] : List MmrElem).take i).map
            MmrElem.difficulty).sum : Nat) : ℚ) ≤
          w * (((([⟨1, 1⟩, ⟨2, 2⟩, ⟨3, 4⟩] : List MmrElem).map
            MmrElem.difficulty).sum : Nat) : ℚ))) :=
  ⟨⟨by norm_num, by norm_num⟩,
    get_child_by_aggr_weight_partition (fun _ _ => 0)
      [⟨1, 1⟩, ⟨2, 2⟩, ⟨3, 4⟩] 3 (by norm_num) (by norm_num)⟩

/-! ### `Proof::generate_proof` (`mmr/proof.rs`)

The generator walks the tree through `MmrElem::has_children` /
`get_children`, which locate a node by its slot position via repeated
canonical descent over node counts.  `get_depth` (`mmr/mod.rs`) is
`⌊log₂ n⌋` plus one when `n` is not a power of two; for `n = 1` the
caller's `2^(depth - 1)` uses a wrapping `u32` subtraction whose result
is never consumed (the root is a leaf), modelled with `Nat` truncated
subtraction. -/

/-- `get_depth` (`mmr/mod.rs:238`); `n = 0` is never queried. -/
def getDepth (n : Nat) : Nat :=
  Nat.log 2 n + (if isPow2 n then 0 else 1)

/-- The descent loop shared by `MmrElem::has_children` and
`MmrElem::get_children` (`persistent_mmr.rs:447,473`): walk from a
subtree of `currCount` nodes at slot base `aggrN` towards the node slot
`target`; `node_to_leaf_number` and `leaf_to_node_number` are inlined
(`(c+1)/2` and `2·L−1`). -/
def hasChildrenAux (target : Nat) : Nat → Nat → Bool
  | currCount, aggrN =>
    if 2 < currCount then
      if aggrN + currCount = target + 1 then true
      else
        if target <
            aggrN + (2 * getLeftLeafNumber ((currCount + 1) / 2) - 1) then
          hasChildrenAux target
            (2 * getLeftLeafNumber ((currCount + 1) / 2) - 1) aggrN
        else
          hasChildrenAux target
            (currCount - (2 * getLeftLeafNumber ((currCount + 1) / 2) - 1) - 1)
            (aggrN + (2 * getLeftLeafNumber ((currCount + 1) / 2) - 1))
    else false
termination_by c _ => c
decreasing_by
  · have hleaf : 2 ≤ (currCount + 1) / 2 := by omega
    obtain ⟨j, hLj, hjlt, hjle⟩ := getLeftLeafNumber_spec hleaf
    have hj := Nat.one_le_two_pow (n := j)
    omega
  · have hleaf : 2 ≤ (currCount + 1) / 2 := by omega
    obtain ⟨j, hLj, hjlt, hjle⟩ := getLeftLeafNumber_spec hleaf
    have hj := Nat.one_le_two_pow (n := j)
    omega

/-- `MmrElem::has_children`: `target` is the elem's slot, the walk
starts at the whole store. -/
def hasChildren (store : List MmrElem) (pos : Nat) : Bool :=
  hasChildrenAux pos store.length 0

/-- The walk of `MmrElem::get_children`, returning the two children's
slot positions; `none` models the `panic!("This node has no children!")`
fall-through. -/
def getChildrenAux (target : Nat) : Nat → Nat → Option (Nat × Nat)
  | currCount, aggrN =>
    if 2 < currCount then
      if aggrN + currCount = target + 1 then
        some (aggrN + (2 * getLeftLeafNumber ((currCount + 1) / 2) - 1) - 1,
          aggrN + currCount - 2)
      else
        if target <
            aggrN + (2 * getLeftLeafNumber ((currCount + 1) / 2) - 1) then
          getChildrenAux target
            (2 * getLeftLeafNumber ((currCount + 1) / 2) - 1) aggrN
        else
          getChildrenAux target
            (currCount - (2 * getLeftLeafNumber ((currCount + 1) / 2) - 1) - 1)
            (aggrN + (2 * getLeftLeafNumber ((currCount + 1) / 2) - 1))
    else none
termination_by c _ => c
decreasing_by
  · have hleaf : 2 ≤ (currCount + 1) / 2 := by omega
    obtain ⟨j, hLj, hjlt, hjle⟩ := getLeftLeafNumber_spec hleaf
    have hj := Nat.one_le_two_pow (n := j)
    omega
  · have hleaf : 2 ≤ (currCount + 1) / 2 := by omega
    obtain ⟨j, hLj, hjlt, hjle⟩ := getLeftLeafNumber_spec hleaf
    have hj := Nat.one_le_two_pow (n := j)
    omega

/-- `MmrElem::get_children`. -/
def getChildren (store : List MmrElem) (pos : Nat) : Option (Nat × Nat) :=
  getChildrenAux pos store.length 0

/-- The children's positions lie strictly below the parent's. -/
theorem getChildrenAux_lt :
    ∀ currCount target aggrN lp rp,
      getChildrenAux target currCount aggrN = some (lp, rp) →
      lp < target ∧ rp < target := by
  intro currCount
  induction currCount using Nat.strong_induction_on with
  | _ currCount ih =>
    intro target aggrN lp rp h
    rw [getChildrenAux] at h
    by_cases h3 : 2 < currCount
    · rw [if_pos h3] at h
      have hleaf : 2 ≤ (currCount + 1) / 2 := by omega
      obtain ⟨j, hLj, hjlt, hjle⟩ := getLeftLeafNumber_spec hleaf
      have hj := Nat.one_le_two_pow (n := j)
      by_cases h4 : aggrN + currCount = target + 1
      · rw [if_pos h4] at h
        injection h with h
        injection h with h1 h2
        omega
      · rw [if_neg h4] at h
        by_cases h5 : target <
            aggrN + (2 * getLeftLeafNumber ((currCount + 1) / 2) - 1)
        · rw [if_pos h5] at h
          exact ih _ (by omega) _ _ _ _ h
        · rw [if_neg h5] at h
          exact ih _ (by omega) _ _ _ _ h
    · rw [if_neg h3] at h
      cases h

/-- `generate_proof_recursive` (`mmr/proof.rs:403`).  Well-founded on
the node's slot position (children sit strictly earlier in the store).
The source splits the sorted, deduplicated `block_numbers` with
`binary_search(&maxLeft)` + `split_at`; on a strictly sorted slice that
is exactly the `takeWhile`/`dropWhile` split at `maxLeft` (an equal
element lands on the right).  The `none` child arm models the
unreachable `panic!` (guarded by `has_children`). -/
def genRec (store : List MmrElem) (blocks : List Nat)
    (maxLeft subCount pos : Nat) : List ProofElem :=
  if hasChildren store pos = false then
    [.Child ((storeGetElem store pos).hash, (storeGetElem store pos).difficulty)]
  else
    match hgc : getChildren store pos with
    | none => []
    | some (lpos, rpos) =>
      (if (blocks.takeWhile (fun b => decide (b < maxLeft))) ≠ [] then
        genRec store (blocks.takeWhile (fun b => decide (b < maxLeft)))
          (maxLeft - (if getDepth (getLeftLeafNumber subCount) < 1 then 0
            else 2 ^ (getDepth (getLeftLeafNumber subCount) - 1)))
          (getLeftLeafNumber subCount) lpos
      else
        [.Node ((storeGetElem store lpos).hash,
          (storeGetElem store lpos).difficulty) false]) ++
      (if (blocks.dropWhile (fun b => decide (b < maxLeft))) ≠ [] then
        genRec store (blocks.dropWhile (fun b => decide (b < maxLeft)))
          (maxLeft + (if getDepth (subCount - getLeftLeafNumber subCount) < 1
            then 0
            else 2 ^ (getDepth (subCount - getLeftLeafNumber subCount) - 1)))
          (subCount - getLeftLeafNumber subCount) rpos
      else
        [.Node ((storeGetElem store rpos).hash,
          (storeGetElem store rpos).difficulty) true])
termination_by pos
decreasing_by
  · have := getChildrenAux_lt store.length pos 0 lpos rpos hgc
    omega
  · have := getChildrenAux_lt store.length pos 0 lpos rpos hgc
    omega

/-- `block_numbers.sort()` for the `u64` list. -/
def sortNats (l : List Nat) : List Nat :=
  l.mergeSort (fun a b => decide (a ≤ b))

/-- `block_numbers.dedup()`. -/
def dedupNats : List Nat → List Nat
  | [] => []
  | [x] => [x]
  | x :: y :: rest =>
    if x = y then dedupNats (x :: rest) else x :: dedupNats (y :: rest)
termination_by l => l.length

/-- `Proof::generate_proof`: sort and dedup the requested block numbers,
run the recursive generator from the root (the last slot), and append
the trailing `Root` element.  The proof's root hash and difficulty are
read from the root slot (`get_root_hash` / `get_root_difficulty`). -/
def generateProof (st : MTState) (blockNumbers : List Nat) : Proof :=
  ⟨(storeGetElem st.store (st.store.length - 1)).hash,
    (storeGetElem st.store (st.store.length - 1)).difficulty,
    st.leafNumber,
    genRec st.store (dedupNats (sortNats blockNumbers))
        (2 ^ (getDepth st.leafNumber - 1)) st.leafNumber
        (st.store.length - 1) ++
      [.Root ((storeGetElem st.store (st.store.length - 1)).hash,
        (storeGetElem st.store (st.store.length - 1)).difficulty)
        st.leafNumber]⟩

theorem getLeftLeafNumber_two : getLeftLeafNumber 2 = 1 := by
  rw [getLeftLeafNumber, if_pos isPow2_two]

theorem getDepth_one : getDepth 1 = 0 := by
  rw [getDepth, if_pos isPow2_one, Nat.log_one_right]

theorem getDepth_two : getDepth 2 = 1 := by
  rw [getDepth, if_pos isPow2_two]
  simpa using Nat.log_pow (b := 2) (by norm_num) 1

theorem ce_tree : buildTree [(⟨1, 1⟩ : MmrElem), ⟨2, 0⟩] =
    .node (.leaf ⟨1, 1⟩) (.leaf ⟨2, 0⟩) := by
  rw [buildTree_eq_node _ (by norm_num),
    show ([(⟨1, 1⟩ : MmrElem), ⟨2, 0⟩]).length = 2 from rfl,
    getLeftLeafNumber_two]
  simp [buildTree]

theorem ce_store : flatten (fun _ _ => 0) (buildTree [(⟨1, 1⟩ : MmrElem), ⟨2, 0⟩]) =
    [⟨1, 1⟩, ⟨2, 0⟩, ⟨0, 1⟩] := by
  rw [ce_tree]
  simp [flatten, MTree.elemOf, combineElem]

theorem ce_hasChildren_root :
    hasChildren [(⟨1, 1⟩ : MmrElem), ⟨2, 0⟩, ⟨0, 1⟩] 2 = true := by
  rw [hasChildren, show ([(⟨1, 1⟩ : MmrElem), ⟨2, 0⟩, ⟨0, 1⟩]).length = 3
    from rfl, hasChildrenAux]
  norm_num

theorem ce_getChildren_root :
    getChildren [(⟨1, 1⟩ : MmrElem), ⟨2, 0⟩, ⟨0, 1⟩] 2 = some (0, 1) := by
  rw [getChildren, show ([(⟨1, 1⟩ : MmrElem), ⟨2, 0⟩, ⟨0, 1⟩]).length = 3
    from rfl, getChildrenAux]
  norm_num [getLeftLeafNumber_two]

theorem ce_hasChildren_leaf :
    hasChildren [(⟨1, 1⟩ : MmrElem), ⟨2, 0⟩, ⟨0, 1⟩] 1 = false := by
  rw [hasChildren, show ([(⟨1, 1⟩ : MmrElem), ⟨2, 0⟩, ⟨0, 1⟩]).length = 3
    from rfl, hasChildrenAux]
  norm_num [getLeftLeafNumber_two]
  rw [hasChildrenAux]
  norm_num

theorem ce_genRec_leaf :
    genRec [(⟨1, 1⟩ : MmrElem), ⟨2, 0⟩, ⟨0, 1⟩] [1] 1 1 1 =
      [.Child (2, 0)] := by
  rw [genRec, ce_hasChildren_leaf]
  simp [storeGetElem]

theorem ce_genRec_root :
    genRec [(⟨1, 1⟩ : MmrElem), ⟨2, 0⟩, ⟨0, 1⟩] [1] 1 2 2 =
      [.Node (1, 1) false, .Child (2, 0)] := by
  rw [genRec, ce_hasChildren_root]
  simp only [Bool.true_eq_false, if_false]
  split
  · next h =>
    rw [ce_getChildren_root] at h
    cases h
  · next lpos rpos h =>
    rw [ce_getChildren_root] at h
    injection h with h
    rw [Prod.mk.injEq] at h
    obtain ⟨rfl, rfl⟩ := h
    rw [show (getLeftLeafNumber 2) = 1 from getLeftLeafNumber_two]
    norm_num [getDepth_one, storeGetElem, List.takeWhile, List.dropWhile]
    exact ce_genRec_leaf

theorem ce_generate :
    generateProof ⟨2, [(⟨1, 1⟩ : MmrElem), ⟨2, 0⟩, ⟨0, 1⟩]⟩ [1] =
      ⟨0, 1, 2, [.Node (1, 1) false, .Child (2, 0), .Root (0, 1) 2]⟩ := by
  rw [generateProof]
  simp only [sortNats, List.mergeSort_singleton]
  rw [show dedupNats [1] = [1] from by rw [dedupNats], getDepth_two]
  norm_num [storeGetElem]
  rw [ce_genRec_root]
  rfl

theorem collapseNodes_nil (hc : MmrElem → MmrElem → Nat) (pe : Bool) :
    collapseNodes hc pe [] = [] := by
  rw [collapseNodes]
  intro n2 n1 rest h
  simp at h

theorem collapseNodes_single (hc : MmrElem → MmrElem → Nat) (pe : Bool)
    (e : VEntry) : collapseNodes hc pe [e] = [e] := by
  rw [collapseNodes]
  intro n2 n1 rest h
  simp at h

theorem getRoot_single (hc : MmrElem → MmrElem → Nat) (x : VEntry) :
    getRoot hc [x] = x.1 := by
  rw [getRoot]

theorem sortBlocks_singleton (b : ProofBlock) : sortBlocks [b] = [b] := by
  rw [sortBlocks, List.mergeSort_singleton]

theorem dedupBlocks_singleton (b : ProofBlock) : dedupBlocks [b] = [b] := by
  rw [dedupBlocks]

/-- C1 counterexample: on the two-leaf MMR whose second leaf has
difficulty `0`, the proof generated for `S = {1}` with the correct
aggregate weight `prefix(1)/T = 1/1` is REJECTED by `verify_proof`: the
weight window `left ≤ ⌈w·T⌉ < left + child.difficulty` is empty when the
sampled leaf's difficulty is `0`. -/
theorem generate_verify_zero_difficulty_fails :
    verifyProof (fun _ _ => 0)
      (generateProof (mmrOfLeaves (fun _ _ => 0) ⟨1, 1⟩ [⟨2, 0⟩]) [1])
      [⟨1, some (((([(⟨1, 1⟩ : MmrElem), ⟨2, 0⟩].take 1).map
            MmrElem.difficulty).sum : ℚ) /
          ((([(⟨1, 1⟩ : MmrElem), ⟨2, 0⟩].map MmrElem.difficulty).sum : ℚ)))⟩] =
      .error (.msg "aggregated difficulty is not correct") := by
  rw [mmrOfLeaves_eq,
    show ([(⟨1, 1⟩ : MmrElem), ⟨2, 0⟩]).length = 2 from rfl,
    ce_store, ce_generate]
  have hw : ((((([(⟨1, 1⟩ : MmrElem), ⟨2, 0⟩].take 1).map
        MmrElem.difficulty).sum : ℚ)) /
      ((([(⟨1, 1⟩ : MmrElem), ⟨2, 0⟩].map MmrElem.difficulty).sum : ℚ))) =
      1 := by
    norm_num
  rw [hw, verifyProof]
  simp only [sortBlocks_singleton, dedupBlocks_singleton, popBack]
  norm_num
  rw [processStream]
  simp only [List.isEmpty_cons, collapseNodes_single]
  rw [processStream]
  simp only [weightErr, getRoot_single]
  norm_num

/-! ### Canonical subtrees, the pruned stream, and generator/verifier
correspondence -/

/-- The leaf slice of the canonical subtree at leaf offset `a` with `c`
leaves. -/
def seg (l : List MmrElem) (a c : Nat) : List MmrElem := (l.drop a).take c

/-- The stored element at a subtree's root. -/
def subElem (hc : MmrElem → MmrElem → Nat) (l : List MmrElem)
    (a c : Nat) : MmrElem := (buildTree (seg l a c)).elemOf hc

/-- The `(hash, difficulty)` pair of a subtree's root. -/
def subHd (hc : MmrElem → MmrElem → Nat) (l : List MmrElem)
    (a c : Nat) : Nat × Nat :=
  ((subElem hc l a c).hash, (subElem hc l a c).difficulty)

/-- Aggregate difficulty of the first `a` leaves
(`left_prefix_difficulty`). -/
def prefixDiff (l : List MmrElem) (a : Nat) : Nat :=
  ((l.take a).map MmrElem.difficulty).sum

/-- Total difficulty. -/
def totalDiff (l : List MmrElem) : Nat := (l.map MmrElem.difficulty).sum

/-- The expected block for leaf `i` with its exact aggregate weight
`prefix(i)/T`. -/
def wblk (l : List MmrElem) (i : Nat) : ProofBlock :=
  ⟨i, some ((prefixDiff l i : ℚ) / (totalDiff l : ℚ))⟩

/-- The slot position of a subtree's root in the canonical layout. -/
def nodePos (a c : Nat) : Nat := getNodeNumber a + (2 * c - 1) - 1

/-- The stream `generate_proof_recursive` emits for the subtree at
`(a, c)` when the sorted sample set restricted to the subtree is `S`:
sampled leaves become `Child`, unsampled sibling subtrees become `Node`
elements, left before right. -/
def pruned (hc : MmrElem → MmrElem → Nat) (l : List MmrElem) :
    Nat → Nat → List Nat → List ProofElem
  | c, a, S =>
    if c ≤ 1 then [.Child (subHd hc l a 1)]
    else
      (if S.takeWhile (fun b => decide (b < a + getLeftLeafNumber c)) ≠ []
        then
        pruned hc l (getLeftLeafNumber c) a
          (S.takeWhile (fun b => decide (b < a + getLeftLeafNumber c)))
      else [.Node (subHd hc l a (getLeftLeafNumber c)) false]) ++
      (if S.dropWhile (fun b => decide (b < a + getLeftLeafNumber c)) ≠ []
        then
        pruned hc l (c - getLeftLeafNumber c) (a + getLeftLeafNumber c)
          (S.dropWhile (fun b => decide (b < a + getLeftLeafNumber c)))
      else [.Node (subHd hc l (a + getLeftLeafNumber c)
        (c - getLeftLeafNumber c)) true])
termination_by c _ _ => c
decreasing_by
  · have h1 := getLeftLeafNumber_lt (n := c) (by omega)
    omega
  · have h1 := getLeftLeafNumber_pos (n := c) (by omega)
    omega

/-- The canonical-descendant relation: `(aT, cT)` is reached from
`(a, c)` by canonical splits. -/
inductive Within : Nat → Nat → Nat → Nat → Prop
  | refl (a c : Nat) : Within a c a c
  | left {a c aT cT : Nat} : 2 ≤ c →
      Within a (getLeftLeafNumber c) aT cT → Within a c aT cT
  | right {a c aT cT : Nat} : 2 ≤ c →
      Within (a + getLeftLeafNumber c) (c - getLeftLeafNumber c) aT cT →
      Within a c aT cT

theorem Within.extend_left {a c aT cT : Nat} (h : Within a c aT cT)
    (h2 : 2 ≤ cT) : Within a c aT (getLeftLeafNumber cT) := by
  induction h with
  | refl a c => exact Within.left h2 (Within.refl _ _)
  | left hcc _ ih => exact Within.left hcc (ih h2)
  | right hcc _ ih => exact Within.right hcc (ih h2)

theorem Within.extend_right {a c aT cT : Nat} (h : Within a c aT cT)
    (h2 : 2 ≤ cT) :
    Within a c (aT + getLeftLeafNumber cT) (cT - getLeftLeafNumber cT) := by
  induction h with
  | refl a c => exact Within.right h2 (Within.refl _ _)
  | left hcc _ ih => exact Within.left hcc (ih h2)
  | right hcc _ ih => exact Within.right hcc (ih h2)

/-- Geometry of a nested subtree: positivity, span containment,
alignment, and containment of its slot block. -/
theorem within_bounds {a c aT cT : Nat} (h : Within a c aT cT)
    (h1 : 1 ≤ c) (hdvd : nextPow2 c ∣ a) :
    1 ≤ cT ∧ a ≤ aT ∧ aT + cT ≤ a + c ∧ nextPow2 cT ∣ aT ∧
      getNodeNumber a ≤ getNodeNumber aT ∧
      getNodeNumber aT + (2 * cT - 1) ≤ getNodeNumber a + (2 * c - 1) := by
  induction h with
  | refl a c => exact ⟨h1, by omega, by omega, hdvd, by omega, by omega⟩
  | left hcc hw ih =>
    next a c aT cT =>
    have hL1 := getLeftLeafNumber_pos hcc
    have hL2 := getLeftLeafNumber_lt hcc
    obtain ⟨g1, g2, g3, g4, g5, g6⟩ := ih hL1 (align_left hcc hdvd)
    exact ⟨g1, g2, by omega, g4, g5, by omega⟩
  | right hcc hw ih =>
    next a c aT cT =>
    have hL1 := getLeftLeafNumber_pos hcc
    have hL2 := getLeftLeafNumber_lt hcc
    have hgnn := gnn_split hcc hdvd
    obtain ⟨g1, g2, g3, g4, g5, g6⟩ := ih (by omega) (align_right hcc hdvd)
    refine ⟨g1, by omega, by omega, g4, by omega, by omega⟩

theorem getLeftLeafNumber_le (c : Nat) : getLeftLeafNumber c ≤ c := by
  rcases Nat.lt_or_ge c 2 with h | h
  · interval_cases c
    · rw [getLeftLeafNumber, if_neg (by simp [not_isPow2_zero]), nextPow2,
        Nat.clog_zero_right]
      norm_num
    · rw [getLeftLeafNumber, if_pos isPow2_one]
      omega
  · exact le_of_lt (getLeftLeafNumber_lt h)

/-- Splitting the slice of a subtree at its canonical split point. -/
theorem seg_take (l : List MmrElem) (a c : Nat) :
    (seg l a c).take (getLeftLeafNumber c) = seg l a (getLeftLeafNumber c) := by
  rw [seg, seg, List.take_take]
  congr 1
  exact min_eq_left (getLeftLeafNumber_le c)

theorem seg_drop (l : List MmrElem) (a c : Nat)
    (hL : getLeftLeafNumber c ≤ c) :
    (seg l a c).drop (getLeftLeafNumber c) =
      seg l (a + getLeftLeafNumber c) (c - getLeftLeafNumber c) := by
  rw [seg, seg, List.drop_take, List.drop_drop]

theorem seg_length (l : List MmrElem) (a c : Nat) (h : a + c ≤ l.length) :
    (seg l a c).length = c := by
  rw [seg]
  simp [List.length_take, List.length_drop]
  omega

/-- A subtree's root element combines its children's root elements. -/
theorem subElem_split (hc : MmrElem → MmrElem → Nat) (l : List MmrElem)
    (a c : Nat) (h2 : 2 ≤ c) (hle : a + c ≤ l.length) :
    subElem hc l a c =
      combineElem hc (subElem hc l a (getLeftLeafNumber c))
        (subElem hc l (a + getLeftLeafNumber c) (c - getLeftLeafNumber c)) := by
  have hL2 := getLeftLeafNumber_lt h2
  rw [subElem, buildTree_eq_node _ (by rw [seg_length l a c hle]; omega),
    seg_length l a c hle, MTree.elemOf, seg_take, seg_drop _ _ _ (by omega)]
  rfl

/-- Prefix sums add along a subtree's slice. -/
theorem prefixDiff_seg (l : List MmrElem) (a c : Nat) :
    prefixDiff l (a + c) =
      prefixDiff l a + ((seg l a c).map MmrElem.difficulty).sum := by
  rw [prefixDiff, prefixDiff, List.take_add, List.map_append, List.sum_append]
  rfl

/-- A subtree's root difficulty is the difficulty of its slice. -/
theorem subElem_difficulty (hc : MmrElem → MmrElem → Nat) (l : List MmrElem)
    (a c : Nat) (h1 : 1 ≤ c) (hle : a + c ≤ l.length) :
    (subElem hc l a c).difficulty =
      ((seg l a c).map MmrElem.difficulty).sum := by
  rw [subElem, buildTree_difficulty hc _ (by rw [seg_length l a c hle]; omega)]

theorem subElem_prefix (hc : MmrElem → MmrElem → Nat) (l : List MmrElem)
    (a c : Nat) (h1 : 1 ≤ c) (hle : a + c ≤ l.length) :
    prefixDiff l a + (subElem hc l a c).difficulty = prefixDiff l (a + c) := by
  rw [subElem_difficulty hc l a c h1 hle, prefixDiff_seg]

theorem seg_root (l : List MmrElem) : seg l 0 l.length = l := by
  simp [seg]

/-- Store agreement descends to every canonical subtree. -/
theorem subtree_agrees (hc : MmrElem → MmrElem → Nat)
    (l store : List MmrElem) :
    ∀ {a c aT cT : Nat}, Within a c aT cT → 1 ≤ c → nextPow2 c ∣ a →
      a + c ≤ l.length → StoreAgrees hc store (seg l a c) a →
      StoreAgrees hc store (seg l aT cT) aT := by
  intro a c aT cT hW
  induction hW with
  | refl a c => exact fun _ _ _ H => H
  | left h2 hW' ih =>
    next a c aT cT =>
    intro h1 hdvd hlen H
    have hL1 := getLeftLeafNumber_pos h2
    have hL2 := getLeftLeafNumber_lt h2
    have hseglen : (seg l a c).length = c := seg_length l a c hlen
    have H2 := store_agree_left hc (by rw [hseglen]; omega) H
    rw [hseglen, seg_take] at H2
    exact ih hL1 (align_left h2 hdvd) (by omega) H2
  | right h2 hW' ih =>
    next a c aT cT =>
    intro h1 hdvd hlen H
    have hL1 := getLeftLeafNumber_pos h2
    have hL2 := getLeftLeafNumber_lt h2
    have hseglen : (seg l a c).length = c := seg_length l a c hlen
    have H2 := store_agree_right hc (by rw [hseglen]; omega)
      (by rw [hseglen]; exact hdvd) H
    rw [hseglen, seg_drop _ _ _ (by omega)] at H2
    exact ih (by omega) (align_right h2 hdvd) (by omega) H2

theorem flatten_build_length (hc : MmrElem → MmrElem → Nat)
    (l : List MmrElem) (h1 : 1 ≤ l.length) :
    (flatten hc (buildTree l)).length = 2 * l.length - 1 := by
  rw [flatten_length, buildTree_leafCount _ h1]

/-- Reading a subtree's root slot yields its root element. -/
theorem store_sub_read (hc : MmrElem → MmrElem → Nat) (l : List MmrElem)
    {a c : Nat} (hW : Within 0 l.length a c) (hn : 1 ≤ l.length) :
    storeGetElem (flatten hc (buildTree l)) (nodePos a c) =
      subElem hc l a c := by
  obtain ⟨g1, g2, g3, g4, g5, g6⟩ := within_bounds hW hn (dvd_zero _)
  have H : StoreAgrees hc (flatten hc (buildTree l)) (seg l a c) a := by
    refine subtree_agrees hc l _ hW hn (dvd_zero _) (by omega) ?_
    rw [seg_root]
    intro j hj
    rw [getNodeNumber_zero, Nat.zero_add]
    rfl
  have hseglen : (seg l a c).length = c := seg_length l a c (by omega)
  have hflen : (flatten hc (buildTree (seg l a c))).length = 2 * c - 1 := by
    rw [flatten_build_length hc _ (by omega), hseglen]
  have := H (2 * c - 2) (by rw [hseglen]; omega)
  rw [nodePos]
  have hidx : getNodeNumber a + (2 * c - 1) - 1 =
      getNodeNumber a + (2 * c - 2) := by omega
  rw [hidx, this]
  have hidx2 : 2 * c - 2 = (flatten hc (buildTree (seg l a c))).length - 1 := by
    rw [hflen]
    omega
  rw [hidx2]
  exact flatten_getD_last hc _

theorem two_mul_sub_one_succ_div (c : Nat) (h : 1 ≤ c) :
    (2 * c - 1 + 1) / 2 = c := by omega

/-- The `has_children` walk locates a canonical subtree's root and
reports whether it has children. -/
theorem hasChildrenAux_finds :
    ∀ {a c aT cT : Nat}, Within a c aT cT → 1 ≤ c → nextPow2 c ∣ a →
      hasChildrenAux (nodePos aT cT) (2 * c - 1) (getNodeNumber a) =
        decide (2 ≤ cT) := by
  intro a c aT cT hW
  induction hW with
  | refl a c =>
    intro h1 hdvd
    rcases Nat.lt_or_ge c 2 with h2 | h2
    · have hc1 : c = 1 := by omega
      subst hc1
      rw [hasChildrenAux, if_neg (by omega)]
      simp
    · rw [hasChildrenAux, if_pos (by omega),
        if_pos (by simp only [nodePos]; omega)]
      simp [h2]
  | left h2 hW' ih =>
    next a c aT cT =>
    intro h1 hdvd
    have hL1 := getLeftLeafNumber_pos h2
    have hL2 := getLeftLeafNumber_lt h2
    obtain ⟨g1, g2, g3, g4, g5, g6⟩ :=
      within_bounds hW' hL1 (align_left h2 hdvd)
    rw [hasChildrenAux, if_pos (by omega), two_mul_sub_one_succ_div c (by omega)]
    rw [if_neg (by simp only [nodePos]; omega), if_pos (by simp only [nodePos]; omega)]
    exact ih hL1 (align_left h2 hdvd)
  | right h2 hW' ih =>
    next a c aT cT =>
    intro h1 hdvd
    have hL1 := getLeftLeafNumber_pos h2
    have hL2 := getLeftLeafNumber_lt h2
    have hgnn := gnn_split h2 hdvd
    obtain ⟨g1, g2, g3, g4, g5, g6⟩ :=
      within_bounds hW' (by omega) (align_right h2 hdvd)
    rw [hasChildrenAux, if_pos (by omega), two_mul_sub_one_succ_div c (by omega)]
    rw [if_neg (by simp only [nodePos]; omega), if_neg (by simp only [nodePos]; omega)]
    have he1 : 2 * c - 1 - (2 * getLeftLeafNumber c - 1) - 1 =
        2 * (c - getLeftLeafNumber c) - 1 := by omega
    have he2 : getNodeNumber a + (2 * getLeftLeafNumber c - 1) =
        getNodeNumber (a + getLeftLeafNumber c) := by omega
    rw [he1, he2]
    exact ih (by omega) (align_right h2 hdvd)

/-- The `get_children` walk returns the children's root slots. -/
theorem getChildrenAux_finds :
    ∀ {a c aT cT : Nat}, Within a c aT cT → 1 ≤ c → nextPow2 c ∣ a →
      getChildrenAux (nodePos aT cT) (2 * c - 1) (getNodeNumber a) =
        if 2 ≤ cT then
          some (nodePos aT (getLeftLeafNumber cT),
            nodePos (aT + getLeftLeafNumber cT) (cT - getLeftLeafNumber cT))
        else none := by
  intro a c aT cT hW
  induction hW with
  | refl a c =>
    intro h1 hdvd
    rcases Nat.lt_or_ge c 2 with h2 | h2
    · have hc1 : c = 1 := by omega
      subst hc1
      rw [getChildrenAux, if_neg (by omega), if_neg (by omega)]
    · have hL1 := getLeftLeafNumber_pos h2
      have hL2 := getLeftLeafNumber_lt h2
      have hgnn := gnn_split h2 hdvd
      rw [getChildrenAux, if_pos (by omega),
        if_pos (by simp only [nodePos]; omega), if_pos h2,
        two_mul_sub_one_succ_div c (by omega)]
      congr 1
      simp only [nodePos, Prod.mk.injEq]
      rw [hgnn]
      exact ⟨trivial, by omega⟩
  | left h2 hW' ih =>
    next a c aT cT =>
    intro h1 hdvd
    have hL1 := getLeftLeafNumber_pos h2
    have hL2 := getLeftLeafNumber_lt h2
    obtain ⟨g1, g2, g3, g4, g5, g6⟩ :=
      within_bounds hW' hL1 (align_left h2 hdvd)
    rw [getChildrenAux, if_pos (by omega), two_mul_sub_one_succ_div c (by omega)]
    rw [if_neg (by simp only [nodePos]; omega), if_pos (by simp only [nodePos]; omega)]
    exact ih hL1 (align_left h2 hdvd)
  | right h2 hW' ih =>
    next a c aT cT =>
    intro h1 hdvd
    have hL1 := getLeftLeafNumber_pos h2
    have hL2 := getLeftLeafNumber_lt h2
    have hgnn := gnn_split h2 hdvd
    obtain ⟨g1, g2, g3, g4, g5, g6⟩ :=
      within_bounds hW' (by omega) (align_right h2 hdvd)
    rw [getChildrenAux, if_pos (by omega), two_mul_sub_one_succ_div c (by omega)]
    rw [if_neg (by simp only [nodePos]; omega), if_neg (by simp only [nodePos]; omega)]
    have he1 : 2 * c - 1 - (2 * getLeftLeafNumber c - 1) - 1 =
        2 * (c - getLeftLeafNumber c) - 1 := by omega
    have he2 : getNodeNumber a + (2 * getLeftLeafNumber c - 1) =
        getNodeNumber (a + getLeftLeafNumber c) := by omega
    rw [he1, he2]
    exact ih (by omega) (align_right h2 hdvd)

theorem hasChildren_canonical (hc : MmrElem → MmrElem → Nat)
    (l : List MmrElem) {a c : Nat} (hW : Within 0 l.length a c)
    (hn : 1 ≤ l.length) :
    hasChildren (flatten hc (buildTree l)) (nodePos a c) = decide (2 ≤ c) := by
  rw [hasChildren, flatten_build_length hc l hn]
  have h := hasChildrenAux_finds hW hn (dvd_zero _)
  rwa [getNodeNumber_zero] at h

theorem getChildren_canonical (hc : MmrElem → MmrElem → Nat)
    (l : List MmrElem) {a c : Nat} (hW : Within 0 l.length a c)
    (hn : 1 ≤ l.length) :
    getChildren (flatten hc (buildTree l)) (nodePos a c) =
      if 2 ≤ c then
        some (nodePos a (getLeftLeafNumber c),
          nodePos (a + getLeftLeafNumber c) (c - getLeftLeafNumber c))
      else none := by
  rw [getChildren, flatten_build_length hc l hn]
  have h := getChildrenAux_finds hW hn (dvd_zero _)
  rwa [getNodeNumber_zero] at h

/-! ### Depth arithmetic for the generator's `max_left` threshold -/

theorem getDepth_pow (m : Nat) : getDepth (2 ^ m) = m := by
  rw [getDepth, if_pos (isPow2_two_pow m)]
  simpa using Nat.log_pow (b := 2) (by norm_num) m

theorem getDepth_ge_one {r : Nat} (h2 : 2 ≤ r) : 1 ≤ getDepth r := by
  have hlog : 1 ≤ Nat.log 2 r :=
    (Nat.pow_le_iff_le_log (by norm_num) (by omega)).mp (by omega)
  rw [getDepth]
  split <;> omega

/-- The generator's step `2 ^ (depth − 1)` equals the left-subtree size
for every subtree with at least two leaves. -/
theorem two_pow_getDepth_pred {r : Nat} (h2 : 2 ≤ r) :
    2 ^ (getDepth r - 1) = getLeftLeafNumber r := by
  rcases Bool.eq_false_or_eq_true (isPow2 r) with hp | hp
  · obtain ⟨k, rfl⟩ := isPow2_iff.mp hp
    have hk1 : 1 ≤ k := by
      rcases Nat.eq_zero_or_pos k with rfl | h
      · norm_num at h2
      · omega
    obtain ⟨j, rfl⟩ : ∃ j, k = j + 1 := ⟨k - 1, by omega⟩
    rw [getDepth_pow, getLeftLeafNumber_two_pow]
    congr 1
  · obtain ⟨j, hj1, hj2, hj3, hj4⟩ := nextPow2_div_two_spec h2 hp
    have hrlt : r < 2 ^ (j + 1) := by
      rcases Nat.lt_or_ge r (2 ^ (j + 1)) with h | h
      · exact h
      · have hre : r = 2 ^ (j + 1) := by omega
        rw [hre, isPow2_two_pow] at hp
        exact absurd hp (by simp)
    have hlog : Nat.log 2 r = j :=
      Nat.log_eq_of_pow_le_of_lt_pow (by omega) hrlt
    rw [getDepth, if_neg (by simp [hp]), hlog, getLeftLeafNumber,
      if_neg (by simp [hp]), hj1]
    congr 1

/-! ### Subtree head pairs and their combination -/

theorem subHd_fst (hc : MmrElem → MmrElem → Nat) (l : List MmrElem)
    (a c : Nat) : (subHd hc l a c).1 = (subElem hc l a c).hash := rfl

theorem subHd_snd (hc : MmrElem → MmrElem → Nat) (l : List MmrElem)
    (a c : Nat) : (subHd hc l a c).2 = (subElem hc l a c).difficulty := rfl

theorem mk_subHd (hc : MmrElem → MmrElem → Nat) (l : List MmrElem)
    (a c : Nat) :
    (⟨(subHd hc l a c).1, (subHd hc l a c).2⟩ : MmrElem) =
      subElem hc l a c := rfl

/-- Combining the two children's head pairs as the verifier does yields
the parent subtree's head pair. -/
theorem subHd_combine (hc : MmrElem → MmrElem → Nat) (l : List MmrElem)
    {a c : Nat} (h2 : 2 ≤ c) (hle : a + c ≤ l.length) :
    ((hc ⟨(subHd hc l a (getLeftLeafNumber c)).1,
          (subHd hc l a (getLeftLeafNumber c)).2⟩
        ⟨(subHd hc l (a + getLeftLeafNumber c) (c - getLeftLeafNumber c)).1,
          (subHd hc l (a + getLeftLeafNumber c) (c - getLeftLeafNumber c)).2⟩,
      (subHd hc l a (getLeftLeafNumber c)).2 +
        (subHd hc l (a + getLeftLeafNumber c)
          (c - getLeftLeafNumber c)).2) : Nat × Nat) = subHd hc l a c := by
  rw [mk_subHd, mk_subHd, subHd_snd, subHd_snd, subHd,
    subElem_split hc l a c h2 hle]
  rfl

/-- The variant with the two difficulties summed in the verifier's
`Child`-arm order (`child + stack top`). -/
theorem subHd_combine_comm (hc : MmrElem → MmrElem → Nat) (l : List MmrElem)
    {a c : Nat} (h2 : 2 ≤ c) (hle : a + c ≤ l.length) :
    ((hc ⟨(subHd hc l a (getLeftLeafNumber c)).1,
          (subHd hc l a (getLeftLeafNumber c)).2⟩
        ⟨(subHd hc l (a + getLeftLeafNumber c) (c - getLeftLeafNumber c)).1,
          (subHd hc l (a + getLeftLeafNumber c) (c - getLeftLeafNumber c)).2⟩,
      (subHd hc l (a + getLeftLeafNumber c) (c - getLeftLeafNumber c)).2 +
        (subHd hc l a (getLeftLeafNumber c)).2) : Nat × Nat) =
      subHd hc l a c := by
  rw [Nat.add_comm ((subHd hc l (a + getLeftLeafNumber c)
    (c - getLeftLeafNumber c)).2) ((subHd hc l a (getLeftLeafNumber c)).2)]
  exact subHd_combine hc l h2 hle

/-! ### Difficulty bookkeeping -/

theorem prefixDiff_zero (l : List MmrElem) : prefixDiff l 0 = 0 := rfl

theorem totalDiff_pos (l : List MmrElem)
    (hd1 : ∀ e ∈ l, 1 ≤ e.difficulty) (hn : 1 ≤ l.length) :
    1 ≤ totalDiff l := by
  cases l with
  | nil => simp at hn
  | cons x xs =>
    have hx := hd1 x (by simp)
    simp only [totalDiff, List.map_cons, List.sum_cons]
    omega

theorem subElem_root_diff (hc : MmrElem → MmrElem → Nat) (l : List MmrElem)
    (hn : 1 ≤ l.length) :
    (subElem hc l 0 l.length).difficulty = totalDiff l := by
  rw [subElem_difficulty hc l 0 l.length hn (by omega), seg_root]
  rfl

theorem seg_one (l : List MmrElem) {b : Nat} (hb : b < l.length) :
    seg l b 1 = [l.get ⟨b, hb⟩] := by
  rw [seg, List.drop_eq_getElem_cons hb]
  rfl

theorem subElem_one_diff (hc : MmrElem → MmrElem → Nat) (l : List MmrElem)
    {b : Nat} (hb : b < l.length) (hd1 : ∀ e ∈ l, 1 ≤ e.difficulty) :
    1 ≤ (subElem hc l b 1).difficulty := by
  rw [subElem_difficulty hc l b 1 (le_refl 1) (by omega), seg_one l hb]
  simpa using hd1 _ (l.get_mem b hb)

/-- The sum of the difficulties held on the verifier's stack. -/
def stackSum (σ : List VEntry) : Nat := (σ.map (fun e => e.1.2)).sum

theorem stackSum_nil : stackSum [] = 0 := rfl

theorem stackSum_cons (e : VEntry) (σ : List VEntry) :
    stackSum (e :: σ) = e.1.2 + stackSum σ := by
  simp [stackSum]

/-- Folding the stack with `get_root` preserves the difficulty sum. -/
theorem getRoot_diff (hc : MmrElem → MmrElem → Nat) :
    ∀ σ : List VEntry, σ ≠ [] → (getRoot hc σ).2 = stackSum σ := by
  have H : ∀ k (σ : List VEntry), σ.length = k → σ ≠ [] →
      (getRoot hc σ).2 = stackSum σ := by
    intro k
    induction k using Nat.strong_induction_on with
    | _ k ih =>
      intro σ hlen hne
      match σ with
      | [x] =>
        rw [getRoot]
        simp [stackSum]
      | n2 :: n1 :: rest =>
        rw [getRoot]
        simp only [List.length_cons] at hlen
        rw [ih (rest.length + 1) (by omega) _ (by simp) (by simp)]
        rw [stackSum_cons, stackSum_cons, stackSum_cons]
        dsimp only
        omega
  exact fun σ => H σ.length σ rfl

/-! ### Collapse loop equations -/

theorem collapseNodes_cons_none (hc : MmrElem → MmrElem → Nat) (pe : Bool)
    (v : Nat × Nat) (lo : Option Nat) (σ : List VEntry) :
    collapseNodes hc pe ((v, none, lo) :: σ) = (v, none, lo) :: σ := by
  cases σ with
  | nil => exact collapseNodes_single hc pe _
  | cons n1 rest => rw [collapseNodes]

theorem collapseNodes_cons_even (hc : MmrElem → MmrElem → Nat)
    (v : Nat × Nat) (i : Nat) (lo : Option Nat) (σ : List VEntry)
    (hi : i % 2 ≠ 1) :
    collapseNodes hc false ((v, some i, lo) :: σ) = (v, some i, lo) :: σ := by
  cases σ with
  | nil => exact collapseNodes_single hc false _
  | cons n1 rest =>
    rw [collapseNodes]
    simp only []
    rw [if_pos ⟨hi, by trivial⟩]

theorem collapseNodes_cons_step (hc : MmrElem → MmrElem → Nat) (pe : Bool)
    (v w : Nat × Nat) (i : Nat) (lo : Option Nat) (io2 lo2 : Option Nat)
    (σ : List VEntry) (hcond : ¬(i % 2 ≠ 1 ∧ pe = false)) :
    collapseNodes hc pe ((v, some i, lo) :: (w, io2, lo2) :: σ) =
      collapseNodes hc pe
        (((hc ⟨w.1, w.2⟩ ⟨v.1, v.2⟩, w.2 + v.2), some (i / 2),
          some (lo.getD 0 / 2)) :: σ) := by
  rw [collapseNodes]
  simp only []
  rw [if_neg hcond]

/-! ### Wrapping subtraction and samples shape -/

theorem wrap_pred {n : Nat} (h1 : 1 ≤ n) (h2 : n < 2 ^ 64) :
    (n + 2 ^ 64 - 1) % 2 ^ 64 = n - 1 := by omega

theorem sorted_dropWhile_ge {S : List Nat} (hs : S.Sorted (· < ·)) (m : Nat) :
    ∀ b ∈ S.dropWhile (fun x => decide (x < m)), m ≤ b := by
  induction S with
  | nil => simp
  | cons x t ih =>
    rw [List.dropWhile_cons]
    by_cases hx : x < m
    · rw [if_pos (by simpa using hx)]
      exact ih (List.sorted_cons.mp hs).2
    · rw [if_neg (by simpa using hx)]
      intro b hb
      rcases List.mem_cons.mp hb with rfl | hb2
      · omega
      · have := (List.sorted_cons.mp hs).1 b hb2
        omega

theorem sorted_eq_singleton {S : List Nat} {a : Nat} (hne : S ≠ [])
    (hs : S.Sorted (· < ·)) (hall : ∀ b ∈ S, b = a) : S = [a] := by
  cases S with
  | nil => exact absurd rfl hne
  | cons x t =>
    have hx : x = a := hall x (by simp)
    cases t with
    | nil => rw [hx]
    | cons y t2 =>
      have hy : y = a := hall y (by simp)
      have := (List.sorted_cons.mp hs).1 y (by simp)
      omega

theorem sorted_two_elems {S : List Nat} {a : Nat} (hne : S ≠ [])
    (hs : S.Sorted (· < ·)) (hall : ∀ b ∈ S, b = a ∨ b = a + 1) :
    S = [a] ∨ S = [a + 1] ∨ S = [a, a + 1] := by
  cases S with
  | nil => exact absurd rfl hne
  | cons x t =>
    cases t with
    | nil =>
      rcases hall x (by simp) with rfl | rfl
      · exact Or.inl rfl
      · exact Or.inr (Or.inl rfl)
    | cons y t2 =>
      have hxy := (List.sorted_cons.mp hs).1 y (by simp)
      have hx := hall x (by simp)
      have hy := hall y (by simp)
      have hxa : x = a := by omega
      have hya : y = a + 1 := by omega
      cases t2 with
      | nil =>
        subst hxa
        subst hya
        exact Or.inr (Or.inr rfl)
      | cons z t3 =>
        have hz := hall z (by simp)
        have hyz := (List.sorted_cons.mp (List.sorted_cons.mp hs).2).1 z
          (by simp)
        omega

/-! ### Sort and dedup fix strictly sorted inputs -/

theorem sortNats_eq_self {S : List Nat} (h : S.Sorted (· < ·)) :
    sortNats S = S := by
  rw [sortNats]
  exact List.mergeSort_of_sorted
    (h.imp (fun hab => by simpa using Nat.le_of_lt hab))

theorem dedupNats_eq_self : ∀ {S : List Nat}, S.Sorted (· < ·) →
    dedupNats S = S := by
  have H : ∀ k (S : List Nat), S.length = k → S.Sorted (· < ·) →
      dedupNats S = S := by
    intro k
    induction k using Nat.strong_induction_on with
    | _ k ih =>
      intro S hlen hs
      match S with
      | [] => rw [dedupNats]
      | [x] => rw [dedupNats]
      | x :: y :: rest =>
        have hxy : x < y := (List.sorted_cons.mp hs).1 y (by simp)
        simp only [List.length_cons] at hlen
        rw [dedupNats, if_neg (by omega),
          ih (rest.length + 1) (by omega) (y :: rest) (by simp)
            (List.sorted_cons.mp hs).2]
  exact fun {S} hs => H S.length S rfl hs

theorem sortBlocks_eq_self {B : List ProofBlock}
    (h : B.Pairwise (fun a b => a.number < b.number)) : sortBlocks B = B := by
  rw [sortBlocks]
  exact List.mergeSort_of_sorted
    (h.imp (fun hab => by simpa using Nat.le_of_lt hab))

theorem dedupBlocks_eq_self : ∀ {B : List ProofBlock},
    B.Pairwise (fun a b => a.number < b.number) → dedupBlocks B = B := by
  have H : ∀ k (B : List ProofBlock), B.length = k →
      B.Pairwise (fun a b => a.number < b.number) → dedupBlocks B = B := by
    intro k
    induction k using Nat.strong_induction_on with
    | _ k ih =>
      intro B hlen hs
      match B with
      | [] => rw [dedupBlocks]
      | [x] => rw [dedupBlocks]
      | x :: y :: rest =>
        have hxy : x.number < y.number := (List.pairwise_cons.mp hs).1 y
          (by simp)
        simp only [List.length_cons] at hlen
        rw [dedupBlocks, if_neg (by omega),
          ih (rest.length + 1) (by omega) (y :: rest) (by simp)
            (List.pairwise_cons.mp hs).2]
  exact fun {B} hs => H B.length B rfl hs

theorem popBack_concat {α : Type} (x : α) :
    ∀ xs : List α, popBack (xs ++ [x]) = some (x, xs) := by
  intro xs
  induction xs with
  | nil => rfl
  | cons a t ih =>
    cases ht : t ++ [x] with
    | nil => simp at ht
    | cons y ys =>
      rw [List.cons_append, ht, popBack, ← ht, ih]

/-! ### The pruned stream is never empty -/

theorem pruned_ne_nil (hc : MmrElem → MmrElem → Nat) (l : List MmrElem) :
    ∀ c a S, pruned hc l c a S ≠ [] := by
  intro c
  induction c using Nat.strong_induction_on with
  | _ c ih =>
    intro a S
    rw [pruned]
    by_cases h1 : c ≤ 1
    · rw [if_pos h1]
      simp
    · rw [if_neg h1]
      intro hcontra
      rw [List.append_eq_nil] at hcontra
      obtain ⟨_, h2⟩ := hcontra
      by_cases hd :
          S.dropWhile (fun b => decide (b < a + getLeftLeafNumber c)) ≠ []
      · rw [if_pos hd] at h2
        have hLpos := getLeftLeafNumber_pos (n := c) (by omega)
        exact ih (c - getLeftLeafNumber c) (by omega) _ _ h2
      · rw [if_neg hd] at h2
        simp at h2

theorem pruned_two_le (hc : MmrElem → MmrElem → Nat) (l : List MmrElem)
    (c a : Nat) (S : List Nat) (h2 : 2 ≤ c) :
    2 ≤ (pruned hc l c a S).length := by
  rw [pruned, if_neg (by omega), List.length_append]
  have g1 : 1 ≤ (if S.takeWhile
      (fun b => decide (b < a + getLeftLeafNumber c)) ≠ [] then
      pruned hc l (getLeftLeafNumber c) a
        (S.takeWhile (fun b => decide (b < a + getLeftLeafNumber c)))
    else [.Node (subHd hc l a (getLeftLeafNumber c)) false]).length := by
    split
    · exact List.length_pos.mpr (pruned_ne_nil hc l _ _ _)
    · simp
  have g2 : 1 ≤ (if S.dropWhile
      (fun b => decide (b < a + getLeftLeafNumber c)) ≠ [] then
      pruned hc l (c - getLeftLeafNumber c) (a + getLeftLeafNumber c)
        (S.dropWhile (fun b => decide (b < a + getLeftLeafNumber c)))
    else [.Node (subHd hc l (a + getLeftLeafNumber c)
      (c - getLeftLeafNumber c)) true]).length := by
    split
    · exact List.length_pos.mpr (pruned_ne_nil hc l _ _ _)
    · simp
  omega

/-! ### The weight window accepts exact aggregate weights -/

theorem wblk_number (l : List MmrElem) (i : Nat) : (wblk l i).number = i := rfl

theorem weightErr_false (hc : MmrElem → MmrElem → Nat) (l : List MmrElem)
    (root : Nat × Nat) (σ : List VEntry) (b d : Nat)
    (hroot : root.2 = totalDiff l) (hT : 1 ≤ totalDiff l) (hd : 1 ≤ d)
    (hsum : σ ≠ [] → (getRoot hc σ).2 = prefixDiff l b) :
    weightErr hc root σ (wblk l b) d = false := by
  rw [weightErr]
  cases σ with
  | nil =>
    have h : ([] : List VEntry).isEmpty = true := rfl
    rw [if_pos h]
  | cons e σ2 =>
    rw [if_neg (by simp)]
    simp only [wblk]
    have hs := hsum (by simp)
    have hTQ : ((totalDiff l : ℚ)) ≠ 0 := by
      have h0 : (0 : ℚ) < (totalDiff l : ℚ) := by
        exact_mod_cast (by omega : 0 < totalDiff l)
      exact ne_of_gt h0
    have hmid : (⌈((prefixDiff l b : ℚ) / (totalDiff l : ℚ)) *
        ((root.2 : ℚ))⌉ : ℤ) = (prefixDiff l b : ℤ) := by
      rw [hroot, div_mul_cancel₀ _ hTQ]
      exact Int.ceil_natCast _
    apply decide_eq_false
    rw [hs, hmid]
    push_cast
    intro hor
    rcases hor with h | h
    · exact lt_irrefl _ h
    · have hd2 : (1 : ℚ) ≤ (d : ℚ) := by exact_mod_cast hd
      linarith

/-! ### Step equations for the verifier's main loop -/

theorem processStream_nil (hc : MmrElem → MmrElem → Nat) (root : Nat × Nat)
    (n : Nat) (blocks : List ProofBlock) (nodes : List VEntry) :
    processStream hc root n [] blocks nodes = .ok nodes := by
  rw [processStream.eq_def]

theorem processStream_child_node (hc : MmrElem → MmrElem → Nat)
    (root : Nat × Nat) (n : Nat) (ch nd : Nat × Nat) (dir : Bool)
    (rest2 : List ProofElem) (pb : ProofBlock) (brest : List ProofBlock)
    (nodes : List VEntry) (hw : weightErr hc root nodes pb ch.2 = false)
    (h2 : pb.number % 2 = 0) (h3 : pb.number ≠ (n + 2 ^ 64 - 1) % 2 ^ 64) :
    processStream hc root n (.Child ch :: .Node nd dir :: rest2)
        (pb :: brest) nodes =
      processStream hc root n rest2 brest
        (collapseNodes hc rest2.isEmpty
          (((hc ⟨ch.1, ch.2⟩ ⟨nd.1, nd.2⟩, ch.2 + nd.2),
            some (pb.number / 2), some (n / 2)) :: nodes)) := by
  rw [processStream.eq_def]
  dsimp only
  rw [if_neg (by rw [hw]; exact Bool.false_ne_true)]
  rw [if_pos ⟨h2, h3⟩]

theorem processStream_child_child (hc : MmrElem → MmrElem → Nat)
    (root : Nat × Nat) (n : Nat) (ch c2 : Nat × Nat)
    (rest2 : List ProofElem) (pb pb2 : ProofBlock) (brest : List ProofBlock)
    (nodes : List VEntry) (hw : weightErr hc root nodes pb ch.2 = false)
    (h2 : pb.number % 2 = 0) (h3 : pb.number ≠ (n + 2 ^ 64 - 1) % 2 ^ 64) :
    processStream hc root n (.Child ch :: .Child c2 :: rest2)
        (pb :: pb2 :: brest) nodes =
      processStream hc root n rest2 brest
        (collapseNodes hc rest2.isEmpty
          (((hc ⟨ch.1, ch.2⟩ ⟨c2.1, c2.2⟩, ch.2 + c2.2),
            some (pb.number / 2), some (n / 2)) :: nodes)) := by
  rw [processStream.eq_def]
  dsimp only
  rw [if_neg (by rw [hw]; exact Bool.false_ne_true)]
  rw [if_pos ⟨h2, h3⟩]

theorem processStream_child_odd (hc : MmrElem → MmrElem → Nat)
    (root : Nat × Nat) (n : Nat) (ch : Nat × Nat) (rest : List ProofElem)
    (pb : ProofBlock) (brest : List ProofBlock) (v : Nat × Nat)
    (io : Option Nat) (lo : Option Nat) (nrest : List VEntry)
    (hw : weightErr hc root ((v, io, lo) :: nrest) pb ch.2 = false)
    (hcond : ¬(pb.number % 2 = 0 ∧
      pb.number ≠ (n + 2 ^ 64 - 1) % 2 ^ 64)) :
    processStream hc root n (.Child ch :: rest) (pb :: brest)
        ((v, io, lo) :: nrest) =
      processStream hc root n rest brest
        (collapseNodes hc rest.isEmpty
          (((hc ⟨v.1, v.2⟩ ⟨ch.1, ch.2⟩, ch.2 + v.2),
            some (pb.number / 2), some (n / 2)) :: nrest)) := by
  rw [processStream.eq_def]
  dsimp only
  rw [if_neg (by rw [hw]; exact Bool.false_ne_true)]
  rw [if_neg hcond]

theorem processStream_node_false (hc : MmrElem → MmrElem → Nat)
    (root : Nat × Nat) (n : Nat) (nd : Nat × Nat) (rest : List ProofElem)
    (blocks : List ProofBlock) (nodes : List VEntry) :
    processStream hc root n (.Node nd false :: rest) blocks nodes =
      processStream hc root n rest blocks
        (collapseNodes hc rest.isEmpty ((nd, none, none) :: nodes)) := by
  rw [processStream.eq_def]
  dsimp only
  rw [if_neg Bool.false_ne_true]

theorem processStream_node_true (hc : MmrElem → MmrElem → Nat)
    (root : Nat × Nat) (n : Nat) (nd : Nat × Nat) (rest : List ProofElem)
    (blocks : List ProofBlock) (v : Nat × Nat) (li cl : Nat)
    (nrest : List VEntry) :
    processStream hc root n (.Node nd true :: rest) blocks
        ((v, some li, some cl) :: nrest) =
      processStream hc root n rest blocks
        (collapseNodes hc rest.isEmpty
          (((hc ⟨v.1, v.2⟩ ⟨nd.1, nd.2⟩, v.2 + nd.2),
            some (li / 2), some (cl / 2)) :: nrest)) := by
  rw [processStream.eq_def]
  dsimp only
  rw [if_pos rfl]

/-! ### The generator emits the pruned stream -/

/-- On a canonical store, `generate_proof_recursive` called on the root
slot of the subtree at `(a, c)` emits exactly the subtree's pruned
stream, provided `max_left` is the subtree's split boundary. -/
theorem genRec_eq_pruned (hc : MmrElem → MmrElem → Nat) (l : List MmrElem)
    (hn : 1 ≤ l.length) :
    ∀ c a S maxLeft, Within 0 l.length a c →
      (2 ≤ c → maxLeft = a + getLeftLeafNumber c) →
      genRec (flatten hc (buildTree l)) S maxLeft c (nodePos a c) =
        pruned hc l c a S := by
  intro c
  induction c using Nat.strong_induction_on with
  | _ c ih =>
    intro a S maxLeft hW hml
    obtain ⟨g1, g2, g3, g4, g5, g6⟩ := within_bounds hW hn (dvd_zero _)
    rcases Nat.lt_or_ge c 2 with h2 | h2
    · have hc1 : c = 1 := by omega
      subst hc1
      rw [genRec, hasChildren_canonical hc l hW hn]
      rw [if_pos (by decide)]
      rw [store_sub_read hc l hW hn, pruned, if_pos (by omega)]
      rfl
    · have hml2 := hml h2
      subst hml2
      have hL1 := getLeftLeafNumber_pos h2
      have hL2 := getLeftLeafNumber_lt h2
      rw [genRec, hasChildren_canonical hc l hW hn]
      rw [if_neg (by simp [h2])]
      split
      · next heq =>
        rw [getChildren_canonical hc l hW hn, if_pos h2] at heq
        cases heq
      · next lpos rpos heq =>
        rw [getChildren_canonical hc l hW hn, if_pos h2] at heq
        injection heq with heq
        rw [Prod.mk.injEq] at heq
        obtain ⟨rfl, rfl⟩ := heq
        have hc1 : ¬(c ≤ 1) := by omega
        rw [pruned, if_neg hc1]
        congr 1
        · by_cases hTW :
              S.takeWhile (fun b =>
                decide (b < a + getLeftLeafNumber c)) = []
          · rw [if_neg (not_not_intro hTW), if_neg (not_not_intro hTW)]
            rw [store_sub_read hc l (hW.extend_left h2) hn]
            rfl
          · rw [if_pos hTW, if_pos hTW]
            refine ih (getLeftLeafNumber c) hL2 a _ _ (hW.extend_left h2) ?_
            intro hL2c
            have hge := getDepth_ge_one hL2c
            rw [if_neg (by omega), two_pow_getDepth_pred hL2c]
            have h2m := two_mul_getLeftLeafNumber hL2c
            rw [nextPow2_of_isPow2 (isPow2_getLeftLeafNumber h2)] at h2m
            omega
        · by_cases hDW :
              S.dropWhile (fun b =>
                decide (b < a + getLeftLeafNumber c)) = []
          · rw [if_neg (not_not_intro hDW), if_neg (not_not_intro hDW)]
            rw [store_sub_read hc l (hW.extend_right h2) hn]
            rfl
          · rw [if_pos hDW, if_pos hDW]
            refine ih (c - getLeftLeafNumber c) (by omega)
              (a + getLeftLeafNumber c) _ _ (hW.extend_right h2) ?_
            intro hR2
            have hge := getDepth_ge_one hR2
            rw [if_neg (by omega), two_pow_getDepth_pred hR2]

end FlyMMR
